import Mathlib

/-!
# Lab2: stacks, warm-up string functions and the infix-to-postfix converter

A shallow embedding of `src/main.h` / `src/main.cpp` and of the eight queens solver in
`src/Queens`.

* A C++ member function that mutates its object is a function from the object
  state to a result paired with the new state.  A `const` member function is a
  function of the state alone.
* A thrown exception is an `Except.error`; the object state that is left behind
  is returned next to it.
* `std::string` is `List Char`, one `Char` for each `char` of the string.
* Undefined behaviour (an array access out of bounds, a dereference of a
  pointer that is null or was deleted) is the explicit outcome
  `Err.undefined_behaviour`, so that "no undefined behaviour" is a theorem and
  not an assumption.
* `while` loops are modelled with a fuel argument; running out of fuel is the
  explicit outcome `Err.out_of_fuel`, so that a theorem giving an `ok` result
  also says that the loop finished.
* `new` always succeeds (`std::bad_alloc` is not modelled), and `int` arithmetic on `topIndex`
  is exact: its values stay between -1 and `N - 1`.
-/

namespace Lab2

/-! ## Outcomes -/

/-- Abnormal outcomes of a call: the two exceptions thrown in `main.cpp`, undefined behaviour,
and a loop of the model running out of fuel. -/
inductive Err where
  /-- Thrown by `ArrayStack::push`: `std::length_error("Max array exceeded.")`. -/
  | length_error
  /-- Thrown by `peek` of both stacks: `std::logic_error("Peek on empty ...")`. -/
  | logic_error
  /-- An out-of-bounds array access or an invalid pointer dereference / delete. -/
  | undefined_behaviour
  /-- A modelled loop did not finish within its fuel. -/
  | out_of_fuel
  deriving DecidableEq, Repr

deriving instance DecidableEq for Except

/-- Value-initialisation `T{}` of the element type, used by `T array[N] {}`. -/
class ValueInit (T : Type) where
  /-- The value-initialised element. -/
  zero : T

instance : ValueInit Char := ⟨Char.ofNat 0⟩

instance : ValueInit Int := ⟨0⟩

/-- The constant `constexpr int MIN_ARRAY_SIZE = 64;` of `main.h`. -/
def MIN_ARRAY_SIZE : Nat := 64

/-! ## ArrayStack -/

/-- The class `ArrayStack<T, N>`: `int topIndex; T array[N] {};`. -/
structure ArrayStack (T : Type) (N : Nat) where
  /-- Index of the top element (-1 indicates empty). -/
  topIndex : Int
  /-- Fixed-size array to store elements. -/
  array : List T
  /-- The array has exactly `N` slots. -/
  array_size : array.length = N

instance {T : Type} {N : Nat} [DecidableEq T] : DecidableEq (ArrayStack T N) := fun a b =>
  decidable_of_iff (a.topIndex = b.topIndex ∧ a.array = b.array)
    (by cases a; cases b; simp)

namespace ArrayStack

variable {T : Type} {N : Nat}

/-- The constructor `ArrayStack() : topIndex(-1)`; the array is value-initialised. -/
def construct [ValueInit T] : ArrayStack T N :=
  ⟨-1, List.replicate N ValueInit.zero, by simp⟩

/-- The read `array[i]`; out of bounds is undefined behaviour. -/
def arrayGet (s : ArrayStack T N) (i : Int) : Except Err T :=
  if 0 ≤ i then
    match s.array[i.toNat]? with
    | some v => .ok v
    | none => .error .undefined_behaviour
  else .error .undefined_behaviour

/-- The method `isEmpty`: `return topIndex == -1;`. -/
def isEmpty (s : ArrayStack T N) : Bool := s.topIndex == -1

/-- The method `push`: throws `length_error` when `topIndex == N - 1`, else
`array[++topIndex] = value`. -/
def push (s : ArrayStack T N) (value : T) : Except Err Unit × ArrayStack T N :=
  if s.topIndex = (N : Int) - 1 then (.error .length_error, s)
  else
    let i := s.topIndex + 1
    if 0 ≤ i ∧ i < (N : Int) then
      (.ok (), ⟨i, s.array.set i.toNat value, by simp [s.array_size]⟩)
    else (.error .undefined_behaviour, ⟨i, s.array, s.array_size⟩)

/-- The method `peek`: throws `logic_error` when empty, else `return array[topIndex];`. -/
def peek (s : ArrayStack T N) : Except Err T :=
  if s.isEmpty then .error .logic_error else s.arrayGet s.topIndex

/-- The method `pop`: `false` when empty, else `topIndex--` and `true`. -/
def pop (s : ArrayStack T N) : Bool × ArrayStack T N :=
  if s.isEmpty then (false, s) else (true, ⟨s.topIndex - 1, s.array, s.array_size⟩)

end ArrayStack

/-! ## Calls through the `StackADT` interface -/

/-- A call of one of the four virtual methods of `StackADT<T>`. -/
inductive Call (T : Type) where
  | isEmpty
  | push (value : T)
  | peek
  | pop
  deriving DecidableEq, Repr

/-- What a call of a `StackADT<T>` method gives back to its caller. -/
inductive Ret (T : Type) where
  /-- The `bool` returned by `isEmpty` or `pop`. -/
  | bool (b : Bool)
  /-- Normal return of the `void` method `push`. -/
  | done
  /-- The value returned by `peek`. -/
  | value (v : T)
  /-- The call did not return normally. -/
  | raised (e : Err)
  deriving DecidableEq, Repr

/-- One call on an `ArrayStack`. -/
def ArrayStack.call {T : Type} {N : Nat} (s : ArrayStack T N) :
    Call T → Ret T × ArrayStack T N
  | .isEmpty => (.bool s.isEmpty, s)
  | .push v =>
    match s.push v with
    | (.ok _, s1) => (.done, s1)
    | (.error e, s1) => (.raised e, s1)
  | .peek =>
    match s.peek with
    | .ok v => (.value v, s)
    | .error e => (.raised e, s)
  | .pop => let r := s.pop; (.bool r.1, r.2)

/-- A sequence of calls on one object: the results in call order and the final state. -/
def runCalls {σ κ ρ : Type} (call : σ → κ → ρ × σ) : σ → List κ → List ρ × σ
  | s, [] => ([], s)
  | s, c :: cs =>
    let r := call s c
    let rs := runCalls call r.2 cs
    (r.1 :: rs.1, rs.2)

/-! ## Node and ListStack

Nodes live in a free store.  `new` returns an address that was never used before, `delete`
marks the cell as released, so every use of a dangling pointer is detected as undefined
behaviour. -/

/-- The class `Node<T>`: `T value; Node* next;`.  A `Node*` is `none` (nullptr) or an address. -/
structure Node (T : Type) where
  /-- Data stored in the node. -/
  value : T
  /-- Pointer to the next node. -/
  next : Option Nat
  deriving DecidableEq, Repr

/-- The accessor `getValue`. -/
def Node.getValue {T : Type} (n : Node T) : T := n.value

/-- The accessor `getNext`. -/
def Node.getNext {T : Type} (n : Node T) : Option Nat := n.next

/-- The free store: cell `a` is `some n` while the node allocated at address `a` is live and
`none` once it was deleted; addresses from `length` on were never allocated. -/
abbrev Heap (T : Type) := List (Option (Node T))

namespace Heap

variable {T : Type}

/-- The expression `new Node<T>(value, next)`: the new address and the extended store. -/
def alloc (h : Heap T) (n : Node T) : Nat × Heap T := (h.length, h ++ [some n])

/-- The dereference `p->...`: undefined for nullptr and for a pointer that is not live. -/
def deref (h : Heap T) : Option Nat → Except Err (Node T)
  | none => .error .undefined_behaviour
  | some a =>
    match h[a]? with
    | some (some n) => .ok n
    | _ => .error .undefined_behaviour

/-- The statement `delete p;`: no effect for nullptr, undefined for a pointer that is not
live. -/
def delete (h : Heap T) : Option Nat → Except Err (Heap T)
  | none => .ok h
  | some a =>
    match h[a]? with
    | some (some _) => .ok (h.set a none)
    | _ => .error .undefined_behaviour

end Heap

/-- The class `ListStack<T>`: `Node<T>* top;`. -/
structure ListStack (T : Type) where
  /-- Pointer to the top node in the linked list. -/
  top : Option Nat
  deriving DecidableEq, Repr

namespace ListStack

variable {T : Type}

/-- The constructor `ListStack() : top(nullptr)`. -/
def construct : ListStack T := ⟨none⟩

/-- The method `isEmpty`: `return top == nullptr;`. -/
def isEmpty (s : ListStack T) : Bool := s.top.isNone

/-- The method `push`: `newNode = new Node<T>(value, top); top = newNode;`. -/
def push (h : Heap T) (s : ListStack T) (value : T) : Heap T × ListStack T :=
  let r := h.alloc ⟨value, s.top⟩
  (r.2, ⟨some r.1⟩)

/-- The method `peek`: throws `logic_error` when empty, else `return top->getValue();`. -/
def peek (h : Heap T) (s : ListStack T) : Except Err T :=
  if s.isEmpty then .error .logic_error
  else
    match h.deref s.top with
    | .ok n => .ok n.getValue
    | .error e => .error e

/-- The method `pop`: `false` when empty, else `temp = top; top = top->getNext(); delete temp;`
and `true`. -/
def pop (h : Heap T) (s : ListStack T) : Except Err Bool × (Heap T × ListStack T) :=
  if s.isEmpty then (.ok false, (h, s))
  else
    let temp := s.top
    match h.deref s.top with
    | .error e => (.error e, (h, s))
    | .ok n =>
      match h.delete temp with
      | .error e => (.error e, (h, ⟨n.getNext⟩))
      | .ok h1 => (.ok true, (h1, ⟨n.getNext⟩))

/-- The first loop of the copy constructor:
`for(current = other.top; current != nullptr; current = current->getNext())
   values.push_back(current->getValue());`. -/
def copyValues (h : Heap T) : Nat → Option Nat → List T → Except Err (List T)
  | _, none, values => .ok values
  | 0, some _, _ => .error .out_of_fuel
  | fuel + 1, some a, values =>
    match h.deref (some a) with
    | .error e => .error e
    | .ok n => copyValues h fuel n.getNext (values ++ [n.getValue])

/-- The second loop of the copy constructor:
`for(auto it = values.rbegin(); it != values.rend(); ++it) push(*it);`,
over the already reversed sequence. -/
def pushEach (h : Heap T) (s : ListStack T) : List T → Heap T × ListStack T
  | [] => (h, s)
  | v :: vs => let r := push h s v; pushEach r.1 r.2 vs

/-- The copy constructor `ListStack(const ListStack & other)`: the store after the copy and the
new object.  `other` is `const` and keeps its `top`.  The traversal of `other` gets one unit of
fuel for every cell of the free store. -/
def copyConstruct (h : Heap T) (other : ListStack T) : Except Err (Heap T × ListStack T) :=
  if other.top.isNone then .ok (h, ⟨none⟩)
  else
    match copyValues h h.length other.top [] with
    | .error e => .error e
    | .ok values => .ok (pushEach h ⟨none⟩ values.reverse)

/-- The move constructor `ListStack(ListStack && other) : top(other.top)` with
`other.top = nullptr`: the new object and `other` afterwards. -/
def moveConstruct (other : ListStack T) : ListStack T × ListStack T :=
  (⟨other.top⟩, ⟨none⟩)

/-- One call on a `ListStack` living in a free store. -/
def call (hs : Heap T × ListStack T) : Call T → Ret T × (Heap T × ListStack T)
  | .isEmpty => (.bool hs.2.isEmpty, hs)
  | .push v => (.done, push hs.1 hs.2 v)
  | .peek =>
    match peek hs.1 hs.2 with
    | .ok v => (.value v, hs)
    | .error e => (.raised e, hs)
  | .pop =>
    match pop hs.1 hs.2 with
    | (.ok b, hs1) => (.bool b, hs1)
    | (.error e, hs1) => (.raised e, hs1)

end ListStack

/-- Which of two `ListStack` objects sharing one free store a call goes to. -/
inductive Which where
  | fst
  | snd
  deriving DecidableEq, Repr

/-- One call on one of two `ListStack` objects that live in the same free store. -/
def ListStack.callOn {T : Type} (c : Heap T × ListStack T × ListStack T) :
    Which × Call T → Ret T × (Heap T × ListStack T × ListStack T)
  | (.fst, k) => let r := ListStack.call (c.1, c.2.1) k; (r.1, (r.2.1, r.2.2, c.2.2))
  | (.snd, k) => let r := ListStack.call (c.1, c.2.2) k; (r.1, (r.2.1, c.2.1, r.2.2))

/-! ## Warm-up functions (Part 2) -/

/-- The stack type used by all four string functions: `ArrayStack<char, MIN_ARRAY_SIZE>`. -/
abbrev CharStack := ArrayStack Char MIN_ARRAY_SIZE

/-- The loop `while(!stack.isEmpty() && p(stack.peek())) { out.push_back(stack.peek());
stack.pop(); }`.  It occurs with `p` always true in `isPalindrome`, `reversedString` and at the
end of `infixToPostFix`, and with two other tests inside `infixToPostFix`. -/
def popWhile (p : Char → Bool) : Nat → CharStack → List Char → Except Err (CharStack × List Char)
  | fuel, stack, out =>
    if stack.isEmpty then .ok (stack, out)
    else
      match stack.peek with
      | .error e => .error e
      | .ok t =>
        if p t then
          match fuel with
          | 0 => .error .out_of_fuel
          | fuel + 1 => popWhile p fuel stack.pop.2 (out ++ [t])
        else .ok (stack, out)

/-- The fuel given to `popWhile`: the number of stored elements, `topIndex + 1`. -/
def loopFuel (stack : CharStack) : Nat := (stack.topIndex + 1).toNat

/-- The loop `for(char ch : inputString) { stack.push(ch); }`. -/
def pushChars : CharStack → List Char → Except Err CharStack
  | stack, [] => .ok stack
  | stack, ch :: rest =>
    match stack.push ch with
    | (.ok _, stack1) => pushChars stack1 rest
    | (.error e, _) => .error e

/-- The loop of `areCurleyBracesMatched` with its early `return false` and the final
`return stack.isEmpty();`. -/
def bracesLoop : CharStack → List Char → Except Err Bool
  | stack, [] => .ok stack.isEmpty
  | stack, ch :: rest =>
    if ch = '{' then
      match stack.push ch with
      | (.ok _, stack1) => bracesLoop stack1 rest
      | (.error e, _) => .error e
    else if ch = '}' then
      if stack.isEmpty then .ok false
      else bracesLoop stack.pop.2 rest
    else bracesLoop stack rest

/-- The function `areCurleyBracesMatched`. -/
def areCurleyBracesMatched (inputString : List Char) : Except Err Bool :=
  bracesLoop ArrayStack.construct inputString

/-- The function `reversedString`. -/
def reversedString (inputString : List Char) : Except Err (List Char) :=
  match pushChars ArrayStack.construct inputString with
  | .error e => .error e
  | .ok stack =>
    match popWhile (fun _ => true) (loopFuel stack) stack [] with
    | .error e => .error e
    | .ok r => .ok r.2

/-- The function `isPalindrome`. -/
def isPalindrome (inputString : List Char) : Except Err Bool :=
  match pushChars ArrayStack.construct inputString with
  | .error e => .error e
  | .ok stack =>
    match popWhile (fun _ => true) (loopFuel stack) stack [] with
    | .error e => .error e
    | .ok r => .ok (inputString == r.2)

/-! ## Infix to postfix converter (Part 3) -/

/-- The test on `stack.peek()` in the operator loop of `infixToPostFix`, for the operator `ch`
being read. -/
def yields (ch t : Char) : Bool :=
  t != '(' && ((t == '*' || t == '/') || ((t == '+' || t == '-') && (ch == '+' || ch == '-')))

/-- The body of the `for(char ch : infix)` loop of `infixToPostFix`. -/
def infixStep (stack : CharStack) (output : List Char) (ch : Char) :
    Except Err (CharStack × List Char) :=
  if ch.isAlpha then .ok (stack, output ++ [ch])
  else if ch = '+' ∨ ch = '-' ∨ ch = '*' ∨ ch = '/' then
    match popWhile (yields ch) (loopFuel stack) stack output with
    | .error e => .error e
    | .ok r =>
      match r.1.push ch with
      | (.ok _, stack1) => .ok (stack1, r.2)
      | (.error e, _) => .error e
  else if ch = '(' then
    match stack.push ch with
    | (.ok _, stack1) => .ok (stack1, output)
    | (.error e, _) => .error e
  else if ch = ')' then
    match popWhile (fun t => t != '(') (loopFuel stack) stack output with
    | .error e => .error e
    | .ok r =>
      if r.1.isEmpty then .ok r
      else
        match r.1.peek with
        | .error e => .error e
        | .ok t => if t == '(' then .ok (r.1.pop.2, r.2) else .ok r
  else .ok (stack, output)

/-- The `for(char ch : infix)` loop of `infixToPostFix`. -/
def infixLoop : CharStack → List Char → List Char → Except Err (CharStack × List Char)
  | stack, output, [] => .ok (stack, output)
  | stack, output, ch :: rest =>
    match infixStep stack output ch with
    | .error e => .error e
    | .ok r => infixLoop r.1 r.2 rest

/-- The function `infixToPostFix`. -/
def infixToPostFix (input : List Char) : Except Err (List Char) :=
  match infixLoop ArrayStack.construct [] input with
  | .error e => .error e
  | .ok r =>
    match popWhile (fun _ => true) (loopFuel r.1) r.1 r.2 with
    | .error e => .error e
    | .ok r1 => .ok r1.2

/-! ## Reference model of a LIFO stack

The values that were pushed and not yet popped, most recent first, are a `List`.  The model is
used to say what "the most recently pushed, not yet popped value" and "the contents" of a stack
are. -/

/-- One call on the reference stack holding `l` (most recent first); `cap` is the capacity of
the bounded variant, `none` for the unbounded one. -/
def Model.call {T : Type} (cap : Option Nat) (l : List T) : Call T → Ret T × List T
  | .isEmpty => (.bool l.isEmpty, l)
  | .push v => if cap = some l.length then (.raised .length_error, l) else (.done, v :: l)
  | .peek =>
    match l with
    | [] => (.raised .logic_error, l)
    | v :: _ => (.value v, l)
  | .pop =>
    match l with
    | [] => (.bool false, l)
    | _ :: rest => (.bool true, rest)

/-- The values pushed and not yet popped after the calls `cs` on a new stack, most recent first;
a push onto a full bounded stack does not count. -/
def live {T : Type} (cap : Option Nat) (cs : List (Call T)) : List T :=
  (runCalls (Model.call cap) [] cs).2

/-- The `ArrayStack` `s` holds exactly the values `l`, top first: the element count is
`topIndex + 1` and the first slots of the array are `l` from bottom to top. -/
def ArrayStack.Holds {T : Type} {N : Nat} (s : ArrayStack T N) (l : List T) : Prop :=
  s.topIndex + 1 = l.length ∧ s.array.take l.length = l.reverse

/-- From `p`, the nodes at the addresses `c.map Prod.fst` are live, linked in this order, carry
the values `c.map Prod.snd`, and the last one has a null `next`. -/
def Heap.IsChain {T : Type} (h : Heap T) : Option Nat → List (Nat × T) → Prop
  | p, [] => p = none
  | p, av :: rest => p = some av.1 ∧ ∃ nx, h[av.1]? = some (some ⟨av.2, nx⟩) ∧ IsChain h nx rest

/-- The `ListStack` `s` in the free store `h` holds exactly the values `l`, top first. -/
def ListStack.Holds {T : Type} (h : Heap T) (s : ListStack T) (l : List T) : Prop :=
  ∃ c, h.IsChain s.top c ∧ c.map Prod.snd = l

/-! ## Two stacks in one free store: reference model -/

/-- One call on one of two independent reference stacks. -/
def Model.callOn {T : Type} (m : List T × List T) : Which × Call T → Ret T × (List T × List T)
  | (.fst, k) => let r := Model.call none m.1 k; (r.1, (r.2, m.2))
  | (.snd, k) => let r := Model.call none m.2 k; (r.1, (m.1, r.2))

/-- The calls of `ks` that go to the stack `w`, in order. -/
def callsTo {T : Type} (w : Which) (ks : List (Which × Call T)) : List (Call T) :=
  (ks.filter fun k => k.1 == w).map Prod.snd

/-! ## Properly nested braces -/

/-- The number of `{` of a string that no later `}` of the string closes. -/
def unclosed (s : List Char) : Nat :=
  s.foldl (fun d c => if c = '{' then d + 1 else if c = '}' then d - 1 else d) 0

/-- The curly braces of a string, all other characters left out. -/
def braces (s : List Char) : List Char :=
  s.filter fun c => c = '{' ∨ c = '}'

/-- Properly nested sequences of curly braces: the empty sequence, and `{ u } w` for properly
nested `u` and `w`. -/
inductive Dyck : List Char → Prop where
  | nil : Dyck []
  | wrap {u w : List Char} : Dyck u → Dyck w → Dyck ('{' :: u ++ '}' :: w)

/-- The scan of `areCurleyBracesMatched` with the stack replaced by its element count. -/
def depthScan : Nat → List Char → Bool
  | d, [] => d == 0
  | d, ch :: rest =>
    if ch = '{' then depthScan (d + 1) rest
    else if ch = '}' then (if d = 0 then false else depthScan (d - 1) rest)
    else depthScan d rest

/-- The number of open `{` after `s`, starting from `d` open ones. -/
def unclosedFrom (d : Nat) (s : List Char) : Nat :=
  s.foldl (fun d c => if c = '{' then d + 1 else if c = '}' then d - 1 else d) d

/-- The string `w` is `u0 } u1 } ... } ud` with every `ui` properly nested: it closes `d` braces
that were opened before it. -/
def Closes : Nat → List Char → Prop
  | 0, w => Dyck w
  | d + 1, w => ∃ u v, w = u ++ '}' :: v ∧ Dyck u ∧ Closes d v

/-! ## The converter on a list instead of the array stack -/

/-- The body of the loop of `infixToPostFix` with the stack given as the list of its values,
top first. -/
def listStep (st out : List Char) (ch : Char) : List Char × List Char :=
  if ch.isAlpha then (st, out ++ [ch])
  else if ch = '+' ∨ ch = '-' ∨ ch = '*' ∨ ch = '/' then
    (ch :: st.dropWhile (yields ch), out ++ st.takeWhile (yields ch))
  else if ch = '(' then (ch :: st, out)
  else if ch = ')' then
    ((st.dropWhile fun t => t != '(').tail, out ++ st.takeWhile fun t => t != '(')
  else (st, out)

/-- The loop of `infixToPostFix` on the list form of the stack. -/
def listLoop : List Char → List Char → List Char → List Char × List Char
  | st, out, [] => (st, out)
  | st, out, ch :: rest => listLoop (listStep st out ch).1 (listStep st out ch).2 rest

/-- The function `infixToPostFix` on the list form of the stack. -/
def listConvert (input : List Char) : List Char :=
  (listLoop [] [] input).2 ++ (listLoop [] [] input).1

/-- The characters that make `infixToPostFix` push: the four operators and `(`. -/
def isPushed (ch : Char) : Bool :=
  !ch.isAlpha && (ch == '+' || ch == '-' || ch == '*' || ch == '/' || ch == '(')

/-! ## Infix expressions and their parse trees -/

/-- Parse trees of infix expressions: a single-letter operand or a binary operation. -/
inductive Expr where
  | var (c : Char)
  | bin (op : Char) (l r : Expr)
  deriving DecidableEq, Repr

/-- The post-order rendering of a parse tree: left operand, right operand, operator. -/
def Expr.post : Expr → List Char
  | .var c => [c]
  | .bin op l r => l.post ++ r.post ++ [op]

/-- The three precedence levels of the infix grammar. -/
inductive Level where
  /-- Sums: terms joined by `+` and `-`. -/
  | sum
  /-- Terms: factors joined by `*` and `/`. -/
  | term
  /-- Factors: a letter or a parenthesised sum. -/
  | factor
  deriving DecidableEq, Repr

/-- The string `w` is a well-formed infix expression of the given level with parse tree `e`:
`sum ::= sum (+|-) term | term`, `term ::= term (*|/) factor | factor`,
`factor ::= letter | ( sum )`.  So `*` and `/` bind tighter than `+` and `-`, and operators of
equal precedence associate to the left; parentheses leave no trace in the tree. -/
inductive Parses : Level → List Char → Expr → Prop where
  | letter (c : Char) : c.isAlpha = true → Parses .factor [c] (.var c)
  | paren {w : List Char} {e : Expr} : Parses .sum w e → Parses .factor ('(' :: w ++ [')']) e
  | factor {w : List Char} {e : Expr} : Parses .factor w e → Parses .term w e
  | mul {w1 w2 : List Char} {e1 e2 : Expr} {op : Char} :
      Parses .term w1 e1 → op = '*' ∨ op = '/' → Parses .factor w2 e2 →
      Parses .term (w1 ++ op :: w2) (.bin op e1 e2)
  | term {w : List Char} {e : Expr} : Parses .term w e → Parses .sum w e
  | add {w1 w2 : List Char} {e1 e2 : Expr} {op : Char} :
      Parses .sum w1 e1 → op = '+' ∨ op = '-' → Parses .term w2 e2 →
      Parses .sum (w1 ++ op :: w2) (.bin op e1 e2)

/-- The operators that an expression of the given level may leave pending on the stack. -/
def pendOk : Level → Char → Prop
  | .factor, _ => False
  | .term, t => t = '*' ∨ t = '/'
  | .sum, t => t = '+' ∨ t = '-' ∨ t = '*' ∨ t = '/'

/-- The stack tops below which an expression of the given level may start. -/
def ctxOk : Level → Char → Prop
  | .factor, _ => True
  | .term, t => ¬ (t = '*' ∨ t = '/')
  | .sum, t => ¬ (t = '+' ∨ t = '-' ∨ t = '*' ∨ t = '/')

/-! ## The destructor of ListStack -/

/-- The loop `while(pop()) {}` of the destructor `~ListStack()`, with a count of the calls of
`pop` that returned true: the final count and the state after the call that returned false. -/
def ListStack.destructLoop {T : Type} :
    Nat → Nat → Heap T → ListStack T → Except Err (Nat × (Heap T × ListStack T))
  | 0, _, _, _ => .error .out_of_fuel
  | fuel + 1, count, h, s =>
    match ListStack.pop h s with
    | (.error e, _) => .error e
    | (.ok true, hs) => destructLoop fuel (count + 1) hs.1 hs.2
    | (.ok false, hs) => .ok (count, hs)

/-- The destructor `~ListStack()`: the number of successful pops and the state left behind.  The
loop gets one unit of fuel for every cell of the free store and one more for the last call. -/
def ListStack.destruct {T : Type} (h : Heap T) (s : ListStack T) :
    Except Err (Nat × (Heap T × ListStack T)) :=
  ListStack.destructLoop (h.length + 1) 0 h s

/-! ## Eight queens (`src/Queens/EightQueensSolver.h`, `EightQueensSolver.cpp`) -/

/-- The constant `constexpr int BOARD_SIZE = 8;`. -/
def BOARD_SIZE : Nat := 8

/-- The class `EightQueensSolver`: `int board[BOARD_SIZE][BOARD_SIZE];`, row by row; 0 means
empty, 1 means a queen is placed. -/
structure EightQueensSolver where
  /-- The rows of the board. -/
  board : List (List Int)
  /-- There are `BOARD_SIZE` rows. -/
  rows_size : board.length = BOARD_SIZE
  /-- Every row has `BOARD_SIZE` cells. -/
  cols_size : ∀ row ∈ board, row.length = BOARD_SIZE

instance : DecidableEq EightQueensSolver := fun a b =>
  decidable_of_iff (a.board = b.board) (by cases a; cases b; simp)

namespace EightQueensSolver

/-- The constructor: every cell is set to 0. -/
def construct : EightQueensSolver :=
  ⟨List.replicate BOARD_SIZE (List.replicate BOARD_SIZE 0), by simp,
    fun row h => by rw [List.eq_of_mem_replicate h]; simp⟩

/-- The value of `board[r][c]` for indices within the board. -/
def cell (s : EightQueensSolver) (r c : Nat) : Int := (s.board.getD r []).getD c 0

/-- The read `board[r][c]` with `int` indices; out of bounds is undefined behaviour. -/
def read (s : EightQueensSolver) (r c : Int) : Except Err Int :=
  if 0 ≤ r ∧ r < (BOARD_SIZE : Int) ∧ 0 ≤ c ∧ c < (BOARD_SIZE : Int) then
    .ok (s.cell r.toNat c.toNat)
  else .error .undefined_behaviour

/-- The board with the cell `(r, c)` replaced by `v`. -/
def setCell (s : EightQueensSolver) (r c : Nat) (v : Int) : EightQueensSolver :=
  ⟨s.board.set r ((s.board.getD r []).set c v), by simp [s.rows_size], fun row h => by
    by_cases hr : r < s.board.length
    · rcases List.mem_or_eq_of_mem_set h with h1 | h1
      · exact s.cols_size row h1
      · rw [h1, List.length_set, List.getD_eq_getElem _ _ hr]
        exact s.cols_size _ (List.getElem_mem hr)
    · rw [List.set_eq_of_length_le (Nat.le_of_not_lt hr)] at h
      exact s.cols_size row h⟩

/-- The assignment `board[r][c] = v` with `int` indices; out of bounds is undefined
behaviour. -/
def write (s : EightQueensSolver) (r c : Int) (v : Int) : Except Err EightQueensSolver :=
  if 0 ≤ r ∧ r < (BOARD_SIZE : Int) ∧ 0 ≤ c ∧ c < (BOARD_SIZE : Int) then
    .ok (s.setCell r.toNat c.toNat v)
  else .error .undefined_behaviour

/-- The first loop of `isSafe`: `for(int r = 0; r < row; ++r) if(board[r][col] == 1) return
false;`.  The result is false when the loop returned false and true when it ran to its end. -/
def isSafeColumn (s : EightQueensSolver) (row col : Int) : Nat → Int → Except Err Bool
  | fuel, r =>
    if r < row then
      match fuel with
      | 0 => .error .out_of_fuel
      | fuel + 1 =>
        match s.read r col with
        | .error e => .error e
        | .ok v => if v = 1 then .ok false else isSafeColumn s row col fuel (r + 1)
    else .ok true

/-- The second loop of `isSafe`: `for(int r = row, c = col; r >= 0 && c >= 0; --r, --c)
if(board[r][c] == 1) return false;`. -/
def isSafeUpLeft (s : EightQueensSolver) : Nat → Int → Int → Except Err Bool
  | fuel, r, c =>
    if 0 ≤ r ∧ 0 ≤ c then
      match fuel with
      | 0 => .error .out_of_fuel
      | fuel + 1 =>
        match s.read r c with
        | .error e => .error e
        | .ok v => if v = 1 then .ok false else isSafeUpLeft s fuel (r - 1) (c - 1)
    else .ok true

/-- The third loop of `isSafe`: `for(int r = row, c = col; r >= 0 && c < BOARD_SIZE; --r, ++c)
if(board[r][c] == 1) return false;`. -/
def isSafeUpRight (s : EightQueensSolver) : Nat → Int → Int → Except Err Bool
  | fuel, r, c =>
    if 0 ≤ r ∧ c < (BOARD_SIZE : Int) then
      match fuel with
      | 0 => .error .out_of_fuel
      | fuel + 1 =>
        match s.read r c with
        | .error e => .error e
        | .ok v => if v = 1 then .ok false else isSafeUpRight s fuel (r - 1) (c + 1)
    else .ok true

/-- The method `isSafe(row, col)`, a `const` method: the three loops in turn, then `return
true`.  The first loop gets `row` units of fuel, the other two `row + 1`. -/
def isSafe (s : EightQueensSolver) (row col : Int) : Except Err Bool :=
  match s.isSafeColumn row col row.toNat 0 with
  | .error e => .error e
  | .ok false => .ok false
  | .ok true =>
    match s.isSafeUpLeft (row + 1).toNat row col with
    | .error e => .error e
    | .ok false => .ok false
    | .ok true => s.isSafeUpRight (row + 1).toNat row col

/-- The loop `for(int col = 0; col < BOARD_SIZE; ++col)` of `placeQueen(row)` followed by its
`return false`; `recurse` stands for the recursive call `placeQueen(row + 1)`. -/
def tryColumns (recurse : EightQueensSolver → Int → Except Err (Bool × EightQueensSolver))
    (row : Int) : Nat → EightQueensSolver → Int → Except Err (Bool × EightQueensSolver)
  | fuel, s, col =>
    if col < (BOARD_SIZE : Int) then
      match fuel with
      | 0 => .error .out_of_fuel
      | fuel + 1 =>
        match s.isSafe row col with
        | .error e => .error e
        | .ok false => tryColumns recurse row fuel s (col + 1)
        | .ok true =>
          match s.write row col 1 with
          | .error e => .error e
          | .ok s1 =>
            match recurse s1 (row + 1) with
            | .error e => .error e
            | .ok (true, s2) => .ok (true, s2)
            | .ok (false, s2) =>
              match s2.write row col 0 with
              | .error e => .error e
              | .ok s3 => tryColumns recurse row fuel s3 (col + 1)
    else .ok (false, s)

/-- The method `placeQueen(row)`: the result and the board it leaves.  The fuel bounds the depth
of the recursion. -/
def placeQueen : Nat → EightQueensSolver → Int → Except Err (Bool × EightQueensSolver)
  | 0, s, row => if row = (BOARD_SIZE : Int) then .ok (true, s) else .error .out_of_fuel
  | fuel + 1, s, row =>
    if row = (BOARD_SIZE : Int) then .ok (true, s)
    else tryColumns (placeQueen fuel) row BOARD_SIZE s 0

/-- The method `boardToString`, a `const` method: `Q` or `.` for every cell, a blank between
the cells of a row, a newline after every row. -/
def boardToString (s : EightQueensSolver) : List Char :=
  (List.range BOARD_SIZE).flatMap fun r =>
    ((List.range BOARD_SIZE).flatMap fun c =>
      (if s.cell r c = 1 then 'Q' else '.') :: (if c < BOARD_SIZE - 1 then [' '] else [])) ++
    ['\n']

/-- The message returned by `solve` when `placeQueen(0)` fails. -/
def noSolution : List Char := "No solution found (unexpected for an 8x8 board).".toList

/-- The method `solve`: the returned string and the object afterwards.  The recursion of
`placeQueen` gets `BOARD_SIZE` units of fuel, one for every row. -/
def solve (s : EightQueensSolver) : Except Err (List Char × EightQueensSolver) :=
  match placeQueen BOARD_SIZE s 0 with
  | .error e => .error e
  | .ok (true, s1) => .ok (s1.boardToString, s1)
  | .ok (false, s1) => .ok (noSolution, s1)

end EightQueensSolver

/-! ## Reading a grid rendering -/

/-- The lines of a string, each ended by a newline (the last one possibly not). -/
def gridLines (grid : List Char) : List (List Char) :=
  grid.foldr (fun ch acc =>
    if ch = '\n' then [] :: acc
    else
      match acc with
      | [] => [[ch]]
      | line :: lines => (ch :: line) :: lines) []

/-- Whether the grid shows a `Q` in row `r` and column `c`: the cells of a line are two
characters apart. -/
def markerAt (grid : List Char) (r c : Nat) : Bool :=
  ((gridLines grid).getD r []).getD (2 * c) ' ' == 'Q'

/-- The squares `(row, column)` of an 8 by 8 grid that show a `Q`, row by row. -/
def queensOf (grid : List Char) : List (Nat × Nat) :=
  (List.range 8).flatMap fun r =>
    ((List.range 8).filter fun c => markerAt grid r c).map fun c => (r, c)

/-! ## Unclosed parentheses -/

/-- The number of `(` of a string that no later `)` of the string closes, a `)` closing the
nearest `(` before it that is still open. -/
def unclosedParens (s : List Char) : Nat :=
  s.foldl (fun d c => if c = '(' then d + 1 else if c = ')' then d - 1 else d) 0

/-- The number of open `(` after `s`, starting from `d` open ones. -/
def unclosedParensFrom (d : Nat) (s : List Char) : Nat :=
  s.foldl (fun d c => if c = '(' then d + 1 else if c = ')' then d - 1 else d) d

/-- Every cell of the board holds 0 (empty) or 1 (a queen), the only values the class ever
stores. -/
def EightQueensSolver.Binary (s : EightQueensSolver) : Prop :=
  ∀ r c, r < 8 → c < 8 → s.cell r c = 0 ∨ s.cell r c = 1

/-! ## Placements of eight queens -/

/-- A valid 8-queens placement given by the columns of the queens of rows 0..7: eight columns
below 8, and no two queens in the same column or on the same diagonal. -/
def ValidPlacement (cols : List Nat) : Prop :=
  cols.length = 8 ∧ (∀ c ∈ cols, c < 8) ∧
    ∀ i j, i < j → j < 8 →
      cols.getD i 0 ≠ cols.getD j 0 ∧ cols.getD i 0 + j ≠ cols.getD j 0 + i ∧
        cols.getD i 0 + i ≠ cols.getD j 0 + j

/-- The lexicographic order on column sequences: `a` comes strictly before `b`. -/
def lexLt : List Nat → List Nat → Bool
  | [], [] => false
  | [], _ :: _ => true
  | _ :: _, [] => false
  | a :: as, b :: bs => a < b || (a == b && lexLt as bs)

/-- Whether a queen in column `c` of the next row attacks none of the queens `placed` in the
rows before it. -/
def safeAfter (placed : List Nat) (c : Nat) : Bool :=
  (List.range placed.length).all fun i =>
    placed.getD i 0 != c && placed.getD i 0 + placed.length != c + i &&
      placed.getD i 0 + i != c + placed.length

/-- All ways to add `k` more rows to the queens `placed` without any attack, in lexicographic
order. -/
def placements : Nat → List Nat → List (List Nat)
  | 0, placed => [placed]
  | k + 1, placed =>
    (List.range 8).flatMap fun c =>
      if safeAfter placed c then placements k (placed ++ [c]) else []

/-! ## The depth of the operator stack -/

/-- The characters that wait on the operator stack of `infixToPostFix` once the characters of `s`
have been read, top first, on a stack that has room for all of them. -/
def pending (s : List Char) : List Char :=
  (listLoop [] [] s).1

/-! ## ArrayStack against the reference model -/

namespace ArrayStack

variable {T : Type} {N : Nat}

theorem arr_length_le {s : ArrayStack T N} {l : List T} (hs : s.Holds l) : l.length ≤ N := by
  have h := congrArg List.length hs.2
  simp [s.array_size] at h
  exact h

theorem arr_holds_construct [ValueInit T] : (construct : ArrayStack T N).Holds [] := by
  simp [Holds, construct]

theorem arr_isEmpty {s : ArrayStack T N} {l : List T} (hs : s.Holds l) :
    s.isEmpty = l.isEmpty := by
  have h1 := hs.1
  cases l with
  | nil => simp [ArrayStack.isEmpty] at *; omega
  | cons v t => simp [ArrayStack.isEmpty] at *; omega

theorem arr_push_full {s : ArrayStack T N} {l : List T} (hs : s.Holds l) (v : T)
    (hfull : l.length = N) : s.push v = (.error .length_error, s) := by
  have h1 := hs.1
  have : s.topIndex = (N : Int) - 1 := by omega
  simp [push, this]

theorem arr_push_ok {s : ArrayStack T N} {l : List T} (hs : s.Holds l) (v : T)
    (hroom : l.length ≠ N) :
    (s.push v).1 = .ok () ∧ (s.push v).2.Holds (v :: l) ∧
      (s.push v).2.topIndex = s.topIndex + 1 := by
  have h1 := hs.1
  have hle := arr_length_le hs
  have hne : ¬ s.topIndex = (N : Int) - 1 := by omega
  have hin : 0 ≤ s.topIndex + 1 ∧ s.topIndex + 1 < (N : Int) := by omega
  have hi : (s.topIndex + 1).toNat = l.length := by omega
  have hlt : l.length < s.array.length := by rw [s.array_size]; omega
  have hp : s.push v = (.ok (), ⟨s.topIndex + 1, s.array.set l.length v,
      by simp [s.array_size]⟩) := by
    simp [push, hne, hin, hi]
  rw [hp]
  refine ⟨rfl, ⟨?_, ?_⟩, rfl⟩
  · show s.topIndex + 1 + 1 = ((v :: l).length : Int)
    simp [h1]
  · show List.take (v :: l).length (s.array.set l.length v) = (v :: l).reverse
    rw [List.length_cons, List.take_succ, List.set_take, hs.2,
      List.set_eq_of_length_le (by simp)]
    simp [hlt]

theorem arr_peek_cons {s : ArrayStack T N} {v : T} {l : List T} (hs : s.Holds (v :: l)) :
    s.peek = .ok v := by
  have h1 := hs.1
  have h2 := hs.2
  have hle := arr_length_le hs
  simp only [List.length_cons] at h1 hle
  have hemp : s.isEmpty = false := by simp [arr_isEmpty hs]
  have hi : s.topIndex.toNat = l.length := by omega
  have h0 : 0 ≤ s.topIndex := by omega
  have hget : s.array[l.length]? = some v := by
    have := congrArg (fun x => x[l.length]?) h2
    simpa [List.getElem?_take] using this
  simp [peek, hemp, arrayGet, h0, hi, hget]

theorem arr_peek_nil {s : ArrayStack T N} (hs : s.Holds []) :
    s.peek = .error .logic_error := by
  simp [peek, arr_isEmpty hs]

theorem arr_pop_nil {s : ArrayStack T N} (hs : s.Holds []) : s.pop = (false, s) := by
  simp [pop, arr_isEmpty hs]

theorem arr_pop_cons {s : ArrayStack T N} {v : T} {l : List T} (hs : s.Holds (v :: l)) :
    s.pop.1 = true ∧ s.pop.2.Holds l ∧ s.pop.2.topIndex = s.topIndex - 1 ∧
      s.pop.2.array = s.array := by
  have h1 := hs.1
  have h2 := hs.2
  have hemp : s.isEmpty = false := by simp [arr_isEmpty hs]
  simp only [List.length_cons] at h1 h2
  have hp : s.pop = (true, ⟨s.topIndex - 1, s.array, s.array_size⟩) := by
    simp [pop, hemp]
  rw [hp]
  refine ⟨rfl, ⟨?_, ?_⟩, rfl, rfl⟩
  · show s.topIndex - 1 + 1 = (l.length : Int)
    push_cast at h1
    omega
  · show List.take l.length s.array = l.reverse
    have := congrArg (List.take l.length) h2
    simpa [List.take_take] using this

theorem arr_call {s : ArrayStack T N} {l : List T} (hs : s.Holds l) (c : Call T) :
    (s.call c).1 = (Model.call (some N) l c).1 ∧
      (s.call c).2.Holds (Model.call (some N) l c).2 := by
  cases c with
  | isEmpty => exact ⟨by simp [ArrayStack.call, Model.call, arr_isEmpty hs], hs⟩
  | push v =>
    by_cases hfull : l.length = N
    · simp [ArrayStack.call, Model.call, arr_push_full hs v hfull, hfull, hs]
    · obtain ⟨h1, h2, -⟩ := arr_push_ok hs v hfull
      have hne : ¬ N = l.length := fun h => hfull h.symm
      have hc : s.call (.push v) = (.done, (s.push v).2) := by
        simp only [ArrayStack.call]
        generalize s.push v = r at h1
        obtain ⟨r1, r2⟩ := r
        simp only at h1
        subst h1
        rfl
      rw [hc]
      simp [Model.call, hne, h2]
  | peek =>
    cases l with
    | nil => simp [ArrayStack.call, Model.call, arr_peek_nil hs, hs]
    | cons v t => simp [ArrayStack.call, Model.call, arr_peek_cons hs, hs]
  | pop =>
    cases l with
    | nil => simp [ArrayStack.call, Model.call, arr_pop_nil hs, hs]
    | cons v t =>
      obtain ⟨h1, h2, -⟩ := arr_pop_cons hs
      simp [ArrayStack.call, Model.call, h1, h2]

theorem arr_runCalls {s : ArrayStack T N} {l : List T} (hs : s.Holds l) (cs : List (Call T)) :
    (Lab2.runCalls ArrayStack.call s cs).1 = (Lab2.runCalls (Model.call (some N)) l cs).1 ∧
      (Lab2.runCalls ArrayStack.call s cs).2.Holds
        (Lab2.runCalls (Model.call (some N)) l cs).2 := by
  induction cs generalizing s l with
  | nil => exact ⟨rfl, hs⟩
  | cons c cs ih =>
    obtain ⟨h1, h2⟩ := arr_call hs c
    obtain ⟨h3, h4⟩ := ih h2
    exact ⟨by simp [Lab2.runCalls, h1, h3], h4⟩

end ArrayStack

/-! ## ListStack against the reference model -/

namespace Heap

variable {T : Type}

theorem chain_lt_length {h : Heap T} {p : Option Nat} {c : List (Nat × T)}
    (hc : h.IsChain p c) : ∀ a ∈ c.map Prod.fst, a < h.length := by
  induction c generalizing p with
  | nil => simp
  | cons av rest ih =>
    obtain ⟨-, nx, h2, h3⟩ := hc
    intro a ha
    simp only [List.map_cons, List.mem_cons] at ha
    rcases ha with rfl | ha
    · by_contra hge
      rw [List.getElem?_eq_none (by omega)] at h2
      cases h2
    · exact ih h3 a ha

/-- A chain only depends on the cells it goes through. -/
theorem chain_frame {h h1 : Heap T} {p : Option Nat} {c : List (Nat × T)}
    (hc : h.IsChain p c) (hsame : ∀ a ∈ c.map Prod.fst, h1[a]? = h[a]?) : h1.IsChain p c := by
  induction c generalizing p with
  | nil => exact hc
  | cons av rest ih =>
    obtain ⟨h1p, nx, h2, h3⟩ := hc
    refine ⟨h1p, nx, ?_, ih h3 fun a ha => hsame a (by simp [ha])⟩
    rw [hsame av.1 (by simp), h2]

/-- From a given pointer there is at most one chain. -/
theorem chain_unique {h : Heap T} {p : Option Nat} {c1 c2 : List (Nat × T)}
    (h1 : h.IsChain p c1) (h2 : h.IsChain p c2) : c1 = c2 := by
  induction c1 generalizing p c2 with
  | nil =>
    cases c2 with
    | nil => rfl
    | cons av rest =>
      have e1 : p = none := h1
      have e2 := h2.1
      rw [e1] at e2
      cases e2
  | cons av rest ih =>
    cases c2 with
    | nil =>
      have e2 : p = none := h2
      have e1 := h1.1
      rw [e2] at e1
      cases e1
    | cons bw rest2 =>
      obtain ⟨e1, nx1, g1, r1⟩ := h1
      obtain ⟨e2, nx2, g2, r2⟩ := h2
      have hab : av.1 = bw.1 := by
        rw [e1] at e2
        exact Option.some.inj e2
      rw [hab, g2] at g1
      have hn := Option.some.inj (Option.some.inj g1)
      have hv : bw.2 = av.2 := congrArg Node.value hn
      have hx : nx2 = nx1 := congrArg Node.next hn
      subst hx
      rw [ih r1 r2]
      congr 1
      exact Prod.ext hab hv.symm

theorem chain_suffix {h : Heap T} {p : Option Nat} {c1 : List (Nat × T)} {av : Nat × T}
    {c2 : List (Nat × T)} (hc : h.IsChain p (c1 ++ av :: c2)) :
    h.IsChain (some av.1) (av :: c2) := by
  induction c1 generalizing p with
  | nil =>
    obtain ⟨-, nx, g, r⟩ := hc
    exact ⟨rfl, nx, g, r⟩
  | cons bw rest ih =>
    obtain ⟨-, nx, -, r⟩ := hc
    exact ih r

/-- The addresses of a chain are pairwise different: a chain is acyclic. -/
theorem chain_nodup {h : Heap T} {p : Option Nat} {c : List (Nat × T)}
    (hc : h.IsChain p c) : (c.map Prod.fst).Nodup := by
  induction c generalizing p with
  | nil => simp
  | cons av rest ih =>
    have hc0 := hc
    obtain ⟨e, nx, g, r⟩ := hc
    rw [List.map_cons, List.nodup_cons]
    refine ⟨?_, ih r⟩
    intro hmem
    obtain ⟨bw, hbw, hfst⟩ := List.mem_map.1 hmem
    obtain ⟨r1, r2, hr⟩ := List.append_of_mem hbw
    rw [hr] at r
    have hsuf := Heap.chain_suffix r
    rw [hfst, ← e] at hsuf
    have := congrArg List.length (Heap.chain_unique hsuf hc0)
    rw [hr] at this
    simp at this
    omega

theorem chain_length_le {h : Heap T} {p : Option Nat} {c : List (Nat × T)}
    (hc : h.IsChain p c) : c.length ≤ h.length := by
  have h1 : (c.map Prod.fst) ⊆ List.range h.length := fun a ha =>
    List.mem_range.2 (Heap.chain_lt_length hc a ha)
  have h2 := (List.subperm_of_subset (Heap.chain_nodup hc) h1).length_le
  simpa using h2

end Heap

namespace ListStack

variable {T : Type}

theorem lst_holds_construct (h : Heap T) : Holds h (construct : ListStack T) [] :=
  ⟨[], rfl, rfl⟩

/-- What one call does to the chain of its stack, to the other chains of the free store, and
what it returns. -/
theorem lst_call_chain {h : Heap T} {s : ListStack T} {c : List (Nat × T)}
    (hc : h.IsChain s.top c) (k : Call T) :
    (call (h, s) k).1 = (Model.call none (c.map Prod.snd) k).1 ∧
    h.length ≤ (call (h, s) k).2.1.length ∧
    (∃ c1, (call (h, s) k).2.1.IsChain (call (h, s) k).2.2.top c1 ∧
      c1.map Prod.snd = (Model.call none (c.map Prod.snd) k).2 ∧
      ∀ a ∈ c1.map Prod.fst, a ∈ c.map Prod.fst ∨ h.length ≤ a) ∧
    ∀ (p : Option Nat) (f : List (Nat × T)), h.IsChain p f →
      List.Disjoint (c.map Prod.fst) (f.map Prod.fst) → (call (h, s) k).2.1.IsChain p f := by
  cases k with
  | isEmpty =>
    refine ⟨?_, Nat.le_refl _, ⟨c, hc, rfl, fun a ha => Or.inl ha⟩, fun p f hf _ => hf⟩
    cases c with
    | nil =>
      have e : s.top = none := hc
      simp [call, Model.call, isEmpty, e]
    | cons av rest => simp [call, Model.call, isEmpty, hc.1]
  | peek =>
    refine ⟨?_, ?_, ⟨c, ?_, ?_, fun a ha => Or.inl ?_⟩, fun p f hf _ => ?_⟩
    all_goals
      cases c with
      | nil =>
        have e : s.top = none := hc
        simp_all [call, Model.call, isEmpty, peek]
      | cons av rest =>
        obtain ⟨e, nx, g, r⟩ := hc
        simp_all [call, Model.call, isEmpty, peek, Heap.deref, Node.getValue, Heap.IsChain]
  | push v =>
    have hcall : call (h, s) (.push v) = (.done, (h ++ [some ⟨v, s.top⟩], ⟨some h.length⟩)) := rfl
    rw [hcall]
    have hkeep : ∀ (p : Option Nat) (f : List (Nat × T)), h.IsChain p f →
        (h ++ [some ⟨v, s.top⟩] : Heap T).IsChain p f := fun p f hf =>
      Heap.chain_frame hf fun a ha => List.getElem?_append_left (Heap.chain_lt_length hf a ha)
    refine ⟨rfl, by simp, ⟨(h.length, v) :: c, ⟨rfl, s.top, by simp, hkeep _ _ hc⟩, ?_, ?_⟩,
      fun p f hf _ => hkeep p f hf⟩
    · simp [Model.call]
    · intro a ha
      simp only [List.map_cons, List.mem_cons] at ha
      rcases ha with rfl | ha
      · exact Or.inr (Nat.le_refl _)
      · exact Or.inl ha
  | pop =>
    cases c with
    | nil =>
      have e : s.top = none := hc
      have hcall : call (h, s) .pop = (.bool false, (h, s)) := by
        simp [call, pop, isEmpty, e]
      rw [hcall]
      exact ⟨rfl, Nat.le_refl _, ⟨[], hc, rfl, by simp⟩, fun p f hf _ => hf⟩
    | cons av rest =>
      have hnd := Heap.chain_nodup hc
      obtain ⟨e, nx, g, r⟩ := hc
      have hcall : call (h, s) .pop = (.bool true, (h.set av.1 none, ⟨nx⟩)) := by
        simp [call, pop, isEmpty, e, Heap.deref, Heap.delete, g, Node.getNext]
      rw [hcall]
      rw [List.map_cons, List.nodup_cons] at hnd
      refine ⟨rfl, by simp, ⟨rest, ?_, rfl, fun a ha => Or.inl (by simp [ha])⟩, ?_⟩
      · refine Heap.chain_frame r fun a ha => List.getElem?_set_ne ?_
        rintro rfl
        exact hnd.1 ha
      · intro p f hf hdis
        refine Heap.chain_frame hf fun a ha => List.getElem?_set_ne ?_
        rintro rfl
        exact hdis (by simp) ha

/-- A `ListStack` behaves like the unbounded reference stack. -/
theorem lst_call {h : Heap T} {s : ListStack T} {l : List T} (hs : Holds h s l)
    (k : Call T) :
    (call (h, s) k).1 = (Model.call none l k).1 ∧
      Holds (call (h, s) k).2.1 (call (h, s) k).2.2 (Model.call none l k).2 := by
  obtain ⟨c, hc, rfl⟩ := hs
  obtain ⟨h1, -, ⟨c1, h3, h4, -⟩, -⟩ := lst_call_chain hc k
  exact ⟨h1, c1, h3, h4⟩

theorem lst_runCalls {h : Heap T} {s : ListStack T} {l : List T} (hs : Holds h s l)
    (cs : List (Call T)) :
    (Lab2.runCalls ListStack.call (h, s) cs).1 = (Lab2.runCalls (Model.call none) l cs).1 ∧
      Holds (Lab2.runCalls ListStack.call (h, s) cs).2.1 (Lab2.runCalls ListStack.call (h, s) cs).2.2
        (Lab2.runCalls (Model.call none) l cs).2 := by
  induction cs generalizing h s l with
  | nil => exact ⟨rfl, hs⟩
  | cons c cs ih =>
    obtain ⟨h1, h2⟩ := lst_call hs c
    obtain ⟨h3, h4⟩ := ih h2
    exact ⟨by simp [Lab2.runCalls, h1, h3], h4⟩

end ListStack

/-! ## Facts about sequences of calls -/

theorem runCalls_append {σ κ ρ : Type} (call : σ → κ → ρ × σ) (s : σ) (cs1 cs2 : List κ) :
    runCalls call s (cs1 ++ cs2) =
      ((runCalls call s cs1).1 ++ (runCalls call (runCalls call s cs1).2 cs2).1,
        (runCalls call (runCalls call s cs1).2 cs2).2) := by
  induction cs1 generalizing s with
  | nil => simp [runCalls]
  | cons c cs ih => simp [runCalls, ih]

/-- Pushes onto the reference stack that stay within the capacity all succeed. -/
theorem model_pushes {T : Type} (cap : Option Nat) (l ps : List T)
    (hfit : ∀ n, cap = some n → l.length + ps.length ≤ n) :
    runCalls (Model.call cap) l (ps.map .push) = (ps.map fun _ => .done, ps.reverse ++ l) := by
  induction ps generalizing l with
  | nil => simp [runCalls]
  | cons p ps ih =>
    have hne : ¬ cap = some l.length := by
      intro h
      have := hfit _ h
      simp at this
    have := ih (p :: l) (fun n hn => by have := hfit n hn; simp at this ⊢; omega)
    simp [runCalls, Model.call, hne, this]

/-- Pops on the reference stack, as many as it has elements or fewer, all return true. -/
theorem model_pops {T : Type} (cap : Option Nat) (l : List T) (j : Nat) (hj : j ≤ l.length) :
    runCalls (Model.call cap) l (List.replicate j .pop) =
      (List.replicate j (.bool true), l.drop j) := by
  induction j generalizing l with
  | zero => simp [runCalls]
  | succ j ih =>
    cases l with
    | nil => simp at hj
    | cons v t =>
      have := ih t (by simpa using hj)
      simp [List.replicate_succ, runCalls, Model.call, this]

/-- Pops on the empty reference stack return false and leave it empty. -/
theorem model_pops_empty {T : Type} (cap : Option Nat) (j : Nat) :
    runCalls (Model.call cap) ([] : List T) (List.replicate j .pop) =
      (List.replicate j (.bool false), []) := by
  induction j with
  | zero => simp [runCalls]
  | succ j ih => simp [List.replicate_succ, runCalls, Model.call, ih]

/-- The LIFO order law on the reference stack. -/
theorem model_lifo {T : Type} (cap : Option Nat) (ps : List T) :
    (∀ j, j < ps.length → ∃ v, ps[ps.length - 1 - j]? = some v ∧
      (runCalls (Model.call cap) ps.reverse (List.replicate j .pop ++ [.peek])).1 =
        List.replicate j (.bool true) ++ [.value v]) ∧
    (runCalls (Model.call cap) ps.reverse (List.replicate ps.length .pop ++ [.isEmpty])).1 =
      List.replicate ps.length (.bool true) ++ [.bool true] := by
  constructor
  · intro j hj
    have hlt : ps.length - 1 - j < ps.length := by omega
    refine ⟨ps[ps.length - 1 - j], List.getElem?_eq_getElem hlt, ?_⟩
    rw [runCalls_append, model_pops cap ps.reverse j (by simp; omega)]
    have hd : ps.reverse.drop j = ps[ps.length - 1 - j] :: ps.reverse.drop (j + 1) := by
      rw [List.drop_eq_getElem_cons (by simpa using hj)]
      simp [List.getElem_reverse]
    simp [hd, runCalls, Model.call]
  · rw [runCalls_append, model_pops cap ps.reverse ps.length (by simp)]
    simp [runCalls, Model.call]

/-! ## C1: the LIFO order law -/

/-- C1. LIFO order law for `ArrayStack<T,N>` and `ListStack<T>`: when the values `ps = p1..pk`
are pushed onto a newly constructed stack (with `k ≤ N` for the `ArrayStack`; the `ListStack` may
live in any free store `h0`), every push returns normally; after `j < k` pops, which all return
true, `peek` returns `p(k-j)` (so `pk` directly after the pushes); and `k` pops all return true,
after which `isEmpty` is true. -/
theorem C1_lifo_order {T : Type} [ValueInit T] (N : Nat) (h0 : Heap T) (ps : List T) :
    (ps.length ≤ N →
      (runCalls ArrayStack.call (ArrayStack.construct : ArrayStack T N) (ps.map .push)).1 =
        ps.map (fun _ => Ret.done) ∧
      (∀ j, j < ps.length → ∃ v, ps[ps.length - 1 - j]? = some v ∧
        (runCalls ArrayStack.call
          (runCalls ArrayStack.call (ArrayStack.construct : ArrayStack T N) (ps.map .push)).2
          (List.replicate j .pop ++ [.peek])).1 = List.replicate j (.bool true) ++ [.value v]) ∧
      (runCalls ArrayStack.call
        (runCalls ArrayStack.call (ArrayStack.construct : ArrayStack T N) (ps.map .push)).2
        (List.replicate ps.length .pop ++ [.isEmpty])).1 =
          List.replicate ps.length (.bool true) ++ [.bool true]) ∧
    ((runCalls ListStack.call (h0, ListStack.construct) (ps.map .push)).1 =
        ps.map (fun _ => Ret.done) ∧
      (∀ j, j < ps.length → ∃ v, ps[ps.length - 1 - j]? = some v ∧
        (runCalls ListStack.call
          (runCalls ListStack.call (h0, ListStack.construct) (ps.map .push)).2
          (List.replicate j .pop ++ [.peek])).1 = List.replicate j (.bool true) ++ [.value v]) ∧
      (runCalls ListStack.call
        (runCalls ListStack.call (h0, ListStack.construct) (ps.map .push)).2
        (List.replicate ps.length .pop ++ [.isEmpty])).1 =
          List.replicate ps.length (.bool true) ++ [.bool true]) := by
  constructor
  · intro hk
    obtain ⟨h1, h2⟩ := ArrayStack.arr_runCalls
      (ArrayStack.arr_holds_construct : (ArrayStack.construct : ArrayStack T N).Holds [])
      (ps.map .push)
    rw [model_pushes (some N) [] ps (fun n hn => by cases hn; simpa using hk)] at h1 h2
    simp only [List.append_nil] at h2
    obtain ⟨m1, m2⟩ := model_lifo (some N) ps
    refine ⟨h1, fun j hj => ?_, ?_⟩
    · obtain ⟨v, hv, hr⟩ := m1 j hj
      exact ⟨v, hv, (ArrayStack.arr_runCalls h2 _).1.trans hr⟩
    · exact (ArrayStack.arr_runCalls h2 _).1.trans m2
  · obtain ⟨h1, h2⟩ := ListStack.lst_runCalls (ListStack.lst_holds_construct h0) (ps.map .push)
    rw [model_pushes none [] ps (fun n hn => by cases hn)] at h1 h2
    simp only [List.append_nil] at h2
    obtain ⟨m1, m2⟩ := model_lifo none ps
    refine ⟨h1, fun j hj => ?_, ?_⟩
    · obtain ⟨v, hv, hr⟩ := m1 j hj
      exact ⟨v, hv, (ListStack.lst_runCalls h2 _).1.trans hr⟩
    · exact (ListStack.lst_runCalls h2 _).1.trans m2

/-- C1 at a concrete input: 10, 20, 30 pushed onto an `ArrayStack<int, 3>` and onto a
`ListStack<int>` in an empty free store. -/
theorem C1_lifo_order_witness :
    ([10, 20, 30] : List Int).length ≤ 3 ∧
    (runCalls ArrayStack.call
      (runCalls ArrayStack.call (ArrayStack.construct : ArrayStack Int 3)
        ([10, 20, 30].map .push)).2
      (List.replicate 3 .pop ++ [.isEmpty])).1 = List.replicate 3 (.bool true) ++ [.bool true] ∧
    (runCalls ListStack.call
      (runCalls ListStack.call (([] : Heap Int), ListStack.construct)
        ([10, 20, 30].map .push)).2
      (List.replicate 3 .pop ++ [.isEmpty])).1 = List.replicate 3 (.bool true) ++ [.bool true] :=
  ⟨by decide, ((C1_lifo_order 3 [] [10, 20, 30]).1 (by decide)).2.2,
    (C1_lifo_order 3 [] [10, 20, 30]).2.2.2⟩

/-! ## C4, C5, C6: overflow, peek and pop on reachable states -/

/-- After any calls on a new `ArrayStack` it holds the live values of the call history. -/
theorem arr_holds_live {T : Type} [ValueInit T] (N : Nat) (cs : List (Call T)) :
    (runCalls ArrayStack.call (ArrayStack.construct : ArrayStack T N) cs).2.Holds
      (live (some N) cs) :=
  (ArrayStack.arr_runCalls ArrayStack.arr_holds_construct cs).2

/-- After any calls on a new `ListStack` it holds the live values of the call history. -/
theorem lst_holds_live {T : Type} (h0 : Heap T) (cs : List (Call T)) :
    ListStack.Holds (runCalls ListStack.call (h0, ListStack.construct) cs).2.1
      (runCalls ListStack.call (h0, ListStack.construct) cs).2.2 (live none cs) :=
  (ListStack.lst_runCalls (ListStack.lst_holds_construct h0) cs).2

theorem lst_isEmpty {T : Type} {h : Heap T} {s : ListStack T} {l : List T}
    (hs : ListStack.Holds h s l) : s.isEmpty = l.isEmpty := by
  obtain ⟨c, hc, rfl⟩ := hs
  cases c with
  | nil =>
    have e : s.top = none := hc
    simp [ListStack.isEmpty, e]
  | cons av rest => simp [ListStack.isEmpty, hc.1]

theorem lst_peek_nil {T : Type} {h : Heap T} {s : ListStack T} (hs : ListStack.Holds h s []) :
    ListStack.peek h s = .error .logic_error := by
  simp [ListStack.peek, lst_isEmpty hs]

theorem lst_peek_cons {T : Type} {h : Heap T} {s : ListStack T} {v : T} {l : List T}
    (hs : ListStack.Holds h s (v :: l)) : ListStack.peek h s = .ok v := by
  have hne := lst_isEmpty hs
  obtain ⟨c, hc, hl⟩ := hs
  cases c with
  | nil => simp at hl
  | cons av rest =>
    obtain ⟨e, nx, g, -⟩ := hc
    simp only [List.map_cons, List.cons.injEq] at hl
    simp [ListStack.peek, hne, e, Heap.deref, g, Node.getValue, hl.1]

theorem lst_pop_nil {T : Type} {h : Heap T} {s : ListStack T} (hs : ListStack.Holds h s []) :
    ListStack.pop h s = (.ok false, (h, s)) := by
  simp [ListStack.pop, lst_isEmpty hs]

theorem lst_pop_cons {T : Type} {h : Heap T} {s : ListStack T} {v : T} {l : List T}
    (hs : ListStack.Holds h s (v :: l)) :
    (ListStack.pop h s).1 = .ok true ∧
      ListStack.Holds (ListStack.pop h s).2.1 (ListStack.pop h s).2.2 l := by
  have h1 := ListStack.lst_call hs .pop
  simp only [ListStack.call, Model.call] at h1
  generalize ListStack.pop h s = r at h1 ⊢
  obtain ⟨r1, r2⟩ := r
  cases r1 with
  | error e => simp at h1
  | ok b =>
    simp only [Ret.bool.injEq] at h1
    exact ⟨by rw [h1.1], h1.2⟩

/-- C4. For every state `s` of an `ArrayStack<T,N>` reached from construction by calls `cs`,
and every value `v`: the element count `topIndex + 1` is the number of live values;
`push(v)` throws `length_error` exactly when the count is `N`; a push that throws leaves the
object (top index and array) unchanged; any other push returns normally, makes `v` the value
returned by `peek` and raises the count by exactly one. -/
theorem C4_push_overflow {T : Type} [ValueInit T] (N : Nat) (cs : List (Call T)) (v : T) :
    let s := (runCalls ArrayStack.call (ArrayStack.construct : ArrayStack T N) cs).2
    s.topIndex + 1 = ((live (some N) cs).length : Int) ∧
    ((s.push v).1 = .error .length_error ↔ s.topIndex + 1 = (N : Int)) ∧
    ((s.push v).1 = .error .length_error → (s.push v).2 = s) ∧
    ((s.push v).1 ≠ .error .length_error →
      (s.push v).1 = .ok () ∧ (s.push v).2.peek = .ok v ∧
        (s.push v).2.topIndex + 1 = (s.topIndex + 1) + 1) := by
  intro s
  have hs : s.Holds (live (some N) cs) := arr_holds_live N cs
  have hcount := hs.1
  refine ⟨hcount, ?_⟩
  by_cases hfull : (live (some N) cs).length = N
  · have hp := ArrayStack.arr_push_full hs v hfull
    rw [hp]
    refine ⟨⟨fun _ => by omega, fun _ => rfl⟩, fun _ => rfl, fun h => absurd rfl h⟩
  · obtain ⟨h1, h2, h3⟩ := ArrayStack.arr_push_ok hs v hfull
    rw [h1]
    refine ⟨⟨fun h => (by cases h), fun h => absurd (by omega) hfull⟩, fun h => (by cases h),
      fun _ => ⟨rfl, ArrayStack.arr_peek_cons h2, by rw [h3]⟩⟩

/-- C5. For every state reached from construction by calls `cs`, of an `ArrayStack<T,N>` and
of a `ListStack<T>` (in any free store `h0`): `peek` throws `logic_error` exactly when
`isEmpty()` is true; otherwise it returns the most recently pushed, not yet popped value; and
the call leaves the stack unchanged. -/
theorem C5_peek_empty {T : Type} [ValueInit T] (N : Nat) (h0 : Heap T) (cs : List (Call T)) :
    (let s := (runCalls ArrayStack.call (ArrayStack.construct : ArrayStack T N) cs).2;
      (s.peek = .error .logic_error ↔ s.isEmpty = true) ∧
      (s.isEmpty = false → ∃ v rest, live (some N) cs = v :: rest ∧ s.peek = .ok v) ∧
      (s.call .peek).2 = s) ∧
    (let hs := (runCalls ListStack.call (h0, ListStack.construct) cs).2;
      (ListStack.peek hs.1 hs.2 = .error .logic_error ↔ hs.2.isEmpty = true) ∧
      (hs.2.isEmpty = false →
        ∃ v rest, live none cs = v :: rest ∧ ListStack.peek hs.1 hs.2 = .ok v) ∧
      (ListStack.call hs .peek).2 = hs) := by
  constructor
  · intro s
    have hs : s.Holds (live (some N) cs) := arr_holds_live N cs
    have hunch : (s.call .peek).2 = s := by
      simp only [ArrayStack.call]
      cases s.peek <;> rfl
    have he := ArrayStack.arr_isEmpty hs
    generalize live (some N) cs = l at hs he
    cases l with
    | nil =>
      rw [ArrayStack.arr_peek_nil hs, he]
      exact ⟨by simp, by simp, hunch⟩
    | cons v rest =>
      rw [ArrayStack.arr_peek_cons hs, he]
      exact ⟨by simp, fun _ => ⟨v, rest, rfl, rfl⟩, hunch⟩
  · intro hs
    have hh : ListStack.Holds hs.1 hs.2 (live none cs) := lst_holds_live h0 cs
    have hunch : (ListStack.call hs .peek).2 = hs := by
      simp only [ListStack.call]
      cases ListStack.peek hs.1 hs.2 <;> rfl
    have he := lst_isEmpty hh
    generalize live none cs = l at hh he
    cases l with
    | nil =>
      rw [lst_peek_nil hh, he]
      exact ⟨by simp, by simp, hunch⟩
    | cons v rest =>
      rw [lst_peek_cons hh, he]
      exact ⟨by simp, fun _ => ⟨v, rest, rfl, rfl⟩, hunch⟩

theorem arr_pops_empty {T : Type} {N : Nat} {s : ArrayStack T N} (hp : s.pop = (false, s))
    (n : Nat) :
    runCalls ArrayStack.call s (List.replicate n .pop) = (List.replicate n (.bool false), s) := by
  induction n with
  | zero => rfl
  | succ n ih => simp [List.replicate_succ, runCalls, ArrayStack.call, hp, ih]

theorem lst_pops_empty {T : Type} {h : Heap T} {s : ListStack T}
    (hp : ListStack.pop h s = (.ok false, (h, s))) (n : Nat) :
    runCalls ListStack.call (h, s) (List.replicate n .pop) =
      (List.replicate n (.bool false), (h, s)) := by
  induction n with
  | zero => rfl
  | succ n ih => simp [List.replicate_succ, runCalls, ListStack.call, hp, ih]

/-- C6. For every state reached from construction by calls `cs`, of an `ArrayStack<T,N>` and
of a `ListStack<T>` (in any free store `h0`), the stack holds the live values of `cs` and:
on an empty stack `pop` returns false and leaves the object as it is, so any number `n` of further
pops return false as well; on a non-empty stack holding `v :: rest`, `pop` returns true and the
stack then holds exactly `rest`. -/
theorem C6_pop {T : Type} [ValueInit T] (N : Nat) (h0 : Heap T) (cs : List (Call T)) :
    (let s := (runCalls ArrayStack.call (ArrayStack.construct : ArrayStack T N) cs).2;
      s.Holds (live (some N) cs) ∧
      (s.isEmpty = true → s.pop = (false, s) ∧ s.pop.2.isEmpty = true ∧
        ∀ n, runCalls ArrayStack.call s (List.replicate n .pop) =
          (List.replicate n (.bool false), s)) ∧
      (s.isEmpty = false →
        ∃ v rest, live (some N) cs = v :: rest ∧ s.pop.1 = true ∧ s.pop.2.Holds rest)) ∧
    (let hs := (runCalls ListStack.call (h0, ListStack.construct) cs).2;
      ListStack.Holds hs.1 hs.2 (live none cs) ∧
      (hs.2.isEmpty = true → ListStack.pop hs.1 hs.2 = (.ok false, hs) ∧
        (ListStack.pop hs.1 hs.2).2.2.isEmpty = true ∧
        ∀ n, runCalls ListStack.call hs (List.replicate n .pop) =
          (List.replicate n (.bool false), hs)) ∧
      (hs.2.isEmpty = false →
        ∃ v rest, live none cs = v :: rest ∧ (ListStack.pop hs.1 hs.2).1 = .ok true ∧
          ListStack.Holds (ListStack.pop hs.1 hs.2).2.1 (ListStack.pop hs.1 hs.2).2.2 rest)) := by
  constructor
  · intro s
    have hs : s.Holds (live (some N) cs) := arr_holds_live N cs
    refine ⟨hs, ?_⟩
    have he := ArrayStack.arr_isEmpty hs
    generalize live (some N) cs = l at hs he
    cases l with
    | nil =>
      have hp := ArrayStack.arr_pop_nil hs
      rw [he, hp]
      exact ⟨fun _ => ⟨rfl, he, arr_pops_empty hp⟩, by simp⟩
    | cons v rest =>
      rw [he]
      obtain ⟨h1, h2, -⟩ := ArrayStack.arr_pop_cons hs
      exact ⟨by simp, fun _ => ⟨v, rest, rfl, h1, h2⟩⟩
  · intro hs
    have hh : ListStack.Holds hs.1 hs.2 (live none cs) := lst_holds_live h0 cs
    refine ⟨hh, ?_⟩
    have he := lst_isEmpty hh
    generalize live none cs = l at hh he
    cases l with
    | nil =>
      have hp : ListStack.pop hs.1 hs.2 = (.ok false, hs) := lst_pop_nil hh
      rw [he, hp]
      exact ⟨fun _ => ⟨rfl, he, lst_pops_empty hp⟩, by simp⟩
    | cons v rest =>
      rw [he]
      obtain ⟨h1, h2⟩ := lst_pop_cons hh
      exact ⟨by simp, fun _ => ⟨v, rest, rfl, h1, h2⟩⟩

/-! ## C7, C8: copy and move construction of a ListStack -/

/-- Each of two reference stacks only sees its own calls. -/
theorem model_callOn_state {T : Type} (a b : List T) (ks : List (Which × Call T)) :
    (runCalls Model.callOn (a, b) ks).2 =
      ((runCalls (Model.call none) a (callsTo .fst ks)).2,
        (runCalls (Model.call none) b (callsTo .snd ks)).2) := by
  induction ks generalizing a b with
  | nil => rfl
  | cons k ks ih =>
    obtain ⟨w, c⟩ := k
    cases w <;> simp [runCalls, Model.callOn, callsTo, ih]

/-- Two `ListStack` objects whose chains share no node behave like two independent reference
stacks, whatever calls are made on them and in whatever order. -/
theorem lst_two_chains {T : Type} {h : Heap T} {s d : ListStack T} {cs cd : List (Nat × T)}
    (hcs : h.IsChain s.top cs) (hcd : h.IsChain d.top cd)
    (hdis : List.Disjoint (cs.map Prod.fst) (cd.map Prod.fst)) (ks : List (Which × Call T)) :
    (runCalls ListStack.callOn (h, s, d) ks).1 =
      (runCalls Model.callOn (cs.map Prod.snd, cd.map Prod.snd) ks).1 ∧
    ListStack.Holds (runCalls ListStack.callOn (h, s, d) ks).2.1
      (runCalls ListStack.callOn (h, s, d) ks).2.2.1
      (runCalls Model.callOn (cs.map Prod.snd, cd.map Prod.snd) ks).2.1 ∧
    ListStack.Holds (runCalls ListStack.callOn (h, s, d) ks).2.1
      (runCalls ListStack.callOn (h, s, d) ks).2.2.2
      (runCalls Model.callOn (cs.map Prod.snd, cd.map Prod.snd) ks).2.2 := by
  induction ks generalizing h s d cs cd with
  | nil => exact ⟨rfl, ⟨cs, hcs, rfl⟩, ⟨cd, hcd, rfl⟩⟩
  | cons k ks ih =>
    obtain ⟨w, c⟩ := k
    cases w with
    | fst =>
      obtain ⟨h1, -, ⟨c1, h3, h4, h5⟩, h6⟩ := ListStack.lst_call_chain hcs c
      have hdis1 : List.Disjoint (c1.map Prod.fst) (cd.map Prod.fst) := by
        intro a ha1 ha2
        rcases h5 a ha1 with h7 | h7
        · exact hdis h7 ha2
        · have := Heap.chain_lt_length hcd a ha2
          omega
      obtain ⟨i1, i2, i3⟩ := ih h3 (h6 _ _ hcd hdis) hdis1
      simp only [runCalls, ListStack.callOn, Model.callOn]
      rw [h4] at i1 i2 i3
      exact ⟨by rw [h1, i1], i2, i3⟩
    | snd =>
      obtain ⟨h1, -, ⟨c1, h3, h4, h5⟩, h6⟩ := ListStack.lst_call_chain hcd c
      have hdis1 : List.Disjoint (cs.map Prod.fst) (c1.map Prod.fst) := by
        intro a ha1 ha2
        rcases h5 a ha2 with h7 | h7
        · exact hdis ha1 h7
        · have := Heap.chain_lt_length hcs a ha1
          omega
      obtain ⟨i1, i2, i3⟩ := ih (h6 _ _ hcs hdis.symm) h3 hdis1
      simp only [runCalls, ListStack.callOn, Model.callOn]
      rw [h4] at i1 i2 i3
      exact ⟨by rw [h1, i1], i2, i3⟩

/-- The first loop of the copy constructor collects the values of the chain, top first. -/
theorem copyValues_chain {T : Type} {h : Heap T} {p : Option Nat} {c : List (Nat × T)}
    (hc : h.IsChain p c) (fuel : Nat) (hfuel : c.length ≤ fuel) (acc : List T) :
    ListStack.copyValues h fuel p acc = .ok (acc ++ c.map Prod.snd) := by
  induction c generalizing p fuel acc with
  | nil =>
    have e : p = none := hc
    subst e
    cases fuel <;> simp [ListStack.copyValues]
  | cons av rest ih =>
    obtain ⟨e, nx, g, r⟩ := hc
    subst e
    cases fuel with
    | zero => simp at hfuel
    | succ fuel =>
      have := ih r fuel (by simpa using hfuel) (acc ++ [av.2])
      simp [ListStack.copyValues, Heap.deref, g, Node.getNext, Node.getValue, this]

/-- The second loop of the copy constructor puts new nodes on top of the chain, the last pushed
value on top, and leaves every existing chain as it is. -/
theorem pushEach_chain {T : Type} {h : Heap T} {s : ListStack T} {c : List (Nat × T)}
    (hc : h.IsChain s.top c) (vs : List T) :
    h.length ≤ (ListStack.pushEach h s vs).1.length ∧
    (∃ c1, (ListStack.pushEach h s vs).1.IsChain (ListStack.pushEach h s vs).2.top c1 ∧
      c1.map Prod.snd = vs.reverse ++ c.map Prod.snd ∧
      ∀ a ∈ c1.map Prod.fst, a ∈ c.map Prod.fst ∨ h.length ≤ a) ∧
    ∀ (p : Option Nat) (f : List (Nat × T)), h.IsChain p f →
      (ListStack.pushEach h s vs).1.IsChain p f := by
  induction vs generalizing h s c with
  | nil => exact ⟨Nat.le_refl _, ⟨c, hc, by simp, fun a ha => Or.inl ha⟩, fun p f hf => hf⟩
  | cons v vs ih =>
    have hkeep : ∀ (p : Option Nat) (f : List (Nat × T)), h.IsChain p f →
        (ListStack.push h s v).1.IsChain p f := fun p f hf =>
      Heap.chain_frame hf fun a ha => List.getElem?_append_left (Heap.chain_lt_length hf a ha)
    have hnew : (ListStack.push h s v).1.IsChain (ListStack.push h s v).2.top
        ((h.length, v) :: c) :=
      ⟨rfl, s.top, by simp [ListStack.push, Heap.alloc], hkeep _ _ hc⟩
    have hlen : (ListStack.push h s v).1.length = h.length + 1 := by
      simp [ListStack.push, Heap.alloc]
    obtain ⟨i1, ⟨c1, i2, i3, i4⟩, i5⟩ := ih hnew
    refine ⟨by simp only [ListStack.pushEach]; omega, ⟨c1, i2, by simp [i3], fun a ha => ?_⟩,
      fun p f hf => i5 p f (hkeep p f hf)⟩
    rcases i4 a ha with h7 | h7
    · simp only [List.map_cons, List.mem_cons] at h7
      rcases h7 with rfl | h7
      · exact Or.inr (Nat.le_refl _)
      · exact Or.inl h7
    · exact Or.inr (by omega)

/-- The copy constructor builds a second chain with the same values out of new nodes and leaves
the chain of `other` as it is. -/
theorem copyConstruct_chain {T : Type} {h : Heap T} {s : ListStack T} {c : List (Nat × T)}
    (hc : h.IsChain s.top c) :
    ∃ h1 d c1, ListStack.copyConstruct h s = .ok (h1, d) ∧ h1.IsChain d.top c1 ∧
      c1.map Prod.snd = c.map Prod.snd ∧ h1.IsChain s.top c ∧
      List.Disjoint (c.map Prod.fst) (c1.map Prod.fst) := by
  cases c with
  | nil =>
    have e : s.top = none := hc
    exact ⟨h, ⟨none⟩, [], by simp [ListStack.copyConstruct, e], rfl, rfl, hc, by simp⟩
  | cons av rest =>
    have hv := copyValues_chain hc h.length (Heap.chain_length_le hc) []
    have hempty : h.IsChain (⟨none⟩ : ListStack T).top [] := rfl
    obtain ⟨-, ⟨c1, i2, i3, i4⟩, i5⟩ :=
      pushEach_chain hempty ((av :: rest).map Prod.snd).reverse
    refine ⟨_, _, c1, ?_, i2, by simpa using i3, i5 _ _ hc, fun a ha1 ha2 => ?_⟩
    · rw [hc.1] at hv
      simp only [ListStack.copyConstruct, hc.1, Option.isNone_some, Bool.false_eq_true,
        if_false]
      rw [hv]
      rfl
    · rcases i4 a ha2 with h7 | h7
      · simp at h7
      · have := Heap.chain_lt_length hc a ha1
        omega

/-- C7. Copy construction of a `ListStack`: for every stack `s` holding the values `l` (empty or
not) in a free store `h`, the copy constructor returns normally with a new stack `d` that holds
the same values `l` in the same top-to-bottom order; `s` still holds `l`; and whatever calls
`ks` are made afterwards on the two stacks, in any order, every call returns what two independent
stacks would return, and each stack ends up holding what its own calls alone make of `l`. -/
theorem C7_copy_independent {T : Type} (h : Heap T) (s : ListStack T) (l : List T)
    (hs : ListStack.Holds h s l) :
    ∃ h1 d, ListStack.copyConstruct h s = .ok (h1, d) ∧
      ListStack.Holds h1 d l ∧ ListStack.Holds h1 s l ∧
      ∀ ks : List (Which × Call T),
        (runCalls ListStack.callOn (h1, s, d) ks).1 = (runCalls Model.callOn (l, l) ks).1 ∧
        ListStack.Holds (runCalls ListStack.callOn (h1, s, d) ks).2.1
          (runCalls ListStack.callOn (h1, s, d) ks).2.2.1
          (runCalls (Model.call none) l (callsTo .fst ks)).2 ∧
        ListStack.Holds (runCalls ListStack.callOn (h1, s, d) ks).2.1
          (runCalls ListStack.callOn (h1, s, d) ks).2.2.2
          (runCalls (Model.call none) l (callsTo .snd ks)).2 := by
  obtain ⟨c, hc, rfl⟩ := hs
  obtain ⟨h1, d, c1, e1, e2, e3, e4, e5⟩ := copyConstruct_chain hc
  refine ⟨h1, d, e1, ⟨c1, e2, e3⟩, ⟨c, e4, rfl⟩, fun ks => ?_⟩
  obtain ⟨i1, i2, i3⟩ := lst_two_chains e4 e2 e5 ks
  rw [e3] at i1 i2 i3
  rw [model_callOn_state] at i2 i3
  exact ⟨i1, i2, i3⟩

/-- C7 at a concrete input: the stack holding 20, 10 in a free store with two nodes. -/
theorem C7_copy_independent_witness :
    ListStack.Holds [some ⟨(10 : Int), none⟩, some ⟨20, some 0⟩] ⟨some 1⟩ [20, 10] ∧
    ∃ h1 d, ListStack.copyConstruct [some ⟨(10 : Int), none⟩, some ⟨20, some 0⟩] ⟨some 1⟩ =
        .ok (h1, d) ∧
      ListStack.Holds h1 d [20, 10] ∧ ListStack.Holds h1 ⟨some 1⟩ [20, 10] := by
  have hw : ListStack.Holds [some ⟨(10 : Int), none⟩, some ⟨20, some 0⟩] ⟨some 1⟩ [20, 10] :=
    ⟨[(1, 20), (0, 10)], ⟨rfl, some 0, rfl, rfl, none, rfl, rfl⟩, rfl⟩
  obtain ⟨h1, d, e1, e2, e3, -⟩ := C7_copy_independent _ _ _ hw
  exact ⟨hw, h1, d, e1, e2, e3⟩

/-- C8. Move construction of a `ListStack`: for every stack `s` holding the values `l` in a free
store `h`, the new stack `d` holds `l` in the same order and `s` is left in the state of a newly
constructed stack: it holds nothing, `isEmpty` is true, `pop` returns false, `peek` throws
`logic_error`, a push of `v` makes `v` its only element while `d` still holds `l`; and whatever
calls `ks` are made afterwards on the two stacks, every call returns what an empty stack and an
independent stack holding `l` would return, each stack holding what its own calls produce. -/
theorem C8_move {T : Type} (h : Heap T) (s : ListStack T) (l : List T)
    (hs : ListStack.Holds h s l) :
    let d := (ListStack.moveConstruct s).1
    let s1 := (ListStack.moveConstruct s).2
    ListStack.Holds h d l ∧ ListStack.Holds h s1 [] ∧ s1 = ListStack.construct ∧
    s1.isEmpty = true ∧ ListStack.pop h s1 = (.ok false, (h, s1)) ∧
    ListStack.peek h s1 = .error .logic_error ∧
    (∀ v, ListStack.Holds (ListStack.push h s1 v).1 (ListStack.push h s1 v).2 [v] ∧
      ListStack.Holds (ListStack.push h s1 v).1 d l) ∧
    ∀ ks : List (Which × Call T),
      (runCalls ListStack.callOn (h, s1, d) ks).1 = (runCalls Model.callOn ([], l) ks).1 ∧
      ListStack.Holds (runCalls ListStack.callOn (h, s1, d) ks).2.1
        (runCalls ListStack.callOn (h, s1, d) ks).2.2.1
        (runCalls (Model.call none) [] (callsTo .fst ks)).2 ∧
      ListStack.Holds (runCalls ListStack.callOn (h, s1, d) ks).2.1
        (runCalls ListStack.callOn (h, s1, d) ks).2.2.2
        (runCalls (Model.call none) l (callsTo .snd ks)).2 := by
  intro d s1
  obtain ⟨c, hc, rfl⟩ := hs
  have hd : h.IsChain d.top c := hc
  have hs1 : h.IsChain s1.top ([] : List (Nat × T)) := rfl
  have hdis : List.Disjoint (([] : List (Nat × T)).map Prod.fst) (c.map Prod.fst) := by simp
  have hH1 : ListStack.Holds h s1 [] := ⟨[], hs1, rfl⟩
  refine ⟨⟨c, hd, rfl⟩, hH1, rfl, rfl, lst_pop_nil hH1, lst_peek_nil hH1, fun v => ?_,
    fun ks => ?_⟩
  · obtain ⟨-, -, ⟨c1, h3, h4, -⟩, h6⟩ := ListStack.lst_call_chain hs1 (.push v)
    exact ⟨⟨c1, h3, h4⟩, ⟨c, h6 _ _ hd hdis, rfl⟩⟩
  · obtain ⟨i1, i2, i3⟩ := lst_two_chains hs1 hd hdis ks
    rw [model_callOn_state] at i2 i3
    exact ⟨i1, i2, i3⟩

/-- C8 at a concrete input: the stack holding 20, 10 in a free store with two nodes. -/
theorem C8_move_witness :
    ListStack.Holds [some ⟨(10 : Int), none⟩, some ⟨20, some 0⟩] ⟨some 1⟩ [20, 10] ∧
    ListStack.Holds [some ⟨(10 : Int), none⟩, some ⟨20, some 0⟩]
      (ListStack.moveConstruct (⟨some 1⟩ : ListStack Int)).1 [20, 10] ∧
    (ListStack.moveConstruct (⟨some 1⟩ : ListStack Int)).2 = ListStack.construct := by
  have hw : ListStack.Holds [some ⟨(10 : Int), none⟩, some ⟨20, some 0⟩] ⟨some 1⟩ [20, 10] :=
    ⟨[(1, 20), (0, 10)], ⟨rfl, some 0, rfl, rfl, none, rfl, rfl⟩, rfl⟩
  obtain ⟨e1, -, e3, -⟩ := C8_move _ _ _ hw
  exact ⟨hw, e1, e3⟩

/-! ## The character stack of the string functions -/

theorem loopFuel_eq {stack : CharStack} {l : List Char} (hs : stack.Holds l) :
    loopFuel stack = l.length := by
  have := hs.1
  simp only [loopFuel]
  omega

/-- The loop `popWhile` moves the longest run of top elements passing the test `p` to the
output, provided the fuel covers that run. -/
theorem popWhile_holds (p : Char → Bool) {l : List Char} :
    ∀ {stack : CharStack}, stack.Holds l → ∀ (fuel : Nat), (l.takeWhile p).length ≤ fuel →
      ∀ (out : List Char), ∃ stack1, popWhile p fuel stack out =
        .ok (stack1, out ++ l.takeWhile p) ∧ stack1.Holds (l.dropWhile p) := by
  induction l with
  | nil =>
    intro stack hs fuel _ out
    refine ⟨stack, ?_, hs⟩
    unfold popWhile
    simp [ArrayStack.arr_isEmpty hs]
  | cons v t ih =>
    intro stack hs fuel hfuel out
    have he : stack.isEmpty = false := by simp [ArrayStack.arr_isEmpty hs]
    have hpk := ArrayStack.arr_peek_cons hs
    by_cases hp : p v = true
    · obtain ⟨-, hpop, -⟩ := ArrayStack.arr_pop_cons hs
      cases fuel with
      | zero => simp [List.takeWhile_cons, hp] at hfuel
      | succ fuel =>
        obtain ⟨stack1, h1, h2⟩ := ih hpop fuel
          (by simpa [List.takeWhile_cons, hp] using hfuel) (out ++ [v])
        refine ⟨stack1, ?_, by simpa [List.dropWhile_cons, hp] using h2⟩
        unfold popWhile
        simp [he, hpk, hp, h1, List.takeWhile_cons]
    · refine ⟨stack, ?_, by simpa [List.dropWhile_cons, hp] using hs⟩
      unfold popWhile
      simp [he, hpk, hp, List.takeWhile_cons]

/-- The loop `pushChars` succeeds when the characters fit. -/
theorem pushChars_holds (cs : List Char) :
    ∀ {stack : CharStack} {l : List Char}, stack.Holds l →
      l.length + cs.length ≤ MIN_ARRAY_SIZE →
      ∃ stack1, pushChars stack cs = .ok stack1 ∧ stack1.Holds (cs.reverse ++ l) := by
  induction cs with
  | nil => exact fun {stack l} hs _ => ⟨stack, rfl, by simpa using hs⟩
  | cons c cs ih =>
    intro stack l hs hfit
    simp only [List.length_cons] at hfit
    obtain ⟨h1, h2, -⟩ := ArrayStack.arr_push_ok hs c (by omega)
    obtain ⟨stack1, h3, h4⟩ := ih h2 (by simp only [List.length_cons]; omega)
    refine ⟨stack1, ?_, by simpa using h4⟩
    simp only [pushChars]
    generalize stack.push c = r at h1 h3
    obtain ⟨r1, r2⟩ := r
    simp only at h1 h3
    subst h1
    exact h3

/-- The loop `pushChars` throws `length_error` when the characters do not fit. -/
theorem pushChars_overflow (cs : List Char) :
    ∀ {stack : CharStack} {l : List Char}, stack.Holds l →
      MIN_ARRAY_SIZE < l.length + cs.length → pushChars stack cs = .error .length_error := by
  induction cs with
  | nil =>
    intro stack l hs hfit
    have := ArrayStack.arr_length_le hs
    simp at hfit
    omega
  | cons c cs ih =>
    intro stack l hs hfit
    simp only [List.length_cons] at hfit
    by_cases hfull : l.length = MIN_ARRAY_SIZE
    · simp [pushChars, ArrayStack.arr_push_full hs c hfull]
    · obtain ⟨h1, h2, -⟩ := ArrayStack.arr_push_ok hs c hfull
      have h3 := ih h2 (by simp only [List.length_cons]; omega)
      simp only [pushChars]
      generalize stack.push c = r at h1 h3
      obtain ⟨r1, r2⟩ := r
      simp only at h1 h3
      subst h1
      exact h3

/-- What `reversedString` returns: the reversed input if it has at most 64 characters, else the
`length_error` of the overflowing push. -/
theorem reversedString_eq (s : List Char) :
    reversedString s =
      if s.length ≤ MIN_ARRAY_SIZE then .ok s.reverse else .error .length_error := by
  have h0 : (ArrayStack.construct : CharStack).Holds [] := ArrayStack.arr_holds_construct
  by_cases hlen : s.length ≤ MIN_ARRAY_SIZE
  · obtain ⟨stack1, h1, h2⟩ := pushChars_holds s h0 (by simpa using hlen)
    simp only [List.append_nil] at h2
    obtain ⟨stack2, h3, -⟩ := popWhile_holds (fun _ => true) h2 (loopFuel stack1)
      (by rw [loopFuel_eq h2]; exact (List.takeWhile_sublist _).length_le) []
    simp [reversedString, h1, h3, hlen]
  · have h1 := pushChars_overflow s h0 (by simpa using hlen)
    simp [reversedString, h1, hlen]

/-! ## C10: reversedString twice -/

/-- C10, as amended. For every string `s` of at most 64 characters, `reversedString(s)` returns
a string `r` and `reversedString(r)` returns `s`. -/
theorem C10_involution_bounded (s : List Char) (hlen : s.length ≤ 64) :
    ∃ r, reversedString s = .ok r ∧ reversedString r = .ok s := by
  have h1 : s.length ≤ MIN_ARRAY_SIZE := hlen
  have h2 : s.reverse.length ≤ MIN_ARRAY_SIZE := by simpa using h1
  refine ⟨s.reverse, ?_, ?_⟩
  · rw [reversedString_eq, if_pos h1]
  · rw [reversedString_eq, if_pos h2, List.reverse_reverse]

/-- C10 at a concrete input: the string "abc". -/
theorem C10_involution_bounded_witness :
    ['a', 'b', 'c'].length ≤ 64 ∧
    ∃ r, reversedString ['a', 'b', 'c'] = .ok r ∧ reversedString r = .ok ['a', 'b', 'c'] :=
  ⟨by decide, C10_involution_bounded ['a', 'b', 'c'] (by decide)⟩

/-- C10 as stated fails for a string of 65 characters: the 65th `push` throws `length_error`, so
`reversedString` returns no string at all. -/
theorem C10_counterexample :
    reversedString (List.replicate 65 'a') = .error .length_error ∧
    ¬ ∃ r, reversedString (List.replicate 65 'a') = .ok r ∧
      reversedString r = .ok (List.replicate 65 'a') := by
  have h : reversedString (List.replicate 65 'a') = .error .length_error := by
    rw [reversedString_eq, if_neg (by simp [MIN_ARRAY_SIZE])]
  refine ⟨h, ?_⟩
  rintro ⟨r, hr, -⟩
  rw [h] at hr
  cases hr

/-! ## C9: matching curly braces -/

theorem bracesLoop_eq_depthScan (s : List Char) :
    ∀ (d : Nat) {stack : CharStack}, stack.Holds (List.replicate d '{') →
      (∀ n, unclosedFrom d (s.take n) ≤ MIN_ARRAY_SIZE) →
      bracesLoop stack s = .ok (depthScan d s) := by
  induction s with
  | nil =>
    intro d stack hs _
    simp only [bracesLoop, depthScan, ArrayStack.arr_isEmpty hs]
    cases d <;> simp [List.replicate_succ]
  | cons ch rest ih =>
    intro d stack hs hcap
    by_cases h1 : ch = '{'
    · subst h1
      have hd : d + 1 ≤ MIN_ARRAY_SIZE := by simpa [unclosedFrom] using hcap 1
      have hlen : (List.replicate d '{').length ≠ MIN_ARRAY_SIZE := by simp; omega
      obtain ⟨p1, p2, -⟩ := ArrayStack.arr_push_ok hs '{' hlen
      have p3 : (stack.push '{').2.Holds (List.replicate (d + 1) '{') := by
        simpa [List.replicate_succ] using p2
      have hrec := ih (d + 1) p3 (fun n => by simpa [unclosedFrom] using hcap (n + 1))
      simp only [bracesLoop, depthScan, if_true]
      generalize stack.push '{' = r at p1 hrec
      obtain ⟨r1, r2⟩ := r
      simp only at p1 hrec
      subst p1
      exact hrec
    · by_cases h2 : ch = '}'
      · subst h2
        cases d with
        | zero =>
          have he : stack.isEmpty = true := by simp [ArrayStack.arr_isEmpty hs]
          simp [bracesLoop, depthScan, he]
        | succ d =>
          have he : stack.isEmpty = false := by
            simp [ArrayStack.arr_isEmpty hs, List.replicate_succ]
          obtain ⟨-, p2, -⟩ := ArrayStack.arr_pop_cons
            (show stack.Holds ('{' :: List.replicate d '{') by
              simpa [List.replicate_succ] using hs)
          have hrec := ih d p2 (fun n => by simpa [unclosedFrom] using hcap (n + 1))
          simp [bracesLoop, depthScan, he, hrec]
      · have hrec := ih d hs (fun n => by simpa [unclosedFrom, h1, h2] using hcap (n + 1))
        simp [bracesLoop, depthScan, h1, h2, hrec]

theorem dyck_append {u v : List Char} (hu : Dyck u) (hv : Dyck v) : Dyck (u ++ v) := by
  induction hu with
  | nil => simpa using hv
  | wrap ha _ _ ih2 =>
    have := Dyck.wrap ha ih2
    simpa using this

theorem closes_append {x : List Char} (hx : Dyck x) :
    ∀ {d : Nat} {v : List Char}, Closes d v → Closes d (x ++ v) := by
  intro d
  cases d with
  | zero => exact fun hv => dyck_append hx hv
  | succ d =>
    rintro v ⟨u, t, rfl, hu, ht⟩
    exact ⟨x ++ u, t, by simp, dyck_append hx hu, ht⟩

theorem depthScan_braces (s : List Char) : ∀ d, depthScan d (braces s) = depthScan d s := by
  induction s with
  | nil => intro d; rfl
  | cons c rest ih =>
    intro d
    by_cases h1 : c = '{'
    · subst h1
      simp [braces, depthScan] at ih ⊢
      exact ih (d + 1)
    · by_cases h2 : c = '}'
      · subst h2
        simp [braces, depthScan] at ih ⊢
        rw [ih (d - 1)]
      · simp [braces, depthScan, h1, h2] at ih ⊢
        exact ih d

theorem dyck_scan {u : List Char} (hu : Dyck u) :
    ∀ (d : Nat) (rest : List Char), depthScan d (u ++ rest) = depthScan d rest := by
  induction hu with
  | nil => intro d rest; rfl
  | wrap _ _ ih1 ih2 =>
    intro d rest
    simp [depthScan, ih1, ih2]

theorem closes_scan : ∀ (d : Nat) (w : List Char), Closes d w → depthScan d w = true := by
  intro d
  induction d with
  | zero =>
    intro w hw
    have := dyck_scan hw 0 []
    simpa [depthScan] using this
  | succ d ih =>
    rintro w ⟨u, v, rfl, hu, hv⟩
    rw [dyck_scan hu]
    simpa [depthScan] using ih v hv

theorem scan_closes (s : List Char) : ∀ d, depthScan d s = true → Closes d (braces s) := by
  induction s with
  | nil =>
    intro d hd
    have : d = 0 := by simpa [depthScan] using hd
    subst this
    exact Dyck.nil
  | cons c rest ih =>
    intro d hd
    by_cases h1 : c = '{'
    · subst h1
      have hr : depthScan (d + 1) rest = true := by simpa [depthScan] using hd
      obtain ⟨u, v, huv, hu, hv⟩ := ih (d + 1) hr
      have hb : braces ('{' :: rest) = ('{' :: u ++ '}' :: []) ++ v := by
        simp [braces] at huv ⊢
        exact huv
      rw [hb]
      exact closes_append (Dyck.wrap hu Dyck.nil) hv
    · by_cases h2 : c = '}'
      · subst h2
        cases d with
        | zero => simp [depthScan] at hd
        | succ d =>
          have hr : depthScan d rest = true := by simpa [depthScan] using hd
          refine ⟨[], braces rest, by simp [braces], Dyck.nil, ih d hr⟩
      · have hr : depthScan d rest = true := by simpa [depthScan, h1, h2] using hd
        have hb : braces (c :: rest) = braces rest := by simp [braces, h1, h2]
        rw [hb]
        exact ih d hr

theorem unclosedFrom_le (s : List Char) : ∀ d, unclosedFrom d s ≤ d + s.length := by
  induction s with
  | nil => intro d; simp [unclosedFrom]
  | cons c rest ih =>
    intro d
    have h1 := ih (d + 1)
    have h2 := ih (d - 1)
    have h3 := ih d
    simp only [unclosedFrom, List.foldl_cons, List.length_cons] at h1 h2 h3 ⊢
    split_ifs <;> omega

/-- C9. For every input string in which no leading part has more than 64 unclosed `{`,
`areCurleyBracesMatched` returns a boolean, and it returns true exactly when the curly braces
of the input, all other characters left out, form a properly nested sequence. -/
theorem C9_braces_matched (s : List Char) (hcap : ∀ n, unclosed (s.take n) ≤ 64) :
    ∃ b, areCurleyBracesMatched s = .ok b ∧ (b = true ↔ Dyck (braces s)) := by
  have h0 : (ArrayStack.construct : CharStack).Holds (List.replicate 0 '{') :=
    ArrayStack.arr_holds_construct
  refine ⟨depthScan 0 s, bracesLoop_eq_depthScan s 0 h0 hcap, fun h => scan_closes s 0 h,
    fun h => ?_⟩
  rw [← depthScan_braces]
  exact closes_scan 0 _ h

/-- C9 at a concrete input: the string "a{bc}d" of the unit test. -/
theorem C9_braces_matched_witness :
    (∀ n, unclosed (['a', '{', 'b', 'c', '}', 'd'].take n) ≤ 64) ∧
    ∃ b, areCurleyBracesMatched ['a', '{', 'b', 'c', '}', 'd'] = .ok b ∧
      (b = true ↔ Dyck (braces ['a', '{', 'b', 'c', '}', 'd'])) := by
  have hw : ∀ n, unclosed (['a', '{', 'b', 'c', '}', 'd'].take n) ≤ 64 := fun n => by
    have h1 := unclosedFrom_le (['a', '{', 'b', 'c', '}', 'd'].take n) 0
    have h2 : (['a', '{', 'b', 'c', '}', 'd'].take n).length ≤ 6 := by
      rw [List.length_take]
      exact Nat.min_le_right _ _
    have h3 : unclosed (['a', '{', 'b', 'c', '}', 'd'].take n) =
        unclosedFrom 0 (['a', '{', 'b', 'c', '}', 'd'].take n) := rfl
    omega
  exact ⟨hw, C9_braces_matched _ hw⟩

/-! ## The array stack version against the list version -/

theorem dropWhile_head_false {α : Type} (p : α → Bool) (l : List α) (x : α) (r : List α)
    (h : l.dropWhile p = x :: r) : p x = false := by
  induction l with
  | nil => simp at h
  | cons a t ih =>
    by_cases hp : p a = true
    · exact ih (by simpa [List.dropWhile_cons, hp] using h)
    · simp only [List.dropWhile_cons, hp, if_false] at h
      have : a = x := (List.cons.inj h).1
      subst this
      simpa using hp

theorem length_dropWhile_le {α : Type} (p : α → Bool) (l : List α) :
    (l.dropWhile p).length ≤ l.length := by
  induction l with
  | nil => simp
  | cons a t ih =>
    simp only [List.dropWhile_cons]
    split
    · exact Nat.le_succ_of_le ih
    · exact Nat.le_refl _

theorem listStep_length (st out : List Char) (ch : Char) :
    (listStep st out ch).1.length ≤ st.length + (if isPushed ch then 1 else 0) := by
  have hd := length_dropWhile_le (yields ch) st
  have hp := length_dropWhile_le (fun t => t != '(') st
  unfold listStep
  by_cases h1 : ch.isAlpha = true
  · rw [if_pos h1]
    exact Nat.le_add_right _ _
  · rw [if_neg h1]
    have hA : ch.isAlpha = false := by simpa using h1
    by_cases h2 : ch = '+' ∨ ch = '-' ∨ ch = '*' ∨ ch = '/'
    · have hpush : isPushed ch = true := by
        unfold isPushed
        rw [hA]
        rcases h2 with h | h | h | h <;> simp [h]
      rw [if_pos h2, hpush, if_pos rfl, List.length_cons]
      omega
    · rw [if_neg h2]
      by_cases h3 : ch = '('
      · have hpush : isPushed ch = true := by
          subst h3
          decide
        rw [if_pos h3, hpush, if_pos rfl, List.length_cons]
      · rw [if_neg h3]
        by_cases h4 : ch = ')'
        · rw [if_pos h4, List.length_tail]
          omega
        · rw [if_neg h4]
          exact Nat.le_add_right _ _

/-- One step of the converter on the array stack does what the step on the list does, provided
there is room for the character it may push. -/
theorem infixStep_holds {stack : CharStack} {st : List Char} (hs : stack.Holds st)
    (out : List Char) (ch : Char) (hroom : isPushed ch = true → st.length < MIN_ARRAY_SIZE) :
    ∃ stack1, infixStep stack out ch = .ok (stack1, (listStep st out ch).2) ∧
      stack1.Holds (listStep st out ch).1 := by
  unfold infixStep listStep
  by_cases h1 : ch.isAlpha = true
  · exact ⟨stack, by simp [h1], by simpa [h1] using hs⟩
  · by_cases h2 : ch = '+' ∨ ch = '-' ∨ ch = '*' ∨ ch = '/'
    · have hpush : isPushed ch = true := by
        unfold isPushed
        rcases h2 with h | h | h | h <;> simp [h]
      have hlt := hroom hpush
      obtain ⟨stack1, e1, e2⟩ := popWhile_holds (yields ch) hs (loopFuel stack)
        (by rw [loopFuel_eq hs]; exact (List.takeWhile_sublist _).length_le) out
      have hd := length_dropWhile_le (yields ch) st
      obtain ⟨p1, p2, -⟩ := ArrayStack.arr_push_ok e2 ch (by omega)
      refine ⟨(stack1.push ch).2, ?_, by simpa [h1, h2] using p2⟩
      simp only [h1, h2, if_true, if_false, e1]
      generalize stack1.push ch = r at p1
      obtain ⟨r1, r2⟩ := r
      simp only at p1
      subst p1
      rfl
    · by_cases h3 : ch = '('
      · subst h3
        have hlt := hroom (by decide)
        obtain ⟨p1, p2, -⟩ := ArrayStack.arr_push_ok hs '(' (by omega)
        refine ⟨(stack.push '(').2, ?_, by simpa [h1, h2] using p2⟩
        simp only [h1, h2, if_true, if_false]
        generalize stack.push '(' = r at p1
        obtain ⟨r1, r2⟩ := r
        simp only at p1
        subst p1
        rfl
      · by_cases h4 : ch = ')'
        · obtain ⟨stack1, e1, e2⟩ := popWhile_holds (fun t => t != '(') hs (loopFuel stack)
            (by rw [loopFuel_eq hs]; exact (List.takeWhile_sublist _).length_le) out
          simp only [h1, h2, h3, h4, if_true, if_false, e1]
          have he := ArrayStack.arr_isEmpty e2
          cases hdw : st.dropWhile (fun t => t != '(') with
          | nil =>
            rw [hdw] at e2 he
            exact ⟨stack1, by simp [he], by simpa using e2⟩
          | cons x r =>
            rw [hdw] at e2 he
            have hx : x = '(' := by
              have := dropWhile_head_false _ _ _ _ hdw
              simpa using this
            obtain ⟨-, q2, -⟩ := ArrayStack.arr_pop_cons e2
            refine ⟨stack1.pop.2, ?_, by simpa using q2⟩
            simp [he, ArrayStack.arr_peek_cons e2, hx]
        · exact ⟨stack, by simp [h1, h2, h3, h4], by simpa [h1, h2, h3, h4] using hs⟩

/-- The loop of the converter on the array stack does what the loop on the list does, provided
the stack has room for every character that is pushed. -/
theorem infixLoop_holds (input : List Char) :
    ∀ {stack : CharStack} {st : List Char}, stack.Holds st → ∀ (out : List Char),
      st.length + input.countP isPushed ≤ MIN_ARRAY_SIZE →
      ∃ stack1, infixLoop stack out input = .ok (stack1, (listLoop st out input).2) ∧
        stack1.Holds (listLoop st out input).1 := by
  induction input with
  | nil => exact fun {stack st} hs out _ => ⟨stack, rfl, hs⟩
  | cons ch rest ih =>
    intro stack st hs out hroom
    have hcount : (ch :: rest).countP isPushed =
        rest.countP isPushed + (if isPushed ch then 1 else 0) := List.countP_cons _ _ _
    obtain ⟨stack1, e1, e2⟩ := infixStep_holds hs out ch (fun hp => by
      rw [hcount, hp] at hroom
      simp only [if_true] at hroom
      omega)
    have hlen := listStep_length st out ch
    obtain ⟨stack2, e3, e4⟩ := ih e2 (listStep st out ch).2 (by omega)
    exact ⟨stack2, by simp only [infixLoop, e1, e3, listLoop], by simpa only [listLoop] using e4⟩

/-- What `infixToPostFix` returns when at most 64 of the input characters are pushed. -/
theorem infixToPostFix_eq (input : List Char)
    (hroom : input.countP isPushed ≤ MIN_ARRAY_SIZE) :
    infixToPostFix input = .ok (listConvert input) := by
  have h0 : (ArrayStack.construct : CharStack).Holds [] := ArrayStack.arr_holds_construct
  obtain ⟨stack1, e1, e2⟩ := infixLoop_holds input h0 [] (by simpa using hroom)
  obtain ⟨stack2, e3, -⟩ := popWhile_holds (fun _ => true) e2 (loopFuel stack1)
    (by rw [loopFuel_eq e2]; exact (List.takeWhile_sublist _).length_le) (listLoop [] [] input).2
  simp [infixToPostFix, e1, e3, listConvert]

/-! ## The converter and the depth of its stack -/

/-- One step of the converter on the array stack does what the step on the list does, provided
the list has at most 64 characters after the step. -/
theorem infixStep_fits {stack : CharStack} {st : List Char} (hs : stack.Holds st)
    (out : List Char) (ch : Char) (hfit : (listStep st out ch).1.length ≤ MIN_ARRAY_SIZE) :
    ∃ stack1, infixStep stack out ch = .ok (stack1, (listStep st out ch).2) ∧
      stack1.Holds (listStep st out ch).1 := by
  by_cases hop : ¬ ch.isAlpha = true ∧ (ch = '+' ∨ ch = '-' ∨ ch = '*' ∨ ch = '/')
  · obtain ⟨h1, h2⟩ := hop
    have hls : listStep st out ch =
        (ch :: st.dropWhile (yields ch), out ++ st.takeWhile (yields ch)) := by
      simp only [listStep, h1, h2, Bool.false_eq_true, if_true, if_false]
    rw [hls] at hfit ⊢
    simp only [List.length_cons] at hfit
    obtain ⟨stack1, e1, e2⟩ := popWhile_holds (yields ch) hs (loopFuel stack)
      (by rw [loopFuel_eq hs]; exact (List.takeWhile_sublist _).length_le) out
    obtain ⟨p1, p2, -⟩ := ArrayStack.arr_push_ok e2 ch (by omega)
    refine ⟨(stack1.push ch).2, ?_, p2⟩
    unfold infixStep
    simp only [h1, h2, Bool.false_eq_true, if_true, if_false, e1]
    generalize stack1.push ch = r at p1
    obtain ⟨r1, r2⟩ := r
    simp only at p1
    subst p1
    rfl
  · apply infixStep_holds hs out ch
    intro hp
    have hparen : ch = '(' := by
      simp only [isPushed, Bool.and_eq_true, Bool.not_eq_true', Bool.or_eq_true, beq_iff_eq]
        at hp
      obtain ⟨ha, hb⟩ := hp
      rcases hb with (((h | h) | h) | h) | h
      · exact absurd ⟨by simp [ha], Or.inl h⟩ hop
      · exact absurd ⟨by simp [ha], Or.inr (Or.inl h)⟩ hop
      · exact absurd ⟨by simp [ha], Or.inr (Or.inr (Or.inl h))⟩ hop
      · exact absurd ⟨by simp [ha], Or.inr (Or.inr (Or.inr h))⟩ hop
      · exact h
    subst hparen
    have hls : listStep st out '(' = ('(' :: st, out) := by
      simp [listStep]
    rw [hls] at hfit
    simp only [List.length_cons] at hfit
    omega

/-- One step of the converter on the array stack throws `length_error` when the list has more
than 64 characters after the step. -/
theorem infixStep_overflow {stack : CharStack} {st : List Char} (hs : stack.Holds st)
    (out : List Char) (ch : Char) (hover : MIN_ARRAY_SIZE < (listStep st out ch).1.length) :
    infixStep stack out ch = .error .length_error := by
  have hle := ArrayStack.arr_length_le hs
  have hlen := listStep_length st out ch
  by_cases h1 : ch.isAlpha = true
  · exfalso
    simp only [listStep, h1, if_true] at hover
    omega
  · by_cases h2 : ch = '+' ∨ ch = '-' ∨ ch = '*' ∨ ch = '/'
    · obtain ⟨stack1, e1, e2⟩ := popWhile_holds (yields ch) hs (loopFuel stack)
        (by rw [loopFuel_eq hs]; exact (List.takeWhile_sublist _).length_le) out
      have hd := ArrayStack.arr_length_le e2
      have hfull : (st.dropWhile (yields ch)).length = MIN_ARRAY_SIZE := by
        simp only [listStep, h1, h2, Bool.false_eq_true, if_true, if_false, List.length_cons] at hover
        omega
      have hp := ArrayStack.arr_push_full e2 ch hfull
      unfold infixStep
      simp only [h1, h2, Bool.false_eq_true, if_true, if_false, e1, hp]
    · by_cases h3 : ch = '('
      · subst h3
        have hfull : st.length = MIN_ARRAY_SIZE := by
          simp only [listStep, h1, h2, Bool.false_eq_true, if_true, if_false, List.length_cons] at hover
          omega
        have hp := ArrayStack.arr_push_full hs '(' hfull
        unfold infixStep
        simp only [h1, h2, Bool.false_eq_true, if_true, if_false, hp]
      · exfalso
        have hnp : isPushed ch = false := by
          simp only [isPushed, Bool.and_eq_false_iff, Bool.or_eq_false_iff, beq_eq_false_iff_ne]
          right
          exact ⟨⟨⟨⟨fun h => h2 (Or.inl h), fun h => h2 (Or.inr (Or.inl h))⟩,
            fun h => h2 (Or.inr (Or.inr (Or.inl h)))⟩,
            fun h => h2 (Or.inr (Or.inr (Or.inr h)))⟩, h3⟩
        rw [hnp] at hlen
        simp only [Bool.false_eq_true, if_false, Nat.add_zero] at hlen
        omega

/-- The loop of the converter on the array stack does what the loop on the list does, provided
the list never has more than 64 characters. -/
theorem infixLoop_fits (input : List Char) :
    ∀ {stack : CharStack} {st : List Char}, stack.Holds st → ∀ (out : List Char),
      (∀ n, (listLoop st out (input.take n)).1.length ≤ MIN_ARRAY_SIZE) →
      ∃ stack1, infixLoop stack out input = .ok (stack1, (listLoop st out input).2) ∧
        stack1.Holds (listLoop st out input).1 := by
  induction input with
  | nil => exact fun {stack st} hs out _ => ⟨stack, rfl, hs⟩
  | cons ch rest ih =>
    intro stack st hs out hcap
    obtain ⟨stack1, e1, e2⟩ := infixStep_fits hs out ch
      (by simpa only [List.take_succ_cons, List.take_zero, listLoop] using hcap 1)
    obtain ⟨stack2, e3, e4⟩ := ih e2 (listStep st out ch).2
      (fun n => by simpa only [List.take_succ_cons, listLoop] using hcap (n + 1))
    exact ⟨stack2, by simp only [infixLoop, e1, e3, listLoop], by simpa only [listLoop] using e4⟩

/-- The loop of the converter on the array stack throws `length_error` when the list has more
than 64 characters at some point. -/
theorem infixLoop_overflow (input : List Char) :
    ∀ {stack : CharStack} {st : List Char}, stack.Holds st → ∀ (out : List Char),
      (∃ n, MIN_ARRAY_SIZE < (listLoop st out (input.take n)).1.length) →
      infixLoop stack out input = .error .length_error := by
  induction input with
  | nil =>
    intro stack st hs out hover
    obtain ⟨n, hn⟩ := hover
    have hle := ArrayStack.arr_length_le hs
    simp only [List.take_nil, listLoop] at hn
    omega
  | cons ch rest ih =>
    intro stack st hs out hover
    obtain ⟨n, hn⟩ := hover
    by_cases hfit : (listStep st out ch).1.length ≤ MIN_ARRAY_SIZE
    · obtain ⟨stack1, e1, e2⟩ := infixStep_fits hs out ch hfit
      cases n with
      | zero =>
        have hle := ArrayStack.arr_length_le hs
        simp only [List.take_zero, listLoop] at hn
        omega
      | succ m =>
        have h := ih e2 (listStep st out ch).2
          ⟨m, by simpa only [List.take_succ_cons, listLoop] using hn⟩
        simp only [infixLoop, e1, h]
    · have h := infixStep_overflow hs out ch (by omega)
      simp only [infixLoop, h]

/-- What `infixToPostFix` returns when its stack never needs more than 64 places. -/
theorem infixToPostFix_fits (input : List Char)
    (hcap : ∀ n, (pending (input.take n)).length ≤ MIN_ARRAY_SIZE) :
    infixToPostFix input = .ok (listConvert input) := by
  have h0 : (ArrayStack.construct : CharStack).Holds [] := ArrayStack.arr_holds_construct
  obtain ⟨stack1, e1, e2⟩ := infixLoop_fits input h0 [] hcap
  obtain ⟨stack2, e3, -⟩ := popWhile_holds (fun _ => true) e2 (loopFuel stack1)
    (by rw [loopFuel_eq e2]; exact (List.takeWhile_sublist _).length_le) (listLoop [] [] input).2
  simp [infixToPostFix, e1, e3, listConvert]

/-- The bound of 64 places is exact: `infixToPostFix` throws `length_error` as soon as some
leading part of the input leaves more than 64 characters waiting on the stack. -/
theorem infixToPostFix_overflow (input : List Char)
    (hover : ∃ n, MIN_ARRAY_SIZE < (pending (input.take n)).length) :
    infixToPostFix input = .error .length_error := by
  have h0 : (ArrayStack.construct : CharStack).Holds [] := ArrayStack.arr_holds_construct
  have h := infixLoop_overflow input h0 [] hover
  simp only [infixToPostFix, h]

/-- The characters waiting on the stack are among the operators and `(` read so far. -/
theorem listLoop_length (w : List Char) : ∀ (st out : List Char),
    (listLoop st out w).1.length ≤ st.length + w.countP isPushed := by
  induction w with
  | nil => intro st out; simp [listLoop]
  | cons ch rest ih =>
    intro st out
    have h1 := listStep_length st out ch
    have h2 := ih (listStep st out ch).1 (listStep st out ch).2
    have hcount : (ch :: rest).countP isPushed =
        rest.countP isPushed + (if isPushed ch then 1 else 0) := List.countP_cons _ _ _
    simp only [listLoop]
    omega

/-- A string with at most 64 operators and `(`, and so every string of at most 64 characters,
never has more than 64 characters waiting on the stack. -/
theorem pending_le_pushed (input : List Char) (n : Nat) :
    (pending (input.take n)).length ≤ input.countP isPushed ∧
      (pending (input.take n)).length ≤ input.length := by
  have h1 := listLoop_length (input.take n) [] []
  have h2 : (input.take n).countP isPushed ≤ input.countP isPushed :=
    (List.take_sublist n input).countP_le _
  have h3 : input.countP isPushed ≤ input.length := List.countP_le_length _
  simp only [List.length_nil, Nat.zero_add] at h1
  exact ⟨Nat.le_trans h1 h2, Nat.le_trans (Nat.le_trans h1 h2) h3⟩

theorem forall_take {α : Type} (P : List α → Prop) (l : List α)
    (h : ∀ n, n ≤ l.length → P (l.take n)) : ∀ n, P (l.take n) := by
  intro n
  by_cases hn : n ≤ l.length
  · exact h n hn
  · rw [List.take_of_length_le (by omega)]
    have := h l.length (Nat.le_refl _)
    rwa [List.take_length] at this

/-! ## C3: failure modes of infixToPostFix -/

/-- C3, as amended. For every input string, of any length, over any characters and whether
well-formed or not, during whose scan the operator stack never has to hold more than 64
characters (no leading part of the input leaves more than 64 operators and `(` waiting),
`infixToPostFix` returns a string: it neither throws nor runs into undefined behaviour, and its
loops finish. -/
theorem C3_no_failure_bounded (input : List Char)
    (hcap : ∀ n, (pending (input.take n)).length ≤ 64) :
    ∃ out, infixToPostFix input = .ok out :=
  ⟨listConvert input, infixToPostFix_fits input hcap⟩

theorem pending_plus_signs :
    ∀ n, n ≤ (List.replicate 65 '+').length →
      (pending ((List.replicate 65 '+').take n)).length ≤ 64 := by
  decide!

theorem infixToPostFix_plus_signs :
    infixToPostFix (List.replicate 65 '+') = .ok (List.replicate 65 '+') := by
  decide!

/-- C3 at a concrete input: the ill-formed string of 65 `+`.  Each `+` makes the one before it
leave the stack, so the stack never holds more than one character, and the string is returned
as it is. -/
theorem C3_no_failure_bounded_witness :
    (∀ n, (pending ((List.replicate 65 '+').take n)).length ≤ 64) ∧
    (∃ out, infixToPostFix (List.replicate 65 '+') = .ok out) ∧
    infixToPostFix (List.replicate 65 '+') = .ok (List.replicate 65 '+') :=
  ⟨forall_take (fun w => (pending w).length ≤ 64) _ pending_plus_signs,
    C3_no_failure_bounded (List.replicate 65 '+')
      (forall_take (fun w => (pending w).length ≤ 64) _ pending_plus_signs),
    infixToPostFix_plus_signs⟩

/-- C3 as stated fails for a string over the supported characters: on 65 opening parentheses the
65th `push` throws `length_error`. -/
theorem C3_counterexample :
    infixToPostFix (List.replicate 65 '(') = .error .length_error ∧
    ¬ ∃ out, infixToPostFix (List.replicate 65 '(') = .ok out := by
  have h : infixToPostFix (List.replicate 65 '(') = .error .length_error := by decide!
  refine ⟨h, ?_⟩
  rintro ⟨out, hout⟩
  rw [h] at hout
  cases hout

/-! ## C2: infixToPostFix on well-formed expressions -/

theorem listLoop_append (w1 w2 : List Char) : ∀ (st out : List Char),
    listLoop st out (w1 ++ w2) = listLoop (listLoop st out w1).1 (listLoop st out w1).2 w2 := by
  induction w1 with
  | nil => intro st out; rfl
  | cons c rest ih => intro st out; exact ih _ _

theorem span_pending (p : Char → Bool) (pend st : List Char) (h1 : ∀ t ∈ pend, p t = true)
    (h2 : ∀ t, st.head? = some t → p t = false) :
    (pend ++ st).takeWhile p = pend ∧ (pend ++ st).dropWhile p = st := by
  induction pend with
  | nil =>
    cases st with
    | nil => simp
    | cons x r => simp [List.takeWhile_cons, List.dropWhile_cons, h2 x rfl]
  | cons x r ih =>
    have hx := h1 x (by simp)
    have := ih fun t ht => h1 t (by simp [ht])
    simp [List.takeWhile_cons, List.dropWhile_cons, hx, this]

theorem yields_mul {op : Char} (hop : op = '*' ∨ op = '/') (t : Char) :
    yields op t = true ↔ t = '*' ∨ t = '/' := by
  unfold yields
  rcases hop with rfl | rfl
  · constructor
    · intro h
      simp at h
      exact h.2
    · rintro (rfl | rfl) <;> decide
  · constructor
    · intro h
      simp at h
      exact h.2
    · rintro (rfl | rfl) <;> decide

theorem yields_add {op : Char} (hop : op = '+' ∨ op = '-') (t : Char) :
    yields op t = true ↔ t = '+' ∨ t = '-' ∨ t = '*' ∨ t = '/' := by
  unfold yields
  rcases hop with rfl | rfl
  · constructor
    · intro h
      simp at h
      tauto
    · rintro (rfl | rfl | rfl | rfl) <;> decide
  · constructor
    · intro h
      simp at h
      tauto
    · rintro (rfl | rfl | rfl | rfl) <;> decide

theorem listStep_op {ch : Char} (hop : ch = '+' ∨ ch = '-' ∨ ch = '*' ∨ ch = '/')
    (st out : List Char) :
    listStep st out ch = (ch :: st.dropWhile (yields ch), out ++ st.takeWhile (yields ch)) := by
  have hA : ¬ ch.isAlpha = true := by
    rcases hop with rfl | rfl | rfl | rfl <;> decide
  unfold listStep
  rw [if_neg hA, if_pos hop]

/-- Reading a well-formed expression of some level on top of a stack that may carry it moves the
post-order rendering of its tree to the output, except for operators of that level that are
still pending on top of the otherwise unchanged stack. -/
theorem listLoop_parses {lvl : Level} {w : List Char} {e : Expr} (hp : Parses lvl w e) :
    ∀ (st out : List Char), (∀ t, st.head? = some t → ctxOk lvl t) →
      ∃ pend out1, listLoop st out w = (pend ++ st, out1) ∧ out1 ++ pend = out ++ e.post ∧
        ∀ t ∈ pend, pendOk lvl t := by
  induction hp with
  | letter c hc =>
    intro st out _
    refine ⟨[], out ++ [c], ?_, by simp [Expr.post], by simp⟩
    simp [listLoop, listStep, hc]
  | @paren w e _ ih =>
    intro st out _
    obtain ⟨pend, out1, e1, e2, e3⟩ := ih ('(' :: st) out (fun t ht => by
      simp only [List.head?_cons, Option.some.injEq] at ht
      subst ht
      simp only [ctxOk]
      decide)
    have hopen : listStep st out '(' = ('(' :: st, out) := by
      unfold listStep
      rw [if_neg (by decide), if_neg (by decide), if_pos rfl]
    have hspan := span_pending (fun t => t != '(') pend ('(' :: st)
      (fun t ht => by
        have := e3 t ht
        simp only [pendOk] at this
        rcases this with rfl | rfl | rfl | rfl <;> decide)
      (fun t ht => by
        simp only [List.head?_cons, Option.some.injEq] at ht
        subst ht
        decide)
    have hclose : listStep (pend ++ '(' :: st) out1 ')' = (st, out1 ++ pend) := by
      unfold listStep
      rw [if_neg (by decide), if_neg (by decide), if_neg (by decide), if_pos rfl,
        hspan.1, hspan.2]
      rfl
    refine ⟨[], out1 ++ pend, ?_, by simpa using e2, by simp⟩
    show listLoop st out ('(' :: (w ++ [')'])) = _
    simp only [listLoop, hopen, listLoop_append, e1, hclose, List.nil_append]
  | factor _ ih =>
    intro st out _
    obtain ⟨pend, out1, e1, e2, e3⟩ := ih st out (fun _ _ => trivial)
    exact ⟨pend, out1, e1, e2, fun t ht => (e3 t ht).elim⟩
  | @mul w1 w2 t1 t2 op _ hop _ ih1 ih2 =>
    intro st out hctx
    obtain ⟨pend1, out1, a1, a2, a3⟩ := ih1 st out hctx
    have hspan := span_pending (yields op) pend1 st
      (fun t ht => (yields_mul hop t).2 (a3 t ht))
      (fun t ht => by
        have h1 := hctx t ht
        have h2 := (yields_mul hop t).not.2 h1
        simpa using h2)
    have hstep : listStep (pend1 ++ st) out1 op = (op :: st, out1 ++ pend1) := by
      rw [listStep_op (by tauto), hspan.1, hspan.2]
    obtain ⟨pend2, out2, b1, b2, b3⟩ := ih2 (op :: st) (out1 ++ pend1) (fun _ _ => trivial)
    have hnil : pend2 = [] := List.eq_nil_iff_forall_not_mem.2 fun t ht => b3 t ht
    subst hnil
    refine ⟨[op], out2, ?_, ?_, ?_⟩
    · rw [listLoop_append, a1]
      simp only [listLoop, hstep, b1, List.nil_append, List.singleton_append]
    · simp only [List.append_nil] at b2
      rw [b2, a2]
      simp [Expr.post]
    · intro t ht
      simp only [List.mem_singleton] at ht
      subst ht
      exact hop
  | term _ ih =>
    intro st out hctx
    obtain ⟨pend, out1, e1, e2, e3⟩ := ih st out (fun t ht => by
      have := hctx t ht
      simp only [ctxOk] at this ⊢
      tauto)
    refine ⟨pend, out1, e1, e2, fun t ht => ?_⟩
    have := e3 t ht
    simp only [pendOk] at this ⊢
    tauto
  | @add w1 w2 t1 t2 op _ hop _ ih1 ih2 =>
    intro st out hctx
    obtain ⟨pend1, out1, a1, a2, a3⟩ := ih1 st out hctx
    have hspan := span_pending (yields op) pend1 st
      (fun t ht => (yields_add hop t).2 (a3 t ht))
      (fun t ht => by
        have h1 := hctx t ht
        have h2 := (yields_add hop t).not.2 h1
        simpa using h2)
    have hstep : listStep (pend1 ++ st) out1 op = (op :: st, out1 ++ pend1) := by
      rw [listStep_op (by tauto), hspan.1, hspan.2]
    obtain ⟨pend2, out2, b1, b2, b3⟩ := ih2 (op :: st) (out1 ++ pend1) (fun t ht => by
      simp only [List.head?_cons, Option.some.injEq] at ht
      subst ht
      simp only [ctxOk]
      rcases hop with rfl | rfl <;> decide)
    refine ⟨pend2 ++ [op], out2, ?_, ?_, ?_⟩
    · rw [listLoop_append, a1]
      simp only [listLoop, hstep, b1, List.append_assoc, List.singleton_append]
    · rw [← List.append_assoc, b2, a2]
      simp [Expr.post]
    · intro t ht
      simp only [List.mem_append, List.mem_singleton] at ht
      rcases ht with ht | rfl
      · have := b3 t ht
        simp only [pendOk] at this ⊢
        tauto
      · simp only [pendOk]
        tauto

/-- On a well-formed expression the list form of the converter returns the post-order rendering
of its parse tree. -/
theorem listConvert_parses {w : List Char} {e : Expr} (hp : Parses .sum w e) :
    listConvert w = e.post := by
  obtain ⟨pend, out1, e1, e2, -⟩ := listLoop_parses hp [] [] (fun t ht => by simp at ht)
  simp only [listConvert, e1, List.append_nil]
  simpa using e2

/-- C2. For every well-formed infix expression `s` of at most 64 characters over single-letter
operands, the binary operators `+ - * /` and parentheses (redundant ones allowed),
`infixToPostFix(s)` returns the post-order rendering of the parse tree `e` of `s`, where `*` and
`/` bind tighter than `+` and `-` and operators of equal precedence associate to the left. -/
theorem C2_infix_to_postfix (s : List Char) (e : Expr) (hp : Parses .sum s e)
    (hlen : s.length ≤ 64) : infixToPostFix s = .ok e.post := by
  rw [infixToPostFix_eq s (Nat.le_trans (List.countP_le_length _) hlen), listConvert_parses hp]

/-- C2 at a concrete input: "a+b*c" has the parse tree `a + (b * c)` and is converted to
"abc*+". -/
theorem C2_infix_to_postfix_witness :
    Parses .sum ['a', '+', 'b', '*', 'c'] (.bin '+' (.var 'a') (.bin '*' (.var 'b') (.var 'c'))) ∧
    ['a', '+', 'b', '*', 'c'].length ≤ 64 ∧
    infixToPostFix ['a', '+', 'b', '*', 'c'] = .ok ['a', 'b', 'c', '*', '+'] := by
  have hw : Parses .sum ['a', '+', 'b', '*', 'c']
      (.bin '+' (.var 'a') (.bin '*' (.var 'b') (.var 'c'))) :=
    @Parses.add ['a'] ['b', '*', 'c'] _ _ _
      (Parses.term (Parses.factor (Parses.letter 'a' (by decide)))) (Or.inl rfl)
      (@Parses.mul ['b'] ['c'] _ _ _ (Parses.factor (Parses.letter 'b' (by decide)))
        (Or.inl rfl) (Parses.letter 'c' (by decide)))
  exact ⟨hw, by decide, C2_infix_to_postfix _ _ hw (by decide)⟩

/-! ## C11, C12: reversedString and isPalindrome -/

/-- What `isPalindrome` returns: the comparison of the input with its reverse if it has at most
64 characters, else the `length_error` of the overflowing push. -/
theorem isPalindrome_eq (s : List Char) :
    isPalindrome s =
      if s.length ≤ MIN_ARRAY_SIZE then .ok (s == s.reverse) else .error .length_error := by
  have h0 : (ArrayStack.construct : CharStack).Holds [] := ArrayStack.arr_holds_construct
  by_cases hlen : s.length ≤ MIN_ARRAY_SIZE
  · obtain ⟨stack1, h1, h2⟩ := pushChars_holds s h0 (by simpa using hlen)
    simp only [List.append_nil] at h2
    obtain ⟨stack2, h3, -⟩ := popWhile_holds (fun _ => true) h2 (loopFuel stack1)
      (by rw [loopFuel_eq h2]; exact (List.takeWhile_sublist _).length_le) []
    have htw : List.takeWhile (fun _ => true) s.reverse = s.reverse := by simp
    rw [htw] at h3
    simp [isPalindrome, h1, h3, hlen]
  · have h1 := pushChars_overflow s h0 (by simpa using hlen)
    simp [isPalindrome, h1, hlen]

/-- C11. For every string `s` of at most 64 characters, `reversedString(s)` returns a string
`r` of the same length as `s` whose `i`-th character is the `(length-1-i)`-th character of `s`:
`s` read backwards. -/
theorem C11_reversed_string (s : List Char) (hlen : s.length ≤ 64) :
    ∃ r, reversedString s = .ok r ∧ r.length = s.length ∧ r = s.reverse ∧
      ∀ i, i < s.length → r[i]? = s[s.length - 1 - i]? := by
  have h1 : s.length ≤ MIN_ARRAY_SIZE := hlen
  refine ⟨s.reverse, by rw [reversedString_eq, if_pos h1], by simp, rfl, fun i hi => ?_⟩
  rw [List.getElem?_reverse hi]

/-- C11 at a concrete input: "abc" is reversed to "cba". -/
theorem C11_reversed_string_witness :
    ['a', 'b', 'c'].length ≤ 64 ∧ reversedString ['a', 'b', 'c'] = .ok ['c', 'b', 'a'] := by
  obtain ⟨r, h1, -, h2, -⟩ := C11_reversed_string ['a', 'b', 'c'] (by decide)
  rw [h2] at h1
  exact ⟨by decide, h1⟩

/-- C12, as amended. For every string `s` of at most 64 characters, `isPalindrome(s)` and
`reversedString(s)` both return, and `isPalindrome(s) == (s == reversedString(s))`: it is true
exactly when `s` reads the same forwards and backwards. -/
theorem C12_palindrome_bounded (s : List Char) (hlen : s.length ≤ 64) :
    ∃ b r, isPalindrome s = .ok b ∧ reversedString s = .ok r ∧ b = (s == r) ∧
      (b = true ↔ s = s.reverse) := by
  have h1 : s.length ≤ MIN_ARRAY_SIZE := hlen
  refine ⟨s == s.reverse, s.reverse, by rw [isPalindrome_eq, if_pos h1],
    by rw [reversedString_eq, if_pos h1], rfl, by simp⟩

/-- C12 at a concrete input: "abba" is a palindrome. -/
theorem C12_palindrome_bounded_witness :
    ['a', 'b', 'b', 'a'].length ≤ 64 ∧
    ∃ b r, isPalindrome ['a', 'b', 'b', 'a'] = .ok b ∧
      reversedString ['a', 'b', 'b', 'a'] = .ok r ∧ b = (['a', 'b', 'b', 'a'] == r) ∧
      (b = true ↔ ['a', 'b', 'b', 'a'] = ['a', 'b', 'b', 'a'].reverse) :=
  ⟨by decide, C12_palindrome_bounded ['a', 'b', 'b', 'a'] (by decide)⟩

/-- C12 as stated fails for a string of 65 equal characters: it reads the same forwards and
backwards, yet `isPalindrome` does not return true, because the 65th `push` throws
`length_error` (as it does in `reversedString`). -/
theorem C12_counterexample :
    List.replicate 65 'a' = (List.replicate 65 'a').reverse ∧
    isPalindrome (List.replicate 65 'a') = .error .length_error ∧
    reversedString (List.replicate 65 'a') = .error .length_error ∧
    isPalindrome (List.replicate 65 'a') ≠ .ok true := by
  have h : isPalindrome (List.replicate 65 'a') = .error .length_error := by
    rw [isPalindrome_eq, if_neg (by simp [MIN_ARRAY_SIZE])]
  have h2 : reversedString (List.replicate 65 'a') = .error .length_error := by
    rw [reversedString_eq, if_neg (by simp [MIN_ARRAY_SIZE])]
  refine ⟨by simp, h, h2, ?_⟩
  rw [h]
  intro hc
  cases hc

/-! ## C15, C16: substitution of the two stacks, capacity invariant -/

/-- The reference stack never runs into undefined behaviour. -/
theorem model_no_ub {T : Type} (cap : Option Nat) (cs : List (Call T)) :
    ∀ (l : List T), ∀ x ∈ (runCalls (Model.call cap) l cs).1,
      x ≠ .raised .undefined_behaviour := by
  induction cs with
  | nil => intro l x hx; simp [runCalls] at hx
  | cons c cs ih =>
    intro l x hx
    simp only [runCalls, List.mem_cons] at hx
    rcases hx with rfl | hx
    · cases c with
      | isEmpty => simp [Model.call]
      | push v =>
        simp only [Model.call]
        split <;> simp
      | peek => cases l <;> simp [Model.call]
      | pop => cases l <;> simp [Model.call]
    · exact ih _ x hx

/-- While the number of stored values stays within `N`, the bounded reference stack does what
the unbounded one does. -/
theorem model_cap_unused {T : Type} (N : Nat) (cs : List (Call T)) :
    ∀ (l : List T),
      (∀ n, n ≤ cs.length → (runCalls (Model.call none) l (cs.take n)).2.length ≤ N) →
      runCalls (Model.call (some N)) l cs = runCalls (Model.call none) l cs := by
  induction cs with
  | nil => intro l _; rfl
  | cons c cs ih =>
    intro l hcap
    have h1 := hcap 1 (by simp)
    simp only [List.take_succ_cons, List.take_zero, runCalls] at h1
    have hstep : Model.call (some N) l c = Model.call none l c := by
      cases c with
      | push v =>
        have hne : ¬ (some N = some l.length) := by
          intro h
          have := Option.some.inj h
          simp [Model.call] at h1
          omega
        simp [Model.call, hne]
      | isEmpty => rfl
      | peek => rfl
      | pop => rfl
    have hrec := ih (Model.call none l c).2 (fun n hn => by
      have := hcap (n + 1) (by simpa using hn)
      simpa only [List.take_succ_cons, runCalls] using this)
    simp only [runCalls, hstep, hrec]

/-- C15. The backing implementation is a pure substitution: for every sequence `cs` of push,
pop, peek and isEmpty calls during which the number of stored values never exceeds `N`, an
`ArrayStack<T,N>` and a `ListStack<T>` (in any free store `h0`), both newly constructed and given
the calls `cs`, return the same result for every call. -/
theorem C15_substitution {T : Type} [ValueInit T] (N : Nat) (h0 : Heap T) (cs : List (Call T))
    (hcap : ∀ n, n ≤ cs.length → (live none (cs.take n)).length ≤ N) :
    (runCalls ArrayStack.call (ArrayStack.construct : ArrayStack T N) cs).1 =
      (runCalls ListStack.call (h0, ListStack.construct) cs).1 := by
  have h1 := (ArrayStack.arr_runCalls
    (ArrayStack.arr_holds_construct : (ArrayStack.construct : ArrayStack T N).Holds []) cs).1
  have h2 := (ListStack.lst_runCalls (ListStack.lst_holds_construct h0) cs).1
  rw [h1, h2, model_cap_unused N cs [] hcap]

/-- C15 at a concrete input: the calls of the unit tests on stacks of capacity 2. -/
theorem C15_substitution_witness :
    (∀ n, n ≤ ([.isEmpty, .push 10, .peek, .push 20, .peek, .pop, .peek, .pop, .pop, .peek] :
        List (Call Int)).length →
      (live none (([.isEmpty, .push 10, .peek, .push 20, .peek, .pop, .peek, .pop, .pop,
        .peek] : List (Call Int)).take n)).length ≤ 2) ∧
    (runCalls ArrayStack.call (ArrayStack.construct : ArrayStack Int 2)
      [.isEmpty, .push 10, .peek, .push 20, .peek, .pop, .peek, .pop, .pop, .peek]).1 =
    (runCalls ListStack.call (([] : Heap Int), ListStack.construct)
      [.isEmpty, .push 10, .peek, .push 20, .peek, .pop, .peek, .pop, .pop, .peek]).1 :=
  ⟨by decide, C15_substitution 2 [] _ (by decide)⟩

/-- C16. Capacity invariant of `ArrayStack<T,N>`: after construction and after every sequence
`cs` of push, pop, peek and isEmpty calls (pushes that throw and pops on an empty stack
included), the element count `topIndex + 1` is between 0 and `N`, the array has `N` slots, and
no call ran into undefined behaviour: every array access made by push and peek was within
bounds. -/
theorem C16_capacity_invariant {T : Type} [ValueInit T] (N : Nat) (cs : List (Call T)) :
    0 ≤ (runCalls ArrayStack.call (ArrayStack.construct : ArrayStack T N) cs).2.topIndex + 1 ∧
    (runCalls ArrayStack.call (ArrayStack.construct : ArrayStack T N) cs).2.topIndex + 1 ≤ N ∧
    (runCalls ArrayStack.call (ArrayStack.construct : ArrayStack T N) cs).2.array.length = N ∧
    ∀ x ∈ (runCalls ArrayStack.call (ArrayStack.construct : ArrayStack T N) cs).1,
      x ≠ .raised .undefined_behaviour := by
  obtain ⟨h1, h2⟩ := ArrayStack.arr_runCalls
    (ArrayStack.arr_holds_construct : (ArrayStack.construct : ArrayStack T N).Holds []) cs
  have hle := ArrayStack.arr_length_le h2
  have hc := h2.1
  refine ⟨by omega, by omega, ArrayStack.array_size _, fun x hx => ?_⟩
  rw [h1] at hx
  exact model_no_ub (some N) cs [] x hx

/-! ## C19: the destructor of ListStack -/

theorem runCalls_cons {σ κ ρ : Type} (call : σ → κ → ρ × σ) (s : σ) (c : κ) (cs : List κ) :
    runCalls call s (c :: cs) =
      ((call s c).1 :: (runCalls call (call s c).2 cs).1, (runCalls call (call s c).2 cs).2) :=
  rfl

/-- A pop on a non-empty chain releases exactly the top node and moves `top` to the next one. -/
theorem chain_pop {T : Type} {h : Heap T} {s : ListStack T} {av : Nat × T}
    {rest : List (Nat × T)} (hc : h.IsChain s.top (av :: rest)) :
    ∃ nx, ListStack.pop h s = (.ok true, (h.set av.1 none, ⟨nx⟩)) ∧
      Heap.IsChain (h.set av.1 none) nx rest ∧ av.1 ∉ rest.map Prod.fst ∧
      av.1 < h.length := by
  have hnd := Heap.chain_nodup hc
  have hlt := Heap.chain_lt_length hc av.1 (by simp)
  obtain ⟨e, nx, g, r⟩ := hc
  rw [List.map_cons, List.nodup_cons] at hnd
  refine ⟨nx, ?_, ?_, hnd.1, hlt⟩
  · simp [ListStack.pop, ListStack.isEmpty, e, Heap.deref, Heap.delete, g, Node.getNext]
  · refine Heap.chain_frame r fun a ha => List.getElem?_set_ne ?_
    rintro rfl
    exact hnd.1 ha

/-- The destructor loop on a chain of `c.length` nodes, for any fuel that covers its
`c.length + 1` calls of `pop`. -/
theorem destructLoop_chain {T : Type} (c : List (Nat × T)) :
    ∀ (h : Heap T) (s : ListStack T), h.IsChain s.top c →
      ∃ h1, (∀ fuel count, c.length + 1 ≤ fuel →
          ListStack.destructLoop fuel count h s =
            .ok (count + c.length, (h1, ListStack.construct))) ∧
        runCalls ListStack.call (h, s) (List.replicate (c.length + 1) .pop) =
          (List.replicate c.length (.bool true) ++ [.bool false],
            (h1, ListStack.construct)) ∧
        h1.length = h.length ∧
        (∀ a ∈ c.map Prod.fst, h1[a]? = some none) ∧
        ∀ a, a ∉ c.map Prod.fst → h1[a]? = h[a]? := by
  induction c with
  | nil =>
    intro h s hc
    have e : s.top = none := hc
    have hs : s = ListStack.construct := by
      cases s
      simp only [ListStack.construct, ListStack.mk.injEq]
      exact e
    subst hs
    have hp : ListStack.pop h (ListStack.construct : ListStack T) =
        (.ok false, (h, ListStack.construct)) := rfl
    refine ⟨h, fun fuel count hf => ?_, ?_, rfl, by simp, fun a _ => rfl⟩
    · cases fuel with
      | zero => simp at hf
      | succ fuel => simp [ListStack.destructLoop, hp]
    · simp [runCalls, ListStack.call, hp]
  | cons av rest ih =>
    intro h s hc
    obtain ⟨nx, hp, hrest, hnot, hlt⟩ := chain_pop hc
    obtain ⟨h1, i1, i2, i3, i4, i5⟩ := ih (h.set av.1 none) ⟨nx⟩ hrest
    refine ⟨h1, fun fuel count hf => ?_, ?_, by simpa using i3, fun a ha => ?_, fun a ha => ?_⟩
    · cases fuel with
      | zero => simp at hf
      | succ fuel =>
        have := i1 fuel (count + 1) (by simp only [List.length_cons] at hf; omega)
        simp only [ListStack.destructLoop, hp, this, List.length_cons]
        congr 2
        omega
    · have hcall : ListStack.call (h, s) .pop = (.bool true, (h.set av.1 none, ⟨nx⟩)) := by
        simp [ListStack.call, hp]
      show runCalls ListStack.call (h, s) (.pop :: List.replicate (rest.length + 1) .pop) = _
      rw [runCalls_cons, hcall]
      simp only
      rw [i2]
      rfl
    · simp only [List.map_cons, List.mem_cons] at ha
      rcases ha with rfl | ha
      · rw [i5 _ hnot]
        simp [hlt]
      · exact i4 a ha
    · simp only [List.map_cons, List.mem_cons, not_or] at ha
      rw [i5 a ha.2, List.getElem?_set_ne (Ne.symm ha.1)]

/-- C19. Destruction of a `ListStack` releases every node by iteration: for every stack whose
chain `c` has `n = c.length` nodes, the destructor loop `while(pop()) {}` finishes after exactly
`n` calls of `pop` that return true followed by one that returns false; it leaves the stack
empty, every node of the chain released, and every other cell of the free store as it was. -/
theorem C19_destructor {T : Type} (h : Heap T) (s : ListStack T) (c : List (Nat × T))
    (hc : h.IsChain s.top c) :
    ∃ h1, ListStack.destruct h s = .ok (c.length, (h1, ListStack.construct)) ∧
      runCalls ListStack.call (h, s) (List.replicate (c.length + 1) .pop) =
        (List.replicate c.length (.bool true) ++ [.bool false], (h1, ListStack.construct)) ∧
      (ListStack.construct : ListStack T).isEmpty = true ∧
      (∀ a ∈ c.map Prod.fst, h1[a]? = some none) ∧
      ∀ a, a ∉ c.map Prod.fst → h1[a]? = h[a]? := by
  obtain ⟨h1, i1, i2, -, i4, i5⟩ := destructLoop_chain c h s hc
  refine ⟨h1, ?_, i2, rfl, i4, i5⟩
  have := i1 (h.length + 1) 0 (Nat.succ_le_succ (Heap.chain_length_le hc))
  simpa [ListStack.destruct] using this

/-- C19 at a concrete input: the stack holding 20, 10 in a free store with two nodes. -/
theorem C19_destructor_witness :
    Heap.IsChain [some ⟨(10 : Int), none⟩, some ⟨20, some 0⟩] (some 1) [(1, 20), (0, 10)] ∧
    ∃ h1, ListStack.destruct [some ⟨(10 : Int), none⟩, some ⟨20, some 0⟩] ⟨some 1⟩ =
      .ok (2, (h1, ListStack.construct)) := by
  have hw : Heap.IsChain [some ⟨(10 : Int), none⟩, some ⟨20, some 0⟩] (some 1)
      [(1, 20), (0, 10)] := ⟨rfl, some 0, rfl, rfl, none, rfl, rfl⟩
  obtain ⟨h1, e1, -⟩ := C19_destructor _ ⟨some 1⟩ _ hw
  exact ⟨hw, h1, e1⟩

/-! ## C17: a closing parenthesis in infixToPostFix -/

theorem listStep_close (st out : List Char) :
    listStep st out ')' =
      ((st.dropWhile fun t => t != '(').tail, out ++ st.takeWhile fun t => t != '(') := by
  unfold listStep
  rw [if_neg (by decide), if_neg (by decide), if_neg (by decide), if_pos rfl]

/-- C17. A `)` read by `infixToPostFix` in a state where the operator stack holds `st` (top
first) and the output is `out`.  If `st` contains no `(`, all of `st` is appended to the output
in pop order, the stack is left empty, no error is raised and the loop goes on with the next
character.  If `st` is `above`, then the nearest `(`, then `below`, only `above` is appended,
that `(` is discarded without being output, and the stack is left holding `below`. -/
theorem C17_closing_paren (stack : CharStack) (st out rest : List Char)
    (hs : stack.Holds st) :
    ('(' ∉ st → ∃ stack1, infixStep stack out ')' = .ok (stack1, out ++ st) ∧
      stack1.Holds [] ∧ stack1.isEmpty = true ∧
      infixLoop stack out (')' :: rest) = infixLoop stack1 (out ++ st) rest) ∧
    (∀ above below, st = above ++ '(' :: below → '(' ∉ above →
      ∃ stack1, infixStep stack out ')' = .ok (stack1, out ++ above) ∧
        stack1.Holds below ∧
        infixLoop stack out (')' :: rest) = infixLoop stack1 (out ++ above) rest) := by
  obtain ⟨stack1, e1, e2⟩ := infixStep_holds hs out ')' (fun h => absurd h (by decide))
  rw [listStep_close] at e1 e2
  constructor
  · intro hno
    have hspan := span_pending (fun t => t != '(') st []
      (fun t ht => by
        have : t ≠ '(' := fun h => hno (h ▸ ht)
        simpa using this)
      (fun t ht => by simp at ht)
    rw [List.append_nil] at hspan
    rw [hspan.1, hspan.2] at e1 e2
    exact ⟨stack1, e1, e2, by simp [ArrayStack.arr_isEmpty e2], by simp only [infixLoop, e1]⟩
  · intro above below hst hno
    have hspan := span_pending (fun t => t != '(') above ('(' :: below)
      (fun t ht => by
        have : t ≠ '(' := fun h => hno (h ▸ ht)
        simpa using this)
      (fun t ht => by
        simp only [List.head?_cons, Option.some.injEq] at ht
        subst ht
        decide)
    rw [hst, hspan.1, hspan.2] at e1 e2
    exact ⟨stack1, e1, e2, by simp only [infixLoop, e1]⟩

/-- C17 at a concrete input: a `)` read when the stack holds only `+`, as in "a+)". -/
theorem C17_closing_paren_witness :
    ∃ stack : CharStack, stack.Holds ['+'] ∧
      ∃ stack1, infixStep stack ['a'] ')' = .ok (stack1, ['a'] ++ ['+']) ∧ stack1.Holds [] := by
  have hw : ((ArrayStack.construct : CharStack).push '+').2.Holds ['+'] :=
    (ArrayStack.arr_push_ok ArrayStack.arr_holds_construct '+' (by decide)).2.1
  obtain ⟨stack1, h1, h2, -⟩ := (C17_closing_paren _ ['+'] ['a'] [] hw).1 (by decide)
  exact ⟨_, hw, stack1, h1, h2⟩

/-! ## C20: infixToPostFix only reorders -/

theorem count_tail_dropWhile (op : Char) (hop : op ≠ '(') (st : List Char) :
    (st.dropWhile fun t => t != '(').tail.count op = (st.dropWhile fun t => t != '(').count op := by
  cases hdw : st.dropWhile (fun t => t != '(') with
  | nil => rfl
  | cons x r =>
    have hx : x = '(' := by
      have := dropWhile_head_false _ _ _ _ hdw
      simpa using this
    subst hx
    have : ¬ ('(' = op) := fun h => hop h.symm
    simp [List.count_cons, this]

theorem count_span (op : Char) (p : Char → Bool) (st : List Char) :
    (st.takeWhile p).count op + (st.dropWhile p).count op = st.count op := by
  rw [← List.count_append, List.takeWhile_append_dropWhile]

/-- One step of the converter keeps letters out of the stack and appends to the letters of the
output exactly the letter read, if it is one. -/
theorem listStep_letters (st out : List Char) (ch : Char)
    (hst : ∀ t ∈ st, t.isAlpha = false) :
    (∀ t ∈ (listStep st out ch).1, t.isAlpha = false) ∧
    (listStep st out ch).2.filter Char.isAlpha =
      out.filter Char.isAlpha ++ [ch].filter Char.isAlpha := by
  have htw : ∀ (p : Char → Bool), (st.takeWhile p).filter Char.isAlpha = [] := fun p =>
    List.filter_eq_nil_iff.2 fun t ht => by
      simp [hst t ((List.takeWhile_sublist p).subset ht)]
  have hdw : ∀ (p : Char → Bool), ∀ t ∈ st.dropWhile p, t.isAlpha = false := fun p t ht =>
    hst t ((List.dropWhile_sublist p).subset ht)
  unfold listStep
  by_cases h1 : ch.isAlpha = true
  · rw [if_pos h1]
    exact ⟨hst, by simp⟩
  · rw [if_neg h1]
    have hA : ch.isAlpha = false := by simpa using h1
    have hnil : [ch].filter Char.isAlpha = [] := by simp [hA]
    rw [hnil, List.append_nil]
    by_cases h2 : ch = '+' ∨ ch = '-' ∨ ch = '*' ∨ ch = '/'
    · rw [if_pos h2]
      refine ⟨fun t ht => ?_, by simp [htw]⟩
      simp only [List.mem_cons] at ht
      rcases ht with rfl | ht
      · exact hA
      · exact hdw _ t ht
    · rw [if_neg h2]
      by_cases h3 : ch = '('
      · rw [if_pos h3]
        refine ⟨fun t ht => ?_, rfl⟩
        simp only [List.mem_cons] at ht
        rcases ht with rfl | ht
        · exact hA
        · exact hst t ht
      · rw [if_neg h3]
        by_cases h4 : ch = ')'
        · rw [if_pos h4]
          exact ⟨fun t ht => hdw _ t ((List.tail_sublist _).subset ht), by simp [htw]⟩
        · rw [if_neg h4]
          exact ⟨hst, rfl⟩

/-- One step of the converter adds to the operators held by output and stack together exactly
the operator read, if it is one. -/
theorem listStep_count (st out : List Char) (ch op : Char)
    (hop : op = '+' ∨ op = '-' ∨ op = '*' ∨ op = '/') :
    ((listStep st out ch).2 ++ (listStep st out ch).1).count op =
      (out ++ st).count op + [ch].count op := by
  have hopA : op.isAlpha = false := by
    rcases hop with rfl | rfl | rfl | rfl <;> decide
  have hopP : op ≠ '(' := by
    rcases hop with rfl | rfl | rfl | rfl <;> decide
  unfold listStep
  by_cases h1 : ch.isAlpha = true
  · rw [if_pos h1]
    simp only [List.count_append]
    omega
  · rw [if_neg h1]
    by_cases h2 : ch = '+' ∨ ch = '-' ∨ ch = '*' ∨ ch = '/'
    · rw [if_pos h2]
      have := count_span op (yields ch) st
      simp only [List.count_append, List.count_cons, List.count_nil]
      omega
    · rw [if_neg h2]
      have hne : ¬ (ch = op) := fun h => h2 (h ▸ hop)
      have hzero : [ch].count op = 0 := by simp [List.count_cons, hne]
      rw [hzero]
      by_cases h3 : ch = '('
      · rw [if_pos h3]
        simp [List.count_append, List.count_cons, hne]
      · rw [if_neg h3]
        by_cases h4 : ch = ')'
        · rw [if_pos h4]
          have := count_span op (fun t => t != '(') st
          have := count_tail_dropWhile op hopP st
          simp only [List.count_append]
          omega
        · rw [if_neg h4]
          rfl

/-- The loop of the converter keeps the letters in their order and the number of every
operator. -/
theorem listLoop_reorders (input : List Char) :
    ∀ (st out : List Char), (∀ t ∈ st, t.isAlpha = false) →
      (∀ t ∈ (listLoop st out input).1, t.isAlpha = false) ∧
      (listLoop st out input).2.filter Char.isAlpha =
        out.filter Char.isAlpha ++ input.filter Char.isAlpha ∧
      ∀ op, (op = '+' ∨ op = '-' ∨ op = '*' ∨ op = '/') →
        ((listLoop st out input).2 ++ (listLoop st out input).1).count op =
          (out ++ st).count op + input.count op := by
  induction input with
  | nil => intro st out hst; exact ⟨hst, by simp [listLoop], fun op _ => by simp [listLoop]⟩
  | cons ch rest ih =>
    intro st out hst
    obtain ⟨s1, s2⟩ := listStep_letters st out ch hst
    obtain ⟨i1, i2, i3⟩ := ih (listStep st out ch).1 (listStep st out ch).2 s1
    refine ⟨i1, ?_, fun op hop => ?_⟩
    · show (listLoop (listStep st out ch).1 (listStep st out ch).2 rest).2.filter Char.isAlpha = _
      rw [i2, s2, List.append_assoc, ← List.filter_append]
      rfl
    · show ((listLoop (listStep st out ch).1 (listStep st out ch).2 rest).2 ++
        (listLoop (listStep st out ch).1 (listStep st out ch).2 rest).1).count op = _
      rw [i3 op hop, listStep_count st out ch op hop]
      have : (ch :: rest).count op = [ch].count op + rest.count op := by
        rw [← List.count_append]
        rfl
      omega

/-- C20. `infixToPostFix` only reorders operators: for every input string of at most 64
characters, well-formed or not, it returns a string `out` such that deleting every non-letter
from `out` gives exactly the letters of the input in their original order, and each of the
operators `+ - * /` occurs in `out` exactly as many times as in the input. -/
theorem C20_reorders_only (input : List Char) (hlen : input.length ≤ 64) :
    ∃ out, infixToPostFix input = .ok out ∧
      out.filter Char.isAlpha = input.filter Char.isAlpha ∧
      ∀ op, (op = '+' ∨ op = '-' ∨ op = '*' ∨ op = '/') → out.count op = input.count op := by
  refine ⟨listConvert input,
    infixToPostFix_eq input (Nat.le_trans (List.countP_le_length _) hlen), ?_, ?_⟩
  · obtain ⟨i1, i2, -⟩ := listLoop_reorders input [] [] (by simp)
    have hst : (listLoop [] [] input).1.filter Char.isAlpha = [] :=
      List.filter_eq_nil_iff.2 fun t ht => by simp [i1 t ht]
    simp only [listConvert, List.filter_append, i2, hst]
    simp
  · intro op hop
    obtain ⟨-, -, i3⟩ := listLoop_reorders input [] [] (by simp)
    simpa [listConvert] using i3 op hop

/-- C20 at a concrete input: the ill-formed string "a+)(b*". -/
theorem C20_reorders_only_witness :
    ['a', '+', ')', '(', 'b', '*'].length ≤ 64 ∧
    ∃ out, infixToPostFix ['a', '+', ')', '(', 'b', '*'] = .ok out ∧
      out.filter Char.isAlpha = ['a', '+', ')', '(', 'b', '*'].filter Char.isAlpha ∧
      ∀ op, (op = '+' ∨ op = '-' ∨ op = '*' ∨ op = '/') →
        out.count op = ['a', '+', ')', '(', 'b', '*'].count op :=
  ⟨by decide, C20_reorders_only ['a', '+', ')', '(', 'b', '*'] (by decide)⟩

/-! ## C18: isSafe -/

namespace EightQueensSolver

theorem read_inside (s : EightQueensSolver) {r c : Nat} (hr : r < 8) (hc : c < 8) :
    s.read (r : Int) (c : Int) = .ok (s.cell r c) := by
  have h : 0 ≤ (r : Int) ∧ (r : Int) < (BOARD_SIZE : Int) ∧ 0 ≤ (c : Int) ∧
      (c : Int) < (BOARD_SIZE : Int) := by
    simp only [BOARD_SIZE]
    omega
  simp only [read, h, and_self, if_true, Int.toNat_ofNat]

/-- The first loop of `isSafe` from row `r` on: it runs to its end exactly when no row from `r`
to `row - 1` has a queen in column `col`. -/
theorem isSafeColumn_spec (s : EightQueensSolver) {row col : Nat} (hrow : row ≤ 8)
    (hcol : col < 8) :
    ∀ (k r fuel : Nat), r + k = row → k ≤ fuel →
      ∃ b, s.isSafeColumn row col fuel r = .ok b ∧
        (b = true ↔ ∀ r1, r ≤ r1 → r1 < row → s.cell r1 col ≠ 1) := by
  intro k
  induction k with
  | zero =>
    intro r fuel hr _
    refine ⟨true, ?_, by simp; intro r1 h1 h2; omega⟩
    unfold isSafeColumn
    have : ¬ ((r : Int) < (row : Int)) := by omega
    simp [this]
  | succ k ih =>
    intro r fuel hr hf
    cases fuel with
    | zero => omega
    | succ fuel =>
      have hlt : (r : Int) < (row : Int) := by omega
      obtain ⟨b, hb, hiff⟩ := ih (r + 1) fuel (by omega) (by omega)
      unfold isSafeColumn
      simp only [hlt, if_true, s.read_inside (show r < 8 by omega) hcol]
      by_cases hq : s.cell r col = 1
      · refine ⟨false, by simp [hq], by simp; exact ⟨r, Nat.le_refl _, by omega, hq⟩⟩
      · refine ⟨b, ?_, ?_⟩
        · simp only [hq, if_false]
          exact_mod_cast hb
        · rw [hiff]
          constructor
          · intro h r1 h1 h2
            rcases Nat.eq_or_lt_of_le h1 with rfl | h3
            · exact hq
            · exact h r1 h3 h2
          · intro h r1 h1 h2
            exact h r1 (by omega) h2

theorem isSafeUpLeft_outside (s : EightQueensSolver) (fuel : Nat) (r c : Int)
    (h : r < 0 ∨ c < 0) : s.isSafeUpLeft fuel r c = .ok true := by
  unfold isSafeUpLeft
  have : ¬ (0 ≤ r ∧ 0 ≤ c) := by omega
  simp [this]

/-- The second loop of `isSafe` from `(r, c)`: it runs to its end exactly when no square
`(r - k, c - k)` of the board has a queen. -/
theorem isSafeUpLeft_spec (s : EightQueensSolver) :
    ∀ (r c fuel : Nat), r < 8 → c < 8 → r + 1 ≤ fuel →
      ∃ b, s.isSafeUpLeft fuel r c = .ok b ∧
        (b = true ↔ ∀ k, k ≤ r → k ≤ c → s.cell (r - k) (c - k) ≠ 1) := by
  intro r
  induction r with
  | zero =>
    intro c fuel _ hc hf
    cases fuel with
    | zero => omega
    | succ fuel =>
      unfold isSafeUpLeft
      have hcond : 0 ≤ ((0 : Nat) : Int) ∧ 0 ≤ (c : Int) := by omega
      simp only [hcond, and_self, if_true, s.read_inside (show 0 < 8 by omega) hc]
      by_cases hq : s.cell 0 c = 1
      · refine ⟨false, by simp [hq], ⟨fun h => (by cases h), fun h => absurd hq ?_⟩⟩
        have := h 0 (Nat.zero_le _) (Nat.zero_le _)
        simpa using this
      · refine ⟨true, ?_, ?_⟩
        · simp only [hq, if_false]
          exact s.isSafeUpLeft_outside _ _ _ (Or.inl (by omega))
        · simp only [true_iff]
          intro k hk _
          have : k = 0 := by omega
          subst this
          simpa using hq
  | succ r ih =>
    intro c fuel hr hc hf
    cases fuel with
    | zero => omega
    | succ fuel =>
      unfold isSafeUpLeft
      have hcond : 0 ≤ ((r + 1 : Nat) : Int) ∧ 0 ≤ (c : Int) := by omega
      simp only [hcond, and_self, if_true, s.read_inside hr hc]
      by_cases hq : s.cell (r + 1) c = 1
      · refine ⟨false, by simp [hq], ⟨fun h => (by cases h), fun h => absurd hq ?_⟩⟩
        have := h 0 (Nat.zero_le _) (Nat.zero_le _)
        simpa using this
      · simp only [hq, if_false]
        cases c with
        | zero =>
          refine ⟨true, s.isSafeUpLeft_outside _ _ _ (Or.inr (by omega)), ?_⟩
          simp only [true_iff]
          intro k _ hk
          have : k = 0 := by omega
          subst this
          simpa using hq
        | succ c =>
          obtain ⟨b, hb, hiff⟩ := ih c fuel (by omega) (by omega) (by omega)
          refine ⟨b, ?_, ?_⟩
          · have e1 : (((r + 1 : Nat) : Int) - 1) = (r : Int) := by omega
            have e2 : (((c + 1 : Nat) : Int) - 1) = (c : Int) := by omega
            rw [e1, e2]
            exact hb
          · rw [hiff]
            constructor
            · intro h k hk1 hk2
              cases k with
              | zero => simpa using hq
              | succ k =>
                have := h k (by omega) (by omega)
                simpa using this
            · intro h k hk1 hk2
              have := h (k + 1) (by omega) (by omega)
              simpa using this

theorem isSafeUpRight_outside (s : EightQueensSolver) (fuel : Nat) (r c : Int)
    (h : r < 0 ∨ 8 ≤ c) : s.isSafeUpRight fuel r c = .ok true := by
  unfold isSafeUpRight
  have : ¬ (0 ≤ r ∧ c < (BOARD_SIZE : Int)) := by
    simp only [BOARD_SIZE]
    omega
  simp [this]

/-- The third loop of `isSafe` from `(r, c)`: it runs to its end exactly when no square
`(r - k, c + k)` of the board has a queen. -/
theorem isSafeUpRight_spec (s : EightQueensSolver) :
    ∀ (r c fuel : Nat), r < 8 → c ≤ 8 → r + 1 ≤ fuel →
      ∃ b, s.isSafeUpRight fuel r c = .ok b ∧
        (b = true ↔ ∀ k, k ≤ r → c + k < 8 → s.cell (r - k) (c + k) ≠ 1) := by
  intro r
  induction r with
  | zero =>
    intro c fuel _ hc hf
    by_cases hc8 : c < 8
    · cases fuel with
      | zero => omega
      | succ fuel =>
        unfold isSafeUpRight
        have hcond : 0 ≤ ((0 : Nat) : Int) ∧ (c : Int) < (BOARD_SIZE : Int) := by
          simp only [BOARD_SIZE]
          omega
        simp only [hcond, and_self, if_true, s.read_inside (show 0 < 8 by omega) hc8]
        by_cases hq : s.cell 0 c = 1
        · refine ⟨false, by simp [hq], ⟨fun h => (by cases h), fun h => absurd hq ?_⟩⟩
          have := h 0 (Nat.zero_le _) (by simpa using hc8)
          simpa using this
        · refine ⟨true, ?_, ?_⟩
          · simp only [hq, if_false]
            exact s.isSafeUpRight_outside _ _ _ (Or.inl (by omega))
          · simp only [true_iff]
            intro k hk _
            have : k = 0 := by omega
            subst this
            simpa using hq
    · refine ⟨true, s.isSafeUpRight_outside _ _ _ (Or.inr (by omega)), ?_⟩
      simp only [true_iff]
      intro k _ hk
      omega
  | succ r ih =>
    intro c fuel hr hc hf
    by_cases hc8 : c < 8
    · cases fuel with
      | zero => omega
      | succ fuel =>
        unfold isSafeUpRight
        have hcond : 0 ≤ ((r + 1 : Nat) : Int) ∧ (c : Int) < (BOARD_SIZE : Int) := by
          simp only [BOARD_SIZE]
          omega
        simp only [hcond, and_self, if_true, s.read_inside hr hc8]
        by_cases hq : s.cell (r + 1) c = 1
        · refine ⟨false, by simp [hq], ⟨fun h => (by cases h), fun h => absurd hq ?_⟩⟩
          have := h 0 (Nat.zero_le _) (by simpa using hc8)
          simpa using this
        · simp only [hq, if_false]
          obtain ⟨b, hb, hiff⟩ := ih (c + 1) fuel (by omega) (by omega) (by omega)
          refine ⟨b, ?_, ?_⟩
          · have e1 : (((r + 1 : Nat) : Int) - 1) = (r : Int) := by omega
            have e2 : ((c : Int) + 1) = ((c + 1 : Nat) : Int) := by omega
            rw [e1, e2]
            exact hb
          · rw [hiff]
            constructor
            · intro h k hk1 hk2
              cases k with
              | zero => simpa using hq
              | succ k =>
                have := h k (by omega) (by omega)
                have e3 : r + 1 - (k + 1) = r - k := by omega
                have e4 : c + (k + 1) = c + 1 + k := by omega
                rw [e3, e4]
                exact this
            · intro h k hk1 hk2
              have := h (k + 1) (by omega) (by omega)
              have e3 : r + 1 - (k + 1) = r - k := by omega
              have e4 : c + (k + 1) = c + 1 + k := by omega
              rw [e3, e4] at this
              exact this
    · refine ⟨true, s.isSafeUpRight_outside _ _ _ (Or.inr (by omega)), ?_⟩
      simp only [true_iff]
      intro k _ hk
      omega

end EightQueensSolver

/-- C18. For every board on which the rows `row..7` hold no queen and every square `(row, col)`
with `0 ≤ row, col < 8`, `isSafe(row, col)` returns, and returns true exactly when no queen in
the rows `0..row-1` stands in column `col` or on either diagonal through `(row, col)`.  The
method is `const`: it gives back a result only and cannot modify the board. -/
theorem C18_isSafe (s : EightQueensSolver) (row col : Nat) (hrow : row < 8) (hcol : col < 8)
    (hempty : ∀ r c, row ≤ r → r < 8 → c < 8 → s.cell r c ≠ 1) :
    ∃ b, s.isSafe row col = .ok b ∧
      (b = true ↔ ∀ r c, r < row → c < 8 → s.cell r c = 1 →
        c ≠ col ∧ r + c ≠ row + col ∧ r + col ≠ row + c) := by
  obtain ⟨b1, h1, i1⟩ := s.isSafeColumn_spec (Nat.le_of_lt hrow) hcol row 0 row (by simp)
    (Nat.le_refl _)
  obtain ⟨b2, h2, i2⟩ := s.isSafeUpLeft_spec row col (row + 1) hrow hcol (Nat.le_refl _)
  obtain ⟨b3, h3, i3⟩ := s.isSafeUpRight_spec row col (row + 1) hrow (Nat.le_of_lt hcol)
    (Nat.le_refl _)
  have e1 : ((row : Nat) : Int).toNat = row := Int.toNat_ofNat row
  have e2 : (((row : Nat) : Int) + 1).toNat = row + 1 := by omega
  have hsafe : s.isSafe row col = .ok (b1 && b2 && b3) := by
    unfold EightQueensSolver.isSafe
    rw [e1, e2]
    simp only [Nat.cast_zero] at h1
    rw [h1]
    cases b1
    · rfl
    · simp only [h2]
      cases b2
      · rfl
      · simpa using h3
  refine ⟨b1 && b2 && b3, hsafe, ?_⟩
  simp only [Bool.and_eq_true, i1, i2, i3]
  constructor
  · rintro ⟨⟨c1, c2⟩, c3⟩ r c hr hc hq
    refine ⟨?_, ?_, ?_⟩
    · rintro rfl
      exact c1 r (Nat.zero_le _) hr hq
    · intro hd
      have := c3 (row - r) (by omega) (by omega)
      have e3 : row - (row - r) = r := by omega
      have e4 : col + (row - r) = c := by omega
      rw [e3, e4] at this
      exact this hq
    · intro hd
      have := c2 (row - r) (by omega) (by omega)
      have e3 : row - (row - r) = r := by omega
      have e4 : col - (row - r) = c := by omega
      rw [e3, e4] at this
      exact this hq
  · intro h
    refine ⟨⟨fun r1 _ h2 hq => (h r1 col h2 hcol hq).1 rfl, fun k hk1 hk2 hq => ?_⟩,
      fun k hk1 hk2 hq => ?_⟩
    · by_cases hk : k = 0
      · subst hk
        exact hempty row col (Nat.le_refl _) hrow hcol (by simpa using hq)
      · exact (h (row - k) (col - k) (by omega) (by omega) hq).2.2 (by omega)
    · by_cases hk : k = 0
      · subst hk
        exact hempty row col (Nat.le_refl _) hrow hcol (by simpa using hq)
      · exact (h (row - k) (col + k) (by omega) hk2 hq).2.1 (by omega)

/-- C18 at a concrete input: the board with one queen at `(0, 0)` and the square `(1, 2)`. -/
theorem C18_isSafe_witness :
    (1 < 8 ∧ 2 < 8 ∧ ∀ r c, 1 ≤ r → r < 8 → c < 8 →
      (EightQueensSolver.construct.setCell 0 0 1).cell r c ≠ 1) ∧
    ∃ b, (EightQueensSolver.construct.setCell 0 0 1).isSafe 1 2 = .ok b ∧
      (b = true ↔ ∀ r c, r < 1 → c < 8 →
        (EightQueensSolver.construct.setCell 0 0 1).cell r c = 1 →
        c ≠ 2 ∧ r + c ≠ 1 + 2 ∧ r + 2 ≠ 1 + c) := by
  have hw : ∀ r c, 1 ≤ r → r < 8 → c < 8 →
      (EightQueensSolver.construct.setCell 0 0 1).cell r c ≠ 1 := by
    intro r c h1 h2 h3
    interval_cases r <;> interval_cases c <;> decide
  exact ⟨⟨by decide, by decide, hw⟩,
    C18_isSafe (EightQueensSolver.construct.setCell 0 0 1) 1 2 (by decide) (by decide) hw⟩

/-! ## C13, C14: solve -/

set_option maxRecDepth 100000 in
/-- C13. `solve()` called on a newly constructed `EightQueensSolver` returns the rendering of
the board it leaves, not the message "No solution found"; that grid has 8 lines and exactly 8
`Q` characters, all of them markers of squares, exactly one in every row and exactly one in
every column, and no two of them on the same diagonal. -/
theorem C13_solve_new :
    ∃ grid s1, EightQueensSolver.construct.solve = .ok (grid, s1) ∧
      grid = s1.boardToString ∧ grid ≠ EightQueensSolver.noSolution ∧
      (gridLines grid).length = 8 ∧ grid.count 'Q' = 8 ∧ (queensOf grid).length = 8 ∧
      (∀ r, r < 8 → ((queensOf grid).filter fun p => p.1 = r).length = 1) ∧
      (∀ c, c < 8 → ((queensOf grid).filter fun p => p.2 = c).length = 1) ∧
      (queensOf grid).Pairwise fun p q =>
        p.1 + p.2 ≠ q.1 + q.2 ∧ p.1 + q.2 ≠ q.1 + p.2 := by
  have h : EightQueensSolver.construct.solve = .ok
      (("Q . . . . . . .\n. . . . Q . . .\n. . . . . . . Q\n. . . . . Q . .\n" ++
        ". . Q . . . . .\n. . . . . . Q .\n. Q . . . . . .\n. . . Q . . . .\n").toList,
      (((((((EightQueensSolver.construct.setCell 0 0 1).setCell 1 4 1).setCell 2 7 1).setCell
        3 5 1).setCell 4 2 1).setCell 5 6 1).setCell 6 1 1).setCell 7 3 1) := by decide!
  exact ⟨_, _, h, by decide!, by decide!, by decide!, by decide!, by decide!, by decide!,
    by decide!, by decide!⟩

set_option maxRecDepth 100000 in
/-- C14, evaluated: the first `solve()` on a newly constructed object returns a grid and leaves
the 8 queens on the board; `solve()` does not clear the board, so the second call starts
`placeQueen(0)` on that board, finds no safe square in the last row and returns the message
"No solution found (unexpected for an 8x8 board).", leaving the board as it was. -/
theorem C14_second_solve :
    ∃ grid s1, EightQueensSolver.construct.solve = .ok (grid, s1) ∧
      grid ≠ EightQueensSolver.noSolution ∧
      s1.solve = .ok (EightQueensSolver.noSolution, s1) := by
  have h : EightQueensSolver.construct.solve = .ok
      (("Q . . . . . . .\n. . . . Q . . .\n. . . . . . . Q\n. . . . . Q . .\n" ++
        ". . Q . . . . .\n. . . . . . Q .\n. Q . . . . . .\n. . . Q . . . .\n").toList,
      (((((((EightQueensSolver.construct.setCell 0 0 1).setCell 1 4 1).setCell 2 7 1).setCell
        3 5 1).setCell 4 2 1).setCell 5 6 1).setCell 6 1 1).setCell 7 3 1) := by decide!
  exact ⟨_, _, h, by decide!, by decide!⟩

/-! ## C21: parentheses in the output of infixToPostFix -/

theorem not_mem_span {x : Char} {p : Char → Bool} {st : List Char} (h : x ∉ st) :
    x ∉ st.takeWhile p ∧ x ∉ st.dropWhile p :=
  ⟨fun hx => h ((List.takeWhile_sublist p).subset hx),
    fun hx => h ((List.dropWhile_sublist p).subset hx)⟩

theorem count_open_dropWhile (p : Char → Bool) (st : List Char)
    (hp : ∀ t, p t = true → t ≠ '(') :
    '(' ∉ st.takeWhile p ∧ (st.dropWhile p).count '(' = st.count '(' := by
  have h1 : '(' ∉ st.takeWhile p := fun hx => hp _ (List.mem_takeWhile_imp hx) rfl
  have h2 := count_span '(' p st
  rw [List.count_eq_zero_of_not_mem h1] at h2
  exact ⟨h1, by omega⟩

theorem count_open_tail (st : List Char) :
    (st.dropWhile fun t => t != '(').tail.count '(' =
      (st.dropWhile fun t => t != '(').count '(' - 1 := by
  cases hdw : st.dropWhile (fun t => t != '(') with
  | nil => rfl
  | cons x r =>
    have hx : x = '(' := by
      have := dropWhile_head_false _ _ _ _ hdw
      simpa using this
    subst hx
    simp

/-- One step of the converter keeps both parentheses out of the output and `)` out of the
stack, and changes the number of `(` on the stack as the number of open parentheses changes. -/
theorem listStep_parens (st out : List Char) (ch : Char) (h1 : '(' ∉ out) (h2 : ')' ∉ out)
    (h3 : ')' ∉ st) :
    '(' ∉ (listStep st out ch).2 ∧ ')' ∉ (listStep st out ch).2 ∧
    ')' ∉ (listStep st out ch).1 ∧
    (listStep st out ch).1.count '(' =
      if ch = '(' then st.count '(' + 1 else if ch = ')' then st.count '(' - 1
      else st.count '(' := by
  unfold listStep
  by_cases c1 : ch.isAlpha = true
  · have n1 : ch ≠ '(' := by rintro rfl; exact absurd c1 (by decide)
    have n2 : ch ≠ ')' := by rintro rfl; exact absurd c1 (by decide)
    rw [if_pos c1, if_neg n1, if_neg n2]
    refine ⟨?_, ?_, h3, rfl⟩
    · simp only [List.mem_append, List.mem_singleton, not_or]
      exact ⟨h1, fun h => n1 h.symm⟩
    · simp only [List.mem_append, List.mem_singleton, not_or]
      exact ⟨h2, fun h => n2 h.symm⟩
  · rw [if_neg c1]
    by_cases c2 : ch = '+' ∨ ch = '-' ∨ ch = '*' ∨ ch = '/'
    · have n1 : ch ≠ '(' := by rintro rfl; exact absurd c2 (by decide)
      have n2 : ch ≠ ')' := by rintro rfl; exact absurd c2 (by decide)
      rw [if_pos c2, if_neg n1, if_neg n2]
      obtain ⟨a1, a2⟩ := count_open_dropWhile (yields ch) st (fun t ht => by
        unfold yields at ht
        simp only [Bool.and_eq_true] at ht
        simpa using ht.1)
      obtain ⟨b1, b2⟩ := not_mem_span (p := yields ch) h3
      refine ⟨?_, ?_, ?_, ?_⟩
      · simp only [List.mem_append, not_or]
        exact ⟨h1, a1⟩
      · simp only [List.mem_append, not_or]
        exact ⟨h2, b1⟩
      · simp only [List.mem_cons, not_or]
        exact ⟨fun h => n2 h.symm, b2⟩
      · rw [List.count_cons, a2]
        have : ¬ (ch = '(') := n1
        simp [this]
    · rw [if_neg c2]
      by_cases c3 : ch = '('
      · subst c3
        rw [if_pos rfl, if_pos rfl]
        refine ⟨h1, h2, ?_, by simp⟩
        simp only [List.mem_cons, not_or]
        exact ⟨by decide, h3⟩
      · rw [if_neg c3, if_neg c3]
        by_cases c4 : ch = ')'
        · rw [if_pos c4, if_pos c4]
          obtain ⟨a1, a2⟩ := count_open_dropWhile (fun t => t != '(') st (fun t ht => by
            simpa using ht)
          obtain ⟨b1, b2⟩ := not_mem_span (p := fun t => t != '(') h3
          refine ⟨?_, ?_, fun h => b2 ((List.tail_sublist _).subset h), ?_⟩
          · simp only [List.mem_append, not_or]
            exact ⟨h1, a1⟩
          · simp only [List.mem_append, not_or]
            exact ⟨h2, b1⟩
          · rw [count_open_tail, a2]
        · rw [if_neg c4, if_neg c4]
          exact ⟨h1, h2, h3, rfl⟩

/-- The loop of the converter never outputs a parenthesis, and ends with as many `(` on the
stack as are still open. -/
theorem listLoop_parens (input : List Char) :
    ∀ (st out : List Char), '(' ∉ out → ')' ∉ out → ')' ∉ st →
      '(' ∉ (listLoop st out input).2 ∧ ')' ∉ (listLoop st out input).2 ∧
      ')' ∉ (listLoop st out input).1 ∧
      (listLoop st out input).1.count '(' = unclosedParensFrom (st.count '(') input := by
  induction input with
  | nil => intro st out h1 h2 h3; exact ⟨h1, h2, h3, rfl⟩
  | cons ch rest ih =>
    intro st out h1 h2 h3
    obtain ⟨s1, s2, s3, s4⟩ := listStep_parens st out ch h1 h2 h3
    obtain ⟨i1, i2, i3, i4⟩ := ih (listStep st out ch).1 (listStep st out ch).2 s1 s2 s3
    refine ⟨i1, i2, i3, ?_⟩
    show (listLoop (listStep st out ch).1 (listStep st out ch).2 rest).1.count '(' = _
    rw [i4, s4]
    rfl

/-- C21. Parentheses in the output of `infixToPostFix`: for every input string of at most 64
characters it returns a string `out` that contains no `)` and in which the number of `(` equals
the number of `(` of the input that no later `)` closes.  So the output of an input without
unclosed `(` has no parenthesis, and an input with an unclosed `(` leaks `(` into the output. -/
theorem C21_parentheses (input : List Char) (hlen : input.length ≤ 64) :
    ∃ out, infixToPostFix input = .ok out ∧ ')' ∉ out ∧
      out.count '(' = unclosedParens input ∧
      (unclosedParens input = 0 → '(' ∉ out) ∧
      (0 < unclosedParens input → '(' ∈ out) := by
  obtain ⟨i1, i2, i3, i4⟩ := listLoop_parens input [] [] (by simp) (by simp) (by simp)
  have hcount : (listConvert input).count '(' = unclosedParens input := by
    simp only [listConvert, List.count_append, List.count_eq_zero_of_not_mem i1, i4]
    simp [unclosedParens, unclosedParensFrom]
  refine ⟨listConvert input,
    infixToPostFix_eq input (Nat.le_trans (List.countP_le_length _) hlen), ?_, hcount,
    fun h0 => ?_, fun hpos => ?_⟩
  · simp only [listConvert, List.mem_append, not_or]
    exact ⟨i2, i3⟩
  · rw [← hcount] at h0
    exact List.count_eq_zero.1 h0
  · rw [← hcount] at hpos
    exact List.count_pos_iff.1 hpos

/-- C21 at a concrete input: "(a+b" has one unclosed `(`, which is leaked into the output
"ab+(". -/
theorem C21_parentheses_witness :
    ['(', 'a', '+', 'b'].length ≤ 64 ∧ unclosedParens ['(', 'a', '+', 'b'] = 1 ∧
    ∃ out, infixToPostFix ['(', 'a', '+', 'b'] = .ok out ∧ ')' ∉ out ∧ out.count '(' = 1 := by
  obtain ⟨out, h1, h2, h3, -⟩ := C21_parentheses ['(', 'a', '+', 'b'] (by decide)
  have hu : unclosedParens ['(', 'a', '+', 'b'] = 1 := by decide
  exact ⟨by decide, hu, out, h1, h2, by rw [h3, hu]⟩

/-! ## C22: backtracking restores the board -/

namespace EightQueensSolver

theorem row_length (s : EightQueensSolver) {r : Nat} (hr : r < 8) :
    (s.board.getD r []).length = 8 := by
  have h : r < s.board.length := by rw [s.rows_size]; exact hr
  rw [List.getD_eq_getElem _ _ h]
  exact s.cols_size _ (List.getElem_mem h)

/-- The cells of the board after one assignment. -/
theorem cell_setCell (s : EightQueensSolver) {r c : Nat} (v : Int) (hr : r < 8) (hc : c < 8)
    (r1 c1 : Nat) :
    (s.setCell r c v).cell r1 c1 = if r1 = r ∧ c1 = c then v else s.cell r1 c1 := by
  have h : r < s.board.length := by rw [s.rows_size]; exact hr
  have hl := s.row_length hr
  simp only [cell, setCell, List.getD_eq_getElem?_getD] at hl ⊢
  by_cases h1 : r1 = r
  · subst h1
    rw [List.getElem?_set_self h]
    simp only [Option.getD_some, true_and]
    by_cases h2 : c1 = c
    · subst h2
      rw [List.getElem?_set_self (by rw [hl]; exact hc)]
      simp
    · rw [List.getElem?_set_ne (Ne.symm h2)]
      simp [h2]
  · rw [List.getElem?_set_ne (Ne.symm h1)]
    simp [h1]

/-- Two boards with the same cells are the same board. -/
theorem ext_cells {s t : EightQueensSolver}
    (h : ∀ r c, r < 8 → c < 8 → s.cell r c = t.cell r c) : s = t := by
  have hs := s.rows_size
  have ht := t.rows_size
  have hb : s.board = t.board := by
    apply List.ext_getElem (by rw [hs, ht])
    intro i h1 h2
    have hi : i < 8 := by rw [hs] at h1; exact h1
    have l1 := s.cols_size _ (List.getElem_mem h1)
    have l2 := t.cols_size _ (List.getElem_mem h2)
    apply List.ext_getElem (by rw [l1, l2])
    intro j h3 h4
    have hj : j < 8 := by rw [l1] at h3; exact h3
    have := h i j hi hj
    simp only [cell, List.getD_eq_getElem _ _ h1, List.getD_eq_getElem _ _ h2,
      List.getD_eq_getElem _ _ h3, List.getD_eq_getElem _ _ h4] at this
    exact this
  cases s
  cases t
  simp only [mk.injEq]
  exact hb

/-- Placing a queen on an empty square and removing it again gives back the board. -/
theorem setCell_restore (s : EightQueensSolver) {r c : Nat} (hr : r < 8) (hc : c < 8)
    (h0 : s.cell r c = 0) : (s.setCell r c 1).setCell r c 0 = s := by
  apply ext_cells
  intro r1 c1 _ _
  rw [cell_setCell _ _ hr hc, cell_setCell _ _ hr hc]
  by_cases h : r1 = r ∧ c1 = c
  · rw [if_pos h, h.1, h.2, h0]
  · rw [if_neg h, if_neg h]

theorem binary_setCell (s : EightQueensSolver) {r c : Nat} (hr : r < 8) (hc : c < 8)
    (hs : s.Binary) : (s.setCell r c 1).Binary := by
  intro r1 c1 h1 h2
  rw [cell_setCell _ _ hr hc]
  by_cases h : r1 = r ∧ c1 = c
  · rw [if_pos h]
    exact Or.inr rfl
  · rw [if_neg h]
    exact hs r1 c1 h1 h2

theorem write_inside (s : EightQueensSolver) {r c : Nat} (v : Int) (hr : r < 8) (hc : c < 8) :
    s.write (r : Int) (c : Int) v = .ok (s.setCell r c v) := by
  have h : 0 ≤ (r : Int) ∧ (r : Int) < (BOARD_SIZE : Int) ∧ 0 ≤ (c : Int) ∧
      (c : Int) < (BOARD_SIZE : Int) := by
    simp only [BOARD_SIZE]
    omega
  simp only [write, h, and_self, if_true, Int.toNat_ofNat]

/-- On a square of the board `isSafe` returns, and it returns true only if the square itself
holds no queen. -/
theorem isSafe_total (s : EightQueensSolver) {row col : Nat} (hrow : row < 8) (hcol : col < 8) :
    ∃ b, s.isSafe row col = .ok b ∧ (b = true → s.cell row col ≠ 1) := by
  obtain ⟨b1, h1, -⟩ := s.isSafeColumn_spec (Nat.le_of_lt hrow) hcol row 0 row (by simp)
    (Nat.le_refl _)
  obtain ⟨b2, h2, i2⟩ := s.isSafeUpLeft_spec row col (row + 1) hrow hcol (Nat.le_refl _)
  obtain ⟨b3, h3, -⟩ := s.isSafeUpRight_spec row col (row + 1) hrow (Nat.le_of_lt hcol)
    (Nat.le_refl _)
  have e1 : ((row : Nat) : Int).toNat = row := Int.toNat_ofNat row
  have e2 : (((row : Nat) : Int) + 1).toNat = row + 1 := by omega
  have hsafe : s.isSafe row col = .ok (b1 && b2 && b3) := by
    unfold EightQueensSolver.isSafe
    rw [e1, e2]
    simp only [Nat.cast_zero] at h1
    rw [h1]
    cases b1
    · rfl
    · simp only [h2]
      cases b2
      · rfl
      · simpa using h3
  refine ⟨b1 && b2 && b3, hsafe, fun hb => ?_⟩
  simp only [Bool.and_eq_true] at hb
  have := i2.1 hb.1.2 0 (Nat.zero_le _) (Nat.zero_le _)
  simpa using this

/-- The column loop of `placeQueen(row)` returns, gives the board back as it was when it
returns false, and leaves a board of zeros and ones, provided the recursive call does so on
boards of zeros and ones. -/
theorem tryColumns_restores
    (recurse : EightQueensSolver → Int → Except Err (Bool × EightQueensSolver)) (row : Nat)
    (hrow : row < 8)
    (hrec : ∀ t : EightQueensSolver, t.Binary →
      ∃ b t1, recurse t ((row : Int) + 1) = .ok (b, t1) ∧ (b = false → t1 = t) ∧ t1.Binary) :
    ∀ (k col : Nat) (s : EightQueensSolver), col + k = 8 → s.Binary →
      ∃ b s1, tryColumns recurse row k s col = .ok (b, s1) ∧ (b = false → s1 = s) ∧
        s1.Binary := by
  intro k
  induction k with
  | zero =>
    intro col s hcol hs
    refine ⟨false, s, ?_, fun _ => rfl, hs⟩
    unfold tryColumns
    have : ¬ ((col : Int) < (BOARD_SIZE : Int)) := by
      simp only [BOARD_SIZE]
      omega
    simp [this]
  | succ k ih =>
    intro col s hcol hs
    have hc8 : col < 8 := by omega
    have hcond : (col : Int) < (BOARD_SIZE : Int) := by
      simp only [BOARD_SIZE]
      omega
    have hnext : (col : Int) + 1 = ((col + 1 : Nat) : Int) := by omega
    obtain ⟨b, hb, hq⟩ := s.isSafe_total hrow hc8
    unfold tryColumns
    simp only [hcond, if_true, hb]
    cases b with
    | false =>
      simp only [hnext]
      exact ih (col + 1) s (by omega) hs
    | true =>
      have h0 : s.cell row col = 0 := by
        rcases hs row col hrow hc8 with h | h
        · exact h
        · exact absurd h (hq rfl)
      simp only [s.write_inside 1 hrow hc8]
      obtain ⟨b1, t1, hr, ht, hbin⟩ :=
        hrec (s.setCell row col 1) (s.binary_setCell hrow hc8 hs)
      rw [hr]
      cases b1 with
      | true => exact ⟨true, t1, rfl, fun h => (by cases h), hbin⟩
      | false =>
        have e := ht rfl
        subst e
        simp only [(s.setCell row col 1).write_inside 0 hrow hc8, s.setCell_restore hrow hc8 h0,
          hnext]
        exact ih (col + 1) s (by omega) hs

/-- The method `placeQueen(row)` returns for every row from 0 to 8, gives the board back as it
was when it returns false, and leaves a board of zeros and ones, on boards of zeros and ones. -/
theorem placeQueen_restores :
    ∀ (fuel row : Nat) (s : EightQueensSolver), row ≤ 8 → 8 ≤ row + fuel → s.Binary →
      ∃ b s1, placeQueen fuel s row = .ok (b, s1) ∧ (b = false → s1 = s) ∧ s1.Binary := by
  intro fuel
  induction fuel with
  | zero =>
    intro row s h1 h2 hs
    have : row = 8 := by omega
    subst this
    exact ⟨true, s, rfl, fun h => (by cases h), hs⟩
  | succ fuel ih =>
    intro row s h1 h2 hs
    by_cases h8 : row = 8
    · subst h8
      exact ⟨true, s, rfl, fun h => (by cases h), hs⟩
    · have hne : ¬ ((row : Int) = (BOARD_SIZE : Int)) := by
        simp only [BOARD_SIZE]
        omega
      have hlt : row < 8 := by omega
      unfold placeQueen
      simp only [hne, if_false]
      have := tryColumns_restores (placeQueen fuel) row hlt (fun t ht => by
        have := ih (row + 1) t (by omega) (by omega) ht
        simpa using this) 8 0 s (by simp) hs
      simpa [BOARD_SIZE] using this

/-- The constructor leaves a board of zeros. -/
theorem binary_construct : construct.Binary := by
  intro r c hr hc
  have h : ∀ r, r < 8 → ∀ c, c < 8 → construct.cell r c = 0 ∨ construct.cell r c = 1 := by
    decide
  exact h r hr c hc

/-- The method `solve` returns on every board of zeros and ones and leaves such a board.  With
`binary_construct` this makes zeros and ones an invariant of the class: the board is private,
and the constructor and `solve` are the only public members that write it. -/
theorem solve_binary (s : EightQueensSolver) (hs : s.Binary) :
    ∃ grid s1, s.solve = .ok (grid, s1) ∧ s1.Binary := by
  obtain ⟨b, s1, h1, -, h3⟩ := placeQueen_restores 8 0 s (by decide) (by decide) hs
  have h1 : placeQueen BOARD_SIZE s 0 = .ok (b, s1) := h1
  cases b with
  | true => exact ⟨s1.boardToString, s1, by simp only [solve, h1], h3⟩
  | false => exact ⟨noSolution, s1, by simp only [solve, h1], h3⟩

end EightQueensSolver

/-- C22. Backtracking restores the board: for every content of the board that an object of the
class can hold, that is with 0 or 1 in every cell (the board is private and the class writes
nothing else to it), and every row from 0 to 8, `placeQueen(row)` returns, and if it returns
false the board after the call is identical, cell for cell, to the board before the call. -/
theorem C22_backtracking_restores (s : EightQueensSolver) (row fuel : Nat) (hrow : row ≤ 8)
    (hfuel : 8 ≤ row + fuel) (hbin : s.Binary) :
    ∃ b s1, EightQueensSolver.placeQueen fuel s row = .ok (b, s1) ∧
      (b = false → s1 = s ∧ ∀ r c, s1.cell r c = s.cell r c) := by
  obtain ⟨b, s1, h1, h2, -⟩ := EightQueensSolver.placeQueen_restores fuel row s hrow hfuel hbin
  exact ⟨b, s1, h1, fun hb => ⟨h2 hb, fun r c => by rw [h2 hb]⟩⟩

set_option maxRecDepth 100000 in
/-- C22 at a concrete input: with queens at `(0, 0)` and `(1, 2)` only, `placeQueen(2)` tries
and removes queens in the rows below, returns false, and leaves the board as it was. -/
theorem C22_backtracking_restores_witness :
    (2 ≤ 8 ∧ 8 ≤ 2 + 6 ∧ ((EightQueensSolver.construct.setCell 0 0 1).setCell 1 2 1).Binary) ∧
    (∃ b s1, EightQueensSolver.placeQueen 6
        ((EightQueensSolver.construct.setCell 0 0 1).setCell 1 2 1) 2 = .ok (b, s1) ∧
      (b = false → s1 = (EightQueensSolver.construct.setCell 0 0 1).setCell 1 2 1 ∧
        ∀ r c, s1.cell r c =
          ((EightQueensSolver.construct.setCell 0 0 1).setCell 1 2 1).cell r c)) ∧
    EightQueensSolver.placeQueen 6
      ((EightQueensSolver.construct.setCell 0 0 1).setCell 1 2 1) 2 =
      .ok (false, (EightQueensSolver.construct.setCell 0 0 1).setCell 1 2 1) := by
  have hw : ((EightQueensSolver.construct.setCell 0 0 1).setCell 1 2 1).Binary :=
    EightQueensSolver.binary_setCell _ (by decide) (by decide)
      (EightQueensSolver.binary_setCell _ (by decide) (by decide)
        EightQueensSolver.binary_construct)
  exact ⟨⟨by decide, by decide, hw⟩,
    C22_backtracking_restores _ 2 6 (by decide) (by decide) hw, by decide!⟩

/-! ## C23: the solution found is the first one -/

theorem safeAfter_valid {cols : List Nat} (hv : ValidPlacement cols) {n : Nat} (hn : n < 8) :
    safeAfter (cols.take n) (cols.getD n 0) = true := by
  have hlen : (cols.take n).length = n := by
    rw [List.length_take, hv.1]
    omega
  unfold safeAfter
  rw [hlen, List.all_eq_true]
  intro i hi
  have hi : i < n := List.mem_range.1 hi
  have hget : (cols.take n).getD i 0 = cols.getD i 0 := by
    simp only [List.getD_eq_getElem?_getD, List.getElem?_take, hi, if_true]
  obtain ⟨h1, h2, h3⟩ := hv.2.2 i n hi hn
  rw [hget]
  simp only [Bool.and_eq_true, bne_iff_ne, ne_eq]
  exact ⟨⟨h1, h2⟩, h3⟩

/-- Every valid placement is found by the search from each of its leading parts. -/
theorem placements_complete {cols : List Nat} (hv : ValidPlacement cols) :
    ∀ k, k ≤ 8 → cols ∈ placements k (cols.take (8 - k)) := by
  intro k
  induction k with
  | zero =>
    intro _
    have : cols.take (8 - 0) = cols := List.take_of_length_le (by rw [hv.1])
    rw [this]
    simp [placements]
  | succ k ih =>
    intro hk
    have hn : 8 - (k + 1) < 8 := by omega
    have hlt : 8 - (k + 1) < cols.length := by rw [hv.1]; exact hn
    have hc : cols.getD (8 - (k + 1)) 0 < 8 := by
      rw [List.getD_eq_getElem _ _ hlt]
      exact hv.2.1 _ (List.getElem_mem hlt)
    have hnext : cols.take (8 - (k + 1)) ++ [cols.getD (8 - (k + 1)) 0] = cols.take (8 - k) := by
      have e : 8 - k = (8 - (k + 1)) + 1 := by omega
      rw [e, List.take_succ, List.getElem?_eq_getElem hlt, List.getD_eq_getElem _ _ hlt]
      rfl
    simp only [placements, List.mem_flatMap, List.mem_range]
    refine ⟨cols.getD (8 - (k + 1)) 0, hc, ?_⟩
    rw [if_pos (safeAfter_valid hv hn), hnext]
    exact ih (by omega)

set_option maxRecDepth 100000 in
/-- What `solve()` returns on a newly constructed solver, and the board it leaves. -/
theorem solve_new_eval :
    EightQueensSolver.construct.solve = .ok
      (("Q . . . . . . .\n. . . . Q . . .\n. . . . . . . Q\n. . . . . Q . .\n" ++
        ". . Q . . . . .\n. . . . . . Q .\n. Q . . . . . .\n. . . Q . . . .\n").toList,
      (((((((EightQueensSolver.construct.setCell 0 0 1).setCell 1 4 1).setCell 2 7 1).setCell
        3 5 1).setCell 4 2 1).setCell 5 6 1).setCell 6 1 1).setCell 7 3 1) := by
  decide!

set_option maxRecDepth 100000 in
/-- The columns 0, 4, 7, 5, 2, 6, 1, 3 are a valid placement. -/
theorem first_placement_valid : ValidPlacement [0, 4, 7, 5, 2, 6, 1, 3] := by
  have hdiag : ∀ j, j < 8 → ∀ i, i < j →
      [0, 4, 7, 5, 2, 6, 1, 3].getD i 0 ≠ [0, 4, 7, 5, 2, 6, 1, 3].getD j 0 ∧
      [0, 4, 7, 5, 2, 6, 1, 3].getD i 0 + j ≠ [0, 4, 7, 5, 2, 6, 1, 3].getD j 0 + i ∧
      [0, 4, 7, 5, 2, 6, 1, 3].getD i 0 + i ≠ [0, 4, 7, 5, 2, 6, 1, 3].getD j 0 + j := by
    decide!
  exact ⟨rfl, by decide!, fun i j hij hj => hdiag j hj i hij⟩

set_option maxRecDepth 100000 in
/-- None of the placements found by the complete search comes before 0, 4, 7, 5, 2, 6, 1, 3. -/
theorem placements_not_before :
    (placements 8 []).all (fun x => !lexLt x [0, 4, 7, 5, 2, 6, 1, 3]) = true := by
  decide!

/-- No valid placement comes before 0, 4, 7, 5, 2, 6, 1, 3 in the lexicographic order. -/
theorem first_placement_minimal (cols : List Nat) (hv : ValidPlacement cols) :
    lexLt cols [0, 4, 7, 5, 2, 6, 1, 3] = false := by
  have hmem := placements_complete hv 8 (Nat.le_refl _)
  have h0 : cols.take (8 - 8) = [] := rfl
  rw [h0] at hmem
  have := List.all_eq_true.1 placements_not_before cols hmem
  simpa using this

set_option maxRecDepth 100000 in
/-- C23. `solve()` on a newly constructed solver returns the lexicographically first solution
in row-by-row column order: in the returned grid and on the board left behind the queens of
rows 0..7 stand in columns 0, 4, 7, 5, 2, 6, 1, 3; this is a valid 8-queens placement; and no
valid 8-queens placement has a lexicographically smaller column sequence. -/
theorem C23_first_solution :
    (∃ grid s1, EightQueensSolver.construct.solve = .ok (grid, s1) ∧
      queensOf grid = [(0, 0), (1, 4), (2, 7), (3, 5), (4, 2), (5, 6), (6, 1), (7, 3)] ∧
      ∀ r, r < 8 → ∀ c, c < 8 → (s1.cell r c = 1 ↔ [0, 4, 7, 5, 2, 6, 1, 3].getD r 0 = c)) ∧
    ValidPlacement [0, 4, 7, 5, 2, 6, 1, 3] ∧
    ∀ cols, ValidPlacement cols → lexLt cols [0, 4, 7, 5, 2, 6, 1, 3] = false :=
  ⟨⟨_, _, solve_new_eval, by decide!, by decide!⟩, first_placement_valid,
    first_placement_minimal⟩

end Lab2
